import Mathlib

/-!
# A verification of the skip-list index (sequential and atomic single-writer variants)

This file gives a shallow embedding of the two skip-list implementations
(the sequential `SkipList` and the lock-free single-writer
`SkipListAtomicSingleWriter`) and proves the key functional-correctness,
invariant, and refinement properties about them.

Modelling conventions:
* The templated key/value types are instantiated at `Int` (any totally
  ordered key type; the unit tests use `int` keys and values, including
  negative keys).
* Pointers are modelled by a heap: a `List Node` indexed by natural-number
  addresses; `none` models a null pointer, `some a` a pointer to address `a`.
  Allocation (`make_unique` / `new`) appends at the end of the heap, so a
  fresh node always gets address `nodes.length`.
* `rand() & 1` is modelled by an explicit oracle `coins : Nat → Bool`
  together with a position counter that advances by one at each draw.
* The `while` loops and the recursion on raw pointers are given explicit
  fuel; call sites pass the structural bounds (`nodes.length` for a walk
  along a level, `heads.length` for the descent through the levels), which
  are shown sufficient under the structure invariant.
* An access `heads[0]` on an empty `std::vector` has no defined result in
  the source, so the operations that perform it (`upsert`, `find`) return
  an `Option`, with `none` for the out-of-range branch.
-/

namespace SkipList

abbrev Key := Int
abbrev Val := Int

/-- One cell of the skip list: `down` and `next` links (null modelled as
`none`), an optional key and an optional value (absent only on sentinels).
Mirrors `SkipList::Node`. -/
structure Node where
  down : Option Nat
  next : Option Nat
  k : Option Key
  v : Option Val
deriving DecidableEq, Repr

/-- The index state: the heap of nodes and the vector of per-level sentinel
addresses (`heads`), top level first. Mirrors the data members of
`SkipList`. -/
structure SL where
  nodes : List Node
  heads : List Nat
deriving DecidableEq, Repr

/-- The comparison `next->k > k` from `findInLevel`, where `next->k` is a
`std::optional<TKey>`: an empty optional compares less than every engaged
value, so the comparison is false for `none`. -/
def optGtKey (o : Option Key) (x : Key) : Bool :=
  match o with
  | none => false
  | some y => decide (x < y)

/-- Model of `SkipList::findInLevel`: walk forward along `next` while the next node
exists and its key is `<= k`; return the last node visited. The walk is
given explicit fuel; call sites pass `nodes.length`, which is enough for
any acyclic chain. Reading through a dangling address stops the walk (the
source would have no defined result there; the invariant rules it out). -/
def findInLevel (nodes : List Node) : Nat → Nat → Key → Nat
  | 0, current, _ => current
  | fuel + 1, current, k =>
    match nodes[current]? with
    | none => current
    | some c =>
      match c.next with
      | none => current
      | some nxt =>
        match nodes[nxt]? with
        | none => current
        | some n =>
          if optGtKey n.k k then current
          else findInLevel nodes fuel nxt k

/-- Model of `SkipList::chainNode`: splice the (already allocated) node at `newAddr`
in after `previous`: first `newNode->next = previous->next`, then
`previous->next = newNode`. -/
def chainNode (nodes : List Node) (previous newAddr : Nat) : List Node :=
  match nodes[previous]?, nodes[newAddr]? with
  | some p, some nw =>
    (nodes.set newAddr { nw with next := p.next }).set previous
      { p with next := some newAddr }
  | _, _ => nodes

/-- Model of `SkipList::upsertRec`. Returns the promotion candidate (`nullptr`
modelled as `none`), the new heap, and the new coin position. The recursion
descends one level per call; the explicit fuel is the number of levels
remaining (the caller passes `heads.length`). -/
def upsertRec (coins : Nat → Bool) (k : Key) (v : Val) :
    List Node → Nat → Option Nat → Nat → Option Nat × List Node × Nat
  | nodes, pos, none, _ => (none, nodes, pos)
  | nodes, pos, some _, 0 => (none, nodes, pos)
  | nodes, pos, some cur, fuel + 1 =>
    let insertAddr := findInLevel nodes nodes.length cur k
    match nodes[insertAddr]? with
    | none => (none, nodes, pos)
    | some insertNode =>
      if insertNode.k = some k then
        -- update case
        let nodes1 := nodes.set insertAddr { insertNode with v := some v }
        let r := upsertRec coins k v nodes1 pos insertNode.down fuel
        (none, r.2.1, r.2.2)
      else
        match insertNode.down with
        | none =>
          -- we need an insert at the leaf level
          let newAddr := nodes.length
          let nodes1 := nodes ++ [⟨none, none, some k, some v⟩]
          (some newAddr, chainNode nodes1 insertAddr newAddr, pos)
        | some d =>
          let r := upsertRec coins k v nodes pos (some d) fuel
          match r.1 with
          | none => (none, r.2.1, r.2.2)
          | some childAddr =>
            -- insert at higher level with p=0.5
            if coins r.2.2 then
              let newAddr := r.2.1.length
              let nodes1 := r.2.1 ++ [⟨some childAddr, none, some k, some v⟩]
              (some newAddr, chainNode nodes1 insertAddr newAddr, r.2.2 + 1)
            else
              (none, r.2.1, r.2.2 + 1)

/-- The constructor loop of `SkipList::SkipList(size_t height)`: allocate a
fresh sentinel per level, link the previous sentinel's `down` to it, and
push its address onto `heads`. -/
def mkLoop (nodes : List Node) (heads : List Nat) (prev : Option Nat) :
    Nat → SL
  | 0 => ⟨nodes, heads⟩
  | n + 1 =>
    let newAddr := nodes.length
    let nodes1 := nodes ++ [⟨none, none, none, none⟩]
    let nodes2 :=
      match prev with
      | none => nodes1
      | some p =>
        match nodes1[p]? with
        | some pn => nodes1.set p { pn with down := some newAddr }
        | none => nodes1
    mkLoop nodes2 (heads ++ [newAddr]) (some newAddr) n

/-- Model of the constructor `SkipList::SkipList(size_t height)`. -/
def mkSkipList (height : Nat) : SL := mkLoop [] [] none height

/-- Model of `SkipList::upsert`: `upsertRec(heads[0].get(), k, v)`. The access
`heads[0]` on an empty `heads` vector has no defined result; that branch is
modelled by `none`. -/
def upsert (s : SL) (coins : Nat → Bool) (pos : Nat) (k : Key) (v : Val) :
    Option (SL × Nat) :=
  match s.heads[0]? with
  | none => none
  | some h0 =>
    let r := upsertRec coins k v s.nodes pos (some h0) s.heads.length
    some (⟨r.2.1, s.heads⟩, r.2.2)

/-- The descent loop of `SkipList::find`: while the current match node has
a non-null `down`, return its value on a key match, else search the level
below starting from `down`. After the loop, return the value only on a key
match. Fuel is the number of levels (`heads.length` at the call site). -/
def findLoop (nodes : List Node) (k : Key) : Nat → Nat → Option Val
  | 0, _ => none
  | fuel + 1, m =>
    match nodes[m]? with
    | none => none
    | some mn =>
      match mn.down with
      | some d =>
        if mn.k = some k then mn.v
        else findLoop nodes k fuel (findInLevel nodes nodes.length d k)
      | none => if mn.k = some k then mn.v else none

/-- Model of `SkipList::find`. The outer `Option` is for the `heads[0]` access on an
empty `heads` vector (no defined result); the inner `Option Val` is the
`std::optional<TVal>` return value. -/
def find (s : SL) (k : Key) : Option (Option Val) :=
  match s.heads[0]? with
  | none => none
  | some h0 =>
    some (findLoop s.nodes k s.heads.length
      (findInLevel s.nodes s.nodes.length h0 k))

/-- Model of `SkipList::clear`: walk each level moving the owning `next` pointers
(which frees every real node), then `heads.clear()` (which frees the
sentinels). The resulting state owns no nodes and has an empty `heads`
vector. -/
def clear (_s : SL) : SL := ⟨[], []⟩

/-- Run a sequence of upserts, threading the heap and the coin position. -/
def runUpserts (coins : Nat → Bool) :
    SL → Nat → List (Key × Val) → Option (SL × Nat)
  | s, pos, [] => some (s, pos)
  | s, pos, (k, v) :: ops =>
    match upsert s coins pos k v with
    | none => none
    | some (s1, pos1) => runUpserts coins s1 pos1 ops

/-! ## The ideal model: sorted association lists

The per-level contents of the skip list are abstracted as association
lists of key-value pairs; the bottom level is the authoritative map. -/

/-- Insert-or-update on an association list, keeping sorted order when the
input is sorted. -/
def listUpsert (k : Key) (v : Val) : List (Key × Val) → List (Key × Val)
  | [] => [(k, v)]
  | (k', v') :: l =>
    if k = k' then (k, v) :: l
    else if k < k' then (k, v) :: (k', v') :: l
    else (k', v') :: listUpsert k v l

/-- Lookup of the first binding of a key in an association list. -/
def listFind (k : Key) : List (Key × Val) → Option Val
  | [] => none
  | (k', v') :: l => if k' = k then some v' else listFind k l

/-- Overwrite the value of every binding of `k`, leaving other bindings and
the key sequence unchanged. -/
def listUpdateVal (k : Key) (v : Val) (l : List (Key × Val)) :
    List (Key × Val) :=
  l.map fun p => if p.1 = k then (k, v) else p

/-- The value of the most recent upsert of key `k` in an operation
sequence, if any: last writer wins. -/
def specLookup (ops : List (Key × Val)) (k : Key) : Option Val :=
  ops.foldl (fun acc p => if p.1 = k then some p.2 else acc) none

/-- Keys of an association list. -/
def keysOf (l : List (Key × Val)) : List Key := l.map Prod.fst

/-- Strictly increasing key order of an association list. -/
def SortedKV (l : List (Key × Val)) : Prop := (keysOf l).Chain' (· < ·)

theorem listFind_isSome_iff {k : Key} :
    ∀ {l : List (Key × Val)}, (listFind k l).isSome ↔ k ∈ keysOf l := by
  intro l
  induction l with
  | nil => simp [listFind, keysOf]
  | cons p l ih =>
    obtain ⟨k', v'⟩ := p
    by_cases h : k' = k <;> simp [listFind, keysOf, h, ih]
    · exact fun h' => (h h'.symm).elim

theorem listFind_listUpsert (k q : Key) (v : Val) :
    ∀ (l : List (Key × Val)),
      listFind q (listUpsert k v l) =
        if k = q then some v else listFind q l := by
  intro l
  induction l with
  | nil => simp [listUpsert, listFind]
  | cons p l ih =>
    obtain ⟨k', v'⟩ := p
    by_cases h1 : k = k'
    · subst h1
      by_cases h2 : k = q <;> simp [listUpsert, listFind, h2]
    · by_cases h2 : k < k'
      · simp [listUpsert, h1, h2, listFind]
      · by_cases h3 : k' = q
        · subst h3
          simp [listUpsert, h1, h2, listFind, ih,
            fun h : k = k' => h1 h]
        · simp [listUpsert, h1, h2, listFind, h3, ih]

theorem listFind_listUpdateVal (k q : Key) (v : Val) :
    ∀ (l : List (Key × Val)),
      listFind q (listUpdateVal k v l) =
        if k = q then (listFind q l).map (fun _ => v) else listFind q l := by
  intro l
  induction l with
  | nil => simp [listUpdateVal, listFind]
  | cons p l ih =>
    obtain ⟨k', v'⟩ := p
    show listFind q
        ((if k' = k then (k, v) else (k', v')) :: listUpdateVal k v l) = _
    by_cases h1 : k' = k
    · subst h1
      rw [if_pos rfl]
      by_cases h2 : k' = q
      · subst h2
        simp [listFind]
      · simp only [listFind, if_neg h2, ih]
    · rw [if_neg h1]
      by_cases h2 : k' = q
      · subst h2
        have hkq : ¬ k = k' := fun h => h1 h.symm
        simp [listFind, hkq]
      · simp only [listFind, if_neg h2, ih]

theorem keysOf_listUpdateVal (k : Key) (v : Val) (l : List (Key × Val)) :
    keysOf (listUpdateVal k v l) = keysOf l := by
  induction l with
  | nil => rfl
  | cons p l ih =>
    obtain ⟨k', v'⟩ := p
    show (if k' = k then (k, v) else (k', v')).1 ::
        keysOf (listUpdateVal k v l) = k' :: keysOf l
    by_cases h : k' = k
    · subst h
      rw [if_pos rfl, ih]
    · rw [if_neg h, ih]

/-- A sorted list with `(k, v)` spliced in at its sorted position is
exactly what `listUpsert` produces from the list without it. -/
theorem listUpsert_eq_splice (k : Key) (v : Val) :
    ∀ (e₁ e₂ : List (Key × Val)), SortedKV (e₁ ++ (k, v) :: e₂) →
      listUpsert k v (e₁ ++ e₂) = e₁ ++ (k, v) :: e₂ := by
  intro e₁
  induction e₁ with
  | nil =>
    intro e₂ hs
    cases e₂ with
    | nil => simp [listUpsert]
    | cons p l =>
      obtain ⟨k', v'⟩ := p
      have hk : k < k' := by
        have := hs
        simp only [SortedKV, keysOf, List.map, List.nil_append,
          List.map_cons, List.chain'_cons] at this
        exact this.1
      have hne : ¬ k = k' := ne_of_lt hk
      simp [listUpsert, hne, hk]
  | cons p e₁ ih =>
    intro e₂ hs
    obtain ⟨k', v'⟩ := p
    have hpair : List.Pairwise (· < ·)
        (keysOf ((k', v') :: (e₁ ++ (k, v) :: e₂))) := by
      have : SortedKV ((k', v') :: (e₁ ++ (k, v) :: e₂)) := hs
      simpa [SortedKV, List.chain'_iff_pairwise] using this
    have hk'k : k' < k := by
      have h1 : List.Pairwise (· < ·) (k' :: keysOf (e₁ ++ (k, v) :: e₂)) := by
        simpa [keysOf] using hpair
      exact (List.pairwise_cons.mp h1).1 k (by simp [keysOf])
    have hne : ¬ k = k' := ne_of_gt hk'k
    have hnlt : ¬ k < k' := not_lt_of_gt hk'k
    have htail : SortedKV (e₁ ++ (k, v) :: e₂) := by
      have : List.Chain' (· < ·)
          (keysOf ((k', v') :: (e₁ ++ (k, v) :: e₂))) := hs
      simpa [SortedKV, keysOf] using (List.Chain'.tail (by
        simpa [keysOf] using this))
    simp only [List.cons_append, listUpsert, hne, hnlt, if_false]
    simp only [List.append_eq]
    rw [ih e₂ htail]

theorem listFind_foldl (q : Key) :
    ∀ (ops : List (Key × Val)) (e : List (Key × Val)),
      listFind q (ops.foldl (fun e p => listUpsert p.1 p.2 e) e) =
        ops.foldl (fun acc p => if p.1 = q then some p.2 else acc)
          (listFind q e) := by
  intro ops
  induction ops with
  | nil => intro e; rfl
  | cons p ops ih =>
    intro e
    obtain ⟨k, v⟩ := p
    simp only [List.foldl_cons]
    rw [ih, listFind_listUpsert]

/-! ## Chains: the pointer structure of one level -/

/-- Key stored at address `a` (none when the address is dead or the key is
absent). -/
def keyAt (nodes : List Node) (a : Nat) : Option Key :=
  match nodes[a]? with
  | some n => n.k
  | none => none

/-- Value stored at address `a`. -/
def valAt (nodes : List Node) (a : Nat) : Option Val :=
  match nodes[a]? with
  | some n => n.v
  | none => none

/-- The `next` links starting at `a` pass exactly through the addresses of
`c`, in order. -/
def ChainSeg (nodes : List Node) : Nat → List Nat → Prop
  | _, [] => True
  | a, b :: l =>
    (∃ n, nodes[a]? = some n ∧ n.next = some b) ∧ ChainSeg nodes b l

/-- Last element of `a :: l`. -/
def lastOf (a : Nat) (l : List Nat) : Nat := l.getLastD a

/-- A complete level chain: the `next` links from `a` run through `c` and
the final node's `next` is null. -/
def IsChain (nodes : List Node) (a : Nat) (c : List Nat) : Prop :=
  ChainSeg nodes a c ∧ ∃ n, nodes[lastOf a c]? = some n ∧ n.next = none

theorem lastOf_nil (a : Nat) : lastOf a [] = a := rfl

theorem lastOf_cons (a b : Nat) (l : List Nat) :
    lastOf a (b :: l) = lastOf b l := List.getLastD_cons a b l

theorem lastOf_append (a : Nat) (l₁ l₂ : List Nat) :
    lastOf a (l₁ ++ l₂) = lastOf (lastOf a l₁) l₂ := by
  induction l₁ generalizing a with
  | nil => rfl
  | cons b l ih => rw [List.cons_append, lastOf_cons, lastOf_cons, ih]

theorem lastOf_mem (a : Nat) (c : List Nat) : lastOf a c ∈ a :: c := by
  induction c generalizing a with
  | nil => simp [lastOf_nil]
  | cons b l ih =>
    rw [lastOf_cons]
    rcases List.mem_cons.mp (ih b) with h | h
    · rw [h]; simp
    · simp [h]

theorem chainSeg_append {nodes : List Node} {l₁ l₂ : List Nat} :
    ∀ {a : Nat}, ChainSeg nodes a (l₁ ++ l₂) ↔
      ChainSeg nodes a l₁ ∧ ChainSeg nodes (lastOf a l₁) l₂ := by
  induction l₁ with
  | nil => intro a; simp [ChainSeg, lastOf_nil]
  | cons b l ih =>
    intro a
    simp only [List.cons_append, ChainSeg, List.append_eq, lastOf_cons, ih,
      and_assoc]

theorem isChain_start_live {nodes : List Node} {a : Nat} {c : List Nat}
    (h : IsChain nodes a c) : ∃ n, nodes[a]? = some n := by
  cases c with
  | nil => exact ⟨h.2.choose, h.2.choose_spec.1⟩
  | cons b l => exact ⟨h.1.1.choose, h.1.1.choose_spec.1⟩

theorem isChain_tail {nodes : List Node} {a b : Nat} {l : List Nat}
    (h : IsChain nodes a (b :: l)) : IsChain nodes b l := by
  refine ⟨h.1.2, ?_⟩
  have h2 := h.2
  rwa [lastOf_cons] at h2

theorem isChain_mem_live {nodes : List Node} {c : List Nat} :
    ∀ {a : Nat}, IsChain nodes a c → ∀ x ∈ c, ∃ n, nodes[x]? = some n := by
  induction c with
  | nil => intro a _ x hx; simp at hx
  | cons b l ih =>
    intro a h x hx
    rcases List.mem_cons.mp hx with rfl | hx
    · exact isChain_start_live (isChain_tail h)
    · exact ih (isChain_tail h) x hx

/-- Splitting a complete chain at an interior point. -/
theorem isChain_append {nodes : List Node} {a : Nat} {l₁ l₂ : List Nat} :
    IsChain nodes a (l₁ ++ l₂) ↔
      ChainSeg nodes a l₁ ∧ IsChain nodes (lastOf a l₁) l₂ := by
  unfold IsChain
  rw [chainSeg_append, lastOf_append, and_assoc]

/-- The anchor of key `k` on an explicit chain: the last node of `a :: c`
before the first chain node whose key exceeds `k`. -/
def anchorIn (nodes : List Node) (k : Key) : Nat → List Nat → Nat
  | a, [] => a
  | a, b :: l => if optGtKey (keyAt nodes b) k then a else anchorIn nodes k b l

/-- On a complete chain, the fueled pointer walk of `findInLevel` computes
the anchor, for any fuel at least the chain length. -/
theorem findInLevel_eq_anchorIn {nodes : List Node} {k : Key} {c : List Nat} :
    ∀ {a fuel : Nat}, IsChain nodes a c → c.length ≤ fuel →
      findInLevel nodes fuel a k = anchorIn nodes k a c := by
  induction c with
  | nil =>
    intro a fuel h _
    obtain ⟨n, hn, hnext⟩ := h.2
    rw [lastOf_nil] at hn
    cases fuel with
    | zero => rfl
    | succ fuel => simp [findInLevel, hn, hnext, anchorIn]
  | cons b l ih =>
    intro a fuel h hfuel
    obtain ⟨⟨n, hn, hnext⟩, _⟩ := h.1
    obtain ⟨m, hm⟩ := isChain_start_live (isChain_tail h)
    cases fuel with
    | zero => simp at hfuel
    | succ fuel =>
      have hkb : keyAt nodes b = m.k := by simp [keyAt, hm]
      by_cases hgt : optGtKey m.k k
      · simp [findInLevel, hn, hnext, hm, hgt, anchorIn, hkb]
      · have hrec := @ih b fuel (isChain_tail h)
          (by simp only [List.length_cons] at hfuel; omega)
        simp [findInLevel, hn, hnext, hm, hgt, anchorIn, hkb, hrec]

/-- The prefix of a chain whose keys do not exceed `k`. -/
def takeLE (nodes : List Node) (k : Key) (c : List Nat) : List Nat :=
  c.takeWhile fun b => ! optGtKey (keyAt nodes b) k

/-- The suffix of a chain from the first key exceeding `k`. -/
def dropGT (nodes : List Node) (k : Key) (c : List Nat) : List Nat :=
  c.dropWhile fun b => ! optGtKey (keyAt nodes b) k

theorem takeLE_append_dropGT (nodes : List Node) (k : Key) (c : List Nat) :
    takeLE nodes k c ++ dropGT nodes k c = c :=
  List.takeWhile_append_dropWhile _ _

theorem anchorIn_eq_lastOf_takeLE {nodes : List Node} {k : Key} :
    ∀ {c : List Nat} {a : Nat},
      anchorIn nodes k a c = lastOf a (takeLE nodes k c) := by
  intro c
  induction c with
  | nil => intro a; rfl
  | cons b l ih =>
    intro a
    by_cases hgt : optGtKey (keyAt nodes b) k
    · simp [anchorIn, takeLE, hgt, List.takeWhile_cons, lastOf_nil]
    · simp only [anchorIn, takeLE, List.takeWhile_cons, hgt,
        Bool.not_false, if_false, if_true, Bool.not_true]
      rw [lastOf_cons]
      exact ih

theorem mem_takeLE {nodes : List Node} {k : Key} {c : List Nat} {x : Nat}
    (hx : x ∈ takeLE nodes k c) : optGtKey (keyAt nodes x) k = false := by
  have := List.mem_takeWhile_imp hx
  simpa using this

theorem takeLE_sublist (nodes : List Node) (k : Key) (c : List Nat) :
    (takeLE nodes k c).Sublist c := List.takeWhile_sublist _

theorem head_dropGT {nodes : List Node} {k : Key} :
    ∀ {c : List Nat} {x : Nat}, x ∈ (dropGT nodes k c).head? →
      optGtKey (keyAt nodes x) k = true := by
  intro c
  induction c with
  | nil => intro x hx; simp [dropGT] at hx
  | cons b l ih =>
    intro x hx
    by_cases hgt : optGtKey (keyAt nodes b) k
    · simp [dropGT, List.dropWhile_cons, hgt] at hx
      subst hx; exact hgt
    · simp only [dropGT, List.dropWhile_cons, hgt, Bool.not_false,
        if_true] at hx
      exact ih hx

/-- Chains only read the heap cells of their own addresses: agreement on
`a :: c` transfers `ChainSeg`. -/
theorem chainSeg_congr {nodes nodes' : List Node} {c : List Nat} :
    ∀ {a : Nat}, (∀ x ∈ a :: c, nodes'[x]? = nodes[x]?) →
      ChainSeg nodes a c → ChainSeg nodes' a c := by
  induction c with
  | nil => intro a _ _; trivial
  | cons b l ih =>
    intro a hagree h
    obtain ⟨⟨n, hn, hnext⟩, hseg⟩ := h
    refine ⟨⟨n, ?_, hnext⟩, ih ?_ hseg⟩
    · rw [hagree a (by simp), hn]
    · intro x hx
      exact hagree x (by simpa using Or.inr (by simpa using hx))

theorem isChain_congr {nodes nodes' : List Node} {a : Nat} {c : List Nat}
    (hagree : ∀ x ∈ a :: c, nodes'[x]? = nodes[x]?)
    (h : IsChain nodes a c) : IsChain nodes' a c := by
  refine ⟨chainSeg_congr hagree h.1, ?_⟩
  obtain ⟨n, hn, hnext⟩ := h.2
  exact ⟨n, by rw [hagree _ (lastOf_mem a c), hn], hnext⟩

/-- Follow the `next` pointers from `a` (excluding `a` itself). -/
def chainFrom (nodes : List Node) : Nat → Nat → List Nat
  | 0, _ => []
  | fuel + 1, a =>
    match nodes[a]? with
    | none => []
    | some n =>
      match n.next with
      | none => []
      | some b => b :: chainFrom nodes fuel b

/-- The fueled pointer walk recovers the unique complete chain. -/
theorem chainFrom_eq_of_isChain {nodes : List Node} {c : List Nat} :
    ∀ {a fuel : Nat}, IsChain nodes a c → c.length ≤ fuel →
      chainFrom nodes fuel a = c := by
  induction c with
  | nil =>
    intro a fuel h _
    obtain ⟨n, hn, hnext⟩ := h.2
    rw [lastOf_nil] at hn
    cases fuel with
    | zero => rfl
    | succ fuel => simp [chainFrom, hn, hnext]
  | cons b l ih =>
    intro a fuel h hfuel
    obtain ⟨⟨n, hn, hnext⟩, _⟩ := h.1
    cases fuel with
    | zero => simp at hfuel
    | succ fuel =>
      simp only [chainFrom, hn, hnext]
      rw [@ih b fuel (isChain_tail h)
        (by simp only [List.length_cons] at hfuel; omega)]

/-- Every address of the chain holds a real node: engaged key and value. -/
def RealChain (nodes : List Node) (c : List Nat) : Prop :=
  ∀ a ∈ c, ∃ n, nodes[a]? = some n ∧ n.k.isSome ∧ n.v.isSome

/-- Key at an address, defaulted (used only under `RealChain`, where the
key is always engaged). -/
def keyD (nodes : List Node) (a : Nat) : Key := (keyAt nodes a).getD 0

/-- Value at an address, defaulted. -/
def valD (nodes : List Node) (a : Nat) : Val := (valAt nodes a).getD 0

/-- Strictly increasing keys along a chain. -/
def SortedChain (nodes : List Node) (c : List Nat) : Prop :=
  (c.map (keyD nodes)).Chain' (· < ·)

/-- The key-value contents of a chain, in order. -/
def entriesOf (nodes : List Node) (c : List Nat) : List (Key × Val) :=
  c.filterMap fun a =>
    match nodes[a]? with
    | some n =>
      match n.k, n.v with
      | some key, some value => some (key, value)
      | _, _ => none
    | none => none

theorem entriesOf_eq_map {nodes : List Node} {c : List Nat}
    (h : RealChain nodes c) :
    entriesOf nodes c = c.map fun a => (keyD nodes a, valD nodes a) := by
  induction c with
  | nil => rfl
  | cons b l ih =>
    obtain ⟨n, hn, hk, hv⟩ := h b (by simp)
    obtain ⟨bk, hbk⟩ := Option.isSome_iff_exists.mp hk
    obtain ⟨bv, hbv⟩ := Option.isSome_iff_exists.mp hv
    have ht : RealChain nodes l := fun x hx => h x (by simp [hx])
    simp [entriesOf, hn, hbk, hbv, keyD, valD, keyAt, valAt, ih ht,
      entriesOf] at ih ⊢
    exact ih ht

/-! ## The tower invariant -/

/-- Address `a` holds a sentinel with `down` pointer `d`: no key, no value. -/
def IsSentinel (nodes : List Node) (a : Nat) (d : Option Nat) : Prop :=
  ∃ n, nodes[a]? = some n ∧ n.k = none ∧ n.v = none ∧ n.down = d

/-- Every node of chain `c` points `down` to a node of chain `c'` with the
same key and the same value. -/
def DownLink (nodes : List Node) (c c' : List Nat) : Prop :=
  ∀ a ∈ c, ∃ n, nodes[a]? = some n ∧ ∃ b ∈ c', n.down = some b ∧
    keyAt nodes b = n.k ∧ valAt nodes b = n.v

/-- Every node of the bottom chain has a null `down` pointer. -/
def BottomLevel (nodes : List Node) (c : List Nat) : Prop :=
  ∀ a ∈ c, ∃ n, nodes[a]? = some n ∧ n.down = none

/-- Well-formedness of one level: a sentinel head with `down = d`, a
complete chain of real nodes in strictly increasing key order. -/
def LevelOK (nodes : List Node) (s : Nat) (c : List Nat) (d : Option Nat) :
    Prop :=
  IsSentinel nodes s d ∧ IsChain nodes s c ∧ RealChain nodes c ∧
    SortedChain nodes c

/-- All addresses appearing in a tower description. -/
def towerAddrs : List (Nat × List Nat) → List Nat
  | [] => []
  | (s, c) :: rest => s :: c ++ towerAddrs rest

theorem mem_towerAddrs_cons {x s : Nat} {c : List Nat}
    {rest : List (Nat × List Nat)} :
    x ∈ towerAddrs ((s, c) :: rest) ↔
      x = s ∨ x ∈ c ∨ x ∈ towerAddrs rest := by
  simp [towerAddrs, or_assoc]

/-- Well-formedness of the whole tower, listed top level first: each level
is `LevelOK`, the sentinels are chained by `down`, every chain node links
`down` to the same key and value one level below, the bottom level has null
`down` pointers, and distinct levels use disjoint addresses. -/
def TowerFrom (nodes : List Node) : List (Nat × List Nat) → Prop
  | [] => True
  | [(s, c)] => LevelOK nodes s c none ∧ BottomLevel nodes c
  | (s, c) :: (s', c') :: rest =>
    LevelOK nodes s c (some s') ∧ DownLink nodes c c' ∧
      (∀ x ∈ s :: c, x ∉ towerAddrs ((s', c') :: rest)) ∧
      TowerFrom nodes ((s', c') :: rest)

theorem towerFrom_tail {nodes : List Node} {p : Nat × List Nat}
    {rest : List (Nat × List Nat)} (h : TowerFrom nodes (p :: rest)) :
    TowerFrom nodes rest := by
  obtain ⟨s, c⟩ := p
  cases rest with
  | nil => trivial
  | cons q rest =>
    obtain ⟨q1, q2⟩ := q
    exact h.2.2.2

theorem towerFrom_head_levelOK {nodes : List Node} {s : Nat} {c : List Nat}
    {rest : List (Nat × List Nat)} (h : TowerFrom nodes ((s, c) :: rest)) :
    LevelOK nodes s c ((rest.head?).map Prod.fst) := by
  cases rest with
  | nil => exact h.1
  | cons q rest =>
    obtain ⟨q1, q2⟩ := q
    exact h.1

theorem towerFrom_mem_levelOK {nodes : List Node} :
    ∀ {t : List (Nat × List Nat)}, TowerFrom nodes t →
      ∀ p ∈ t, ∃ d, LevelOK nodes p.1 p.2 d := by
  intro t
  induction t with
  | nil => intro _ p hp; simp at hp
  | cons q rest ih =>
    intro h p hp
    obtain ⟨s, c⟩ := q
    rcases List.mem_cons.mp hp with rfl | hp
    · exact ⟨_, towerFrom_head_levelOK h⟩
    · exact ih (towerFrom_tail h) p hp

/-- Every tower address is a live heap cell. -/
theorem towerAddrs_live {nodes : List Node} :
    ∀ {t : List (Nat × List Nat)}, TowerFrom nodes t →
      ∀ x ∈ towerAddrs t, ∃ n, nodes[x]? = some n := by
  intro t
  induction t with
  | nil => intro _ x hx; simp [towerAddrs] at hx
  | cons q rest ih =>
    intro h x hx
    obtain ⟨s, c⟩ := q
    obtain ⟨hsent, hchain, _, _⟩ := towerFrom_head_levelOK h
    rcases mem_towerAddrs_cons.mp hx with rfl | hx | hx
    · exact ⟨hsent.choose, hsent.choose_spec.1⟩
    · exact isChain_mem_live hchain x hx
    · exact ih (towerFrom_tail h) x hx

theorem towerAddrs_lt_length {nodes : List Node}
    {t : List (Nat × List Nat)} (h : TowerFrom nodes t) :
    ∀ x ∈ towerAddrs t, x < nodes.length := by
  intro x hx
  obtain ⟨n, hn⟩ := towerAddrs_live h x hx
  exact (List.getElem?_eq_some.mp hn).1

/-- A sorted chain of real nodes has no duplicate addresses. -/
theorem sortedChain_nodup {nodes : List Node} {c : List Nat}
    (hs : SortedChain nodes c) : c.Nodup := by
  have hp : List.Pairwise (· < ·) (c.map (keyD nodes)) :=
    List.chain'_iff_pairwise.mp hs
  exact List.Nodup.of_map _ hp.nodup

/-- A chain of live, pairwise distinct addresses is no longer than the
heap. -/
theorem chain_length_le {nodes : List Node} {c : List Nat}
    (hnd : c.Nodup) (hlive : ∀ x ∈ c, x < nodes.length) :
    c.length ≤ nodes.length := by
  have h1 : c.toFinset.card = c.length := List.toFinset_card_of_nodup hnd
  have h2 : c.toFinset ⊆ Finset.range nodes.length := by
    intro x hx
    simp only [List.mem_toFinset] at hx
    simpa using hlive x hx
  have := Finset.card_le_card h2
  simpa [h1] using this

/-- Agreement on the tower's addresses transfers the whole invariant. -/
theorem towerFrom_congr {nodes nodes' : List Node} :
    ∀ {t : List (Nat × List Nat)},
      (∀ x ∈ towerAddrs t, nodes'[x]? = nodes[x]?) →
      TowerFrom nodes t → TowerFrom nodes' t := by
  intro t
  induction t with
  | nil => intro _ _; trivial
  | cons q rest ih =>
    intro hagree h
    obtain ⟨s, c⟩ := q
    have hsc : ∀ x ∈ s :: c, nodes'[x]? = nodes[x]? := by
      intro x hx
      apply hagree
      rcases List.mem_cons.mp hx with rfl | hx
      · exact mem_towerAddrs_cons.mpr (Or.inl rfl)
      · exact mem_towerAddrs_cons.mpr (Or.inr (Or.inl hx))
    have hrest : ∀ x ∈ towerAddrs rest, nodes'[x]? = nodes[x]? := by
      intro x hx
      exact hagree x (mem_towerAddrs_cons.mpr (Or.inr (Or.inr hx)))
    have hkeyAt : ∀ x ∈ s :: c, keyAt nodes' x = keyAt nodes x := by
      intro x hx; simp only [keyAt, hsc x hx]
    have hLOK : ∀ {d}, LevelOK nodes s c d → LevelOK nodes' s c d := by
      intro d hL
      obtain ⟨⟨n, hn, hprops⟩, hchain, hreal, hsorted⟩ := hL
      refine ⟨⟨n, by rw [hsc s (by simp), hn], hprops⟩,
        isChain_congr hsc hchain, ?_, ?_⟩
      · intro x hx
        obtain ⟨m, hm, hmk⟩ := hreal x hx
        exact ⟨m, by rw [hsc x (by simp [hx]), hm], hmk⟩
      · have : c.map (keyD nodes') = c.map (keyD nodes) := by
          apply List.map_congr_left
          intro x hx
          simp only [keyD, hkeyAt x (by simp [hx])]
        simpa only [SortedChain, this] using hsorted
    cases rest with
    | nil =>
      obtain ⟨hL, hbot⟩ := h
      refine ⟨hLOK hL, ?_⟩
      intro x hx
      obtain ⟨n, hn, hd⟩ := hbot x hx
      exact ⟨n, by rw [hsc x (by simp [hx]), hn], hd⟩
    | cons q' rest' =>
      obtain ⟨q'1, q'2⟩ := q'
      obtain ⟨hL, hdl, hdisj, hrest0⟩ := h
      have hq'addrs : ∀ x ∈ q'1 :: q'2, x ∈ towerAddrs ((q'1, q'2) :: rest') := by
        intro x hx
        rcases List.mem_cons.mp hx with rfl | hx
        · exact mem_towerAddrs_cons.mpr (Or.inl rfl)
        · exact mem_towerAddrs_cons.mpr (Or.inr (Or.inl hx))
      refine ⟨hLOK hL, ?_, hdisj, ih hrest hrest0⟩
      intro a ha
      obtain ⟨n, hn, b, hb, hdown, hbk, hbv⟩ := hdl a ha
      refine ⟨n, by rw [hsc a (by simp [ha]), hn], b, hb, hdown, ?_, ?_⟩
      · rw [keyAt, hrest b (hq'addrs b (by simp [hb])), ← keyAt, hbk]
      · rw [valAt, hrest b (hq'addrs b (by simp [hb])), ← valAt, hbv]

/-! ## Anchors within a level -/

/-- Some chain node carries key `k`. -/
def chainHasKey (nodes : List Node) (c : List Nat) (k : Key) : Prop :=
  ∃ a ∈ c, keyAt nodes a = some k

/-- A legal starting point for a search at a level: `p` is the sentinel or
a chain node, every chain node up to and including `p` has key `≤ k`, and
`csuf` is the rest of the chain after `p`. -/
def StartPt (nodes : List Node) (k : Key) (s : Nat) (c : List Nat)
    (p : Nat) (csuf : List Nat) : Prop :=
  ∃ cpre, c = cpre ++ csuf ∧ p = lastOf s cpre ∧
    (∀ x ∈ cpre, ∃ kx, keyAt nodes x = some kx ∧ kx ≤ k)

theorem startPt_sentinel (nodes : List Node) (k : Key) (s : Nat)
    (c : List Nat) : StartPt nodes k s c s c :=
  ⟨[], rfl, rfl, by simp⟩

theorem realChain_keyD {nodes : List Node} {c : List Nat}
    (hreal : RealChain nodes c) {x : Nat} (hx : x ∈ c) :
    keyAt nodes x = some (keyD nodes x) := by
  obtain ⟨n, hn, hk, _⟩ := hreal x hx
  obtain ⟨kx, hkx⟩ := Option.isSome_iff_exists.mp hk
  simp [keyAt, keyD, hn, hkx]

/-- Decomposition of a level around the anchor of `k`: the chain splits as
`c₁ ++ c₂` where the anchor is the last node of `s :: c₁`, every node of
`c₁` has key `≤ k`, the first node of `c₂` (the anchor's successor) has key
`> k`, and the anchor carries key `k` exactly when the level contains
`k`. -/
theorem anchor_split {nodes : List Node} {k : Key} {s p : Nat}
    {c csuf : List Nat} {d : Option Nat}
    (hL : LevelOK nodes s c d) (hst : StartPt nodes k s c p csuf) :
    ∃ c₁ c₂, c = c₁ ++ c₂ ∧
      anchorIn nodes k p csuf = lastOf s c₁ ∧
      ChainSeg nodes s c₁ ∧
      IsChain nodes (anchorIn nodes k p csuf) c₂ ∧
      (∀ x ∈ c₁, ∃ kx, keyAt nodes x = some kx ∧ kx ≤ k) ∧
      (∀ x, c₂.head? = some x → ∃ kx, keyAt nodes x = some kx ∧ k < kx) ∧
      (chainHasKey nodes c k → keyAt nodes (anchorIn nodes k p csuf) = some k) ∧
      (¬ chainHasKey nodes c k →
        ¬ keyAt nodes (anchorIn nodes k p csuf) = some k) := by
  obtain ⟨hsent, hchain, hreal, hsorted⟩ := hL
  obtain ⟨cpre, hc, hp, hpre⟩ := hst
  have htd : takeLE nodes k csuf ++ dropGT nodes k csuf = csuf :=
    takeLE_append_dropGT nodes k csuf
  have hc2 : c = (cpre ++ takeLE nodes k csuf) ++ dropGT nodes k csuf := by
    rw [List.append_assoc, htd, hc]
  have hanch : anchorIn nodes k p csuf =
      lastOf s (cpre ++ takeLE nodes k csuf) := by
    rw [anchorIn_eq_lastOf_takeLE, hp, ← lastOf_append]
  have hsplit := isChain_append.mp (hc2 ▸ hchain)
  have hkey1 : ∀ x ∈ cpre ++ takeLE nodes k csuf,
      ∃ kx, keyAt nodes x = some kx ∧ kx ≤ k := by
    intro x hx
    rcases List.mem_append.mp hx with hx | hx
    · exact hpre x hx
    · have hxc : x ∈ c := by
        rw [hc]
        exact List.mem_append.mpr (Or.inr
          ((takeLE_sublist nodes k csuf).mem hx))
      have hkx := realChain_keyD hreal hxc
      refine ⟨keyD nodes x, hkx, ?_⟩
      have hgt := mem_takeLE hx
      rw [hkx] at hgt
      simpa [optGtKey] using hgt
  have hhead2 : ∀ x, (dropGT nodes k csuf).head? = some x →
      ∃ kx, keyAt nodes x = some kx ∧ k < kx := by
    intro x hx
    have h1 := @head_dropGT nodes k csuf x (by simp [Option.mem_def, hx])
    cases hk : keyAt nodes x with
    | none => rw [hk] at h1; simp [optGtKey] at h1
    | some kx =>
      rw [hk] at h1
      exact ⟨kx, rfl, by simpa [optGtKey] using h1⟩
  have hpw : List.Pairwise (· < ·) (c.map (keyD nodes)) :=
    List.chain'_iff_pairwise.mp hsorted
  have hkeyD_of : ∀ {x kx}, keyAt nodes x = some kx → keyD nodes x = kx := by
    intro x kx h
    simp [keyD, h]
  have hmemkey : chainHasKey nodes c k →
      keyAt nodes (anchorIn nodes k p csuf) = some k := by
    rintro ⟨a, ha, hak⟩
    have ha1 : a ∈ cpre ++ takeLE nodes k csuf := by
      by_contra hnot
      have ha2 : a ∈ dropGT nodes k csuf := by
        rw [hc2] at ha
        rcases List.mem_append.mp ha with h | h
        · exact absurd h hnot
        · exact h
      have hpw2 : List.Pairwise (· < ·)
          ((dropGT nodes k csuf).map (keyD nodes)) := by
        rw [hc2, List.map_append] at hpw
        exact (List.pairwise_append.mp hpw).2.1
      cases hdg : dropGT nodes k csuf with
      | nil => rw [hdg] at ha2; simp at ha2
      | cons b l =>
        obtain ⟨kb, hkb, hkgt⟩ := hhead2 b (by rw [hdg]; rfl)
        rw [hdg] at ha2
        rcases List.mem_cons.mp ha2 with heq | ha3
        · have h1 : keyD nodes a = k := hkeyD_of hak
          have h2 : keyD nodes b = kb := hkeyD_of hkb
          rw [heq] at h1
          rw [h1] at h2
          exact absurd h2 (ne_of_lt hkgt)
        · have hlt2 : keyD nodes b < keyD nodes a := by
            rw [hdg, List.map_cons] at hpw2
            exact (List.pairwise_cons.mp hpw2).1 _
              (List.mem_map_of_mem _ ha3)
          rw [hkeyD_of hak, hkeyD_of hkb] at hlt2
          exact absurd (hlt2.trans hkgt) (lt_irrefl _)
    obtain ⟨l₁, l₂, hsa⟩ := List.append_of_mem ha1
    have hlast : anchorIn nodes k p csuf = lastOf a l₂ := by
      rw [hanch, hsa, lastOf_append, lastOf_cons]
    cases l₂ with
    | nil => rw [hlast, lastOf_nil]; exact hak
    | cons b l₂' =>
      exfalso
      have hlmem : lastOf b l₂' ∈ b :: l₂' := lastOf_mem b l₂'
      have hlc1 : lastOf b l₂' ∈ cpre ++ takeLE nodes k csuf := by
        rw [hsa]
        refine List.mem_append.mpr (Or.inr ?_)
        exact List.mem_cons.mpr (Or.inr hlmem)
      obtain ⟨kl, hkl, hlle⟩ := hkey1 _ hlc1
      have hpw1 : List.Pairwise (· < ·)
          ((cpre ++ takeLE nodes k csuf).map (keyD nodes)) := by
        rw [hc2, List.map_append] at hpw
        exact (List.pairwise_append.mp hpw).1
      have hlt : keyD nodes a < keyD nodes (lastOf b l₂') := by
        rw [hsa, List.map_append, List.map_cons] at hpw1
        have := (List.pairwise_append.mp hpw1).2.1
        exact (List.pairwise_cons.mp this).1 _
          (List.mem_map_of_mem _ hlmem)
      rw [hkeyD_of hak, hkeyD_of hkl] at hlt
      exact absurd (hlt.trans_le hlle) (lt_irrefl _)
  have hnokey : ¬ chainHasKey nodes c k →
      ¬ keyAt nodes (anchorIn nodes k p csuf) = some k := by
    intro hn hcontra
    have hmem : anchorIn nodes k p csuf ∈
        s :: (cpre ++ takeLE nodes k csuf) := by
      rw [hanch]
      exact lastOf_mem _ _
    rcases List.mem_cons.mp hmem with heq | hmem2
    · obtain ⟨n, hn', hk', _, _⟩ := hsent
      rw [heq] at hcontra
      simp [keyAt, hn', hk'] at hcontra
    · refine hn ⟨anchorIn nodes k p csuf, ?_, hcontra⟩
      rw [hc2]
      exact List.mem_append.mpr (Or.inl hmem2)
  exact ⟨cpre ++ takeLE nodes k csuf, dropGT nodes k csuf, hc2, hanch,
    hsplit.1, hanch ▸ hsplit.2, hkey1, hhead2, hmemkey, hnokey⟩

/-! ## Coin-draw bookkeeping and start points -/

/-- Number of leading `true` draws from position `pos`, looking at most `n`
draws ahead. -/
def consecTrues (coins : Nat → Bool) (pos : Nat) : Nat → Nat
  | 0 => 0
  | n + 1 => if coins pos then consecTrues coins (pos + 1) n + 1 else 0

theorem consecTrues_le (coins : Nat → Bool) :
    ∀ (n : Nat) (pos : Nat), consecTrues coins pos n ≤ n := by
  intro n
  induction n with
  | zero => intro pos; exact Nat.le_refl 0
  | succ n ih =>
    intro pos
    by_cases h : coins pos
    · simp only [consecTrues, h, if_true]
      exact Nat.succ_le_succ (ih (pos + 1))
    · simp only [consecTrues, h, if_false]
      exact Nat.zero_le _

theorem consecTrues_succ (coins : Nat → Bool) (p m : Nat) :
    consecTrues coins p (m + 1) =
      if coins p then consecTrues coins (p + 1) m + 1 else 0 := rfl

theorem consecTrues_stable (coins : Nat → Bool) :
    ∀ (n : Nat) (pos : Nat), consecTrues coins pos n < n →
      consecTrues coins pos (n + 1) = consecTrues coins pos n := by
  intro n
  induction n with
  | zero => intro pos h; simp at h
  | succ n ih =>
    intro pos h
    rw [consecTrues_succ coins pos n] at h
    by_cases hc : coins pos
    · rw [if_pos hc] at h
      rw [consecTrues_succ coins pos (n + 1), if_pos hc,
        ih (pos + 1) (by omega), consecTrues_succ coins pos n, if_pos hc]
    · rw [consecTrues_succ coins pos (n + 1), if_neg hc,
        consecTrues_succ coins pos n, if_neg hc]

theorem consecTrues_full (coins : Nat → Bool) :
    ∀ (n : Nat) (pos : Nat), consecTrues coins pos n = n →
      consecTrues coins pos (n + 1) =
        if coins (pos + n) then n + 1 else n := by
  intro n
  induction n with
  | zero => intro pos _; simp [consecTrues_succ, consecTrues]
  | succ n ih =>
    intro pos h
    rw [consecTrues_succ coins pos n] at h
    by_cases hc : coins pos
    · rw [if_pos hc] at h
      have h' : consecTrues coins (pos + 1) n = n := by omega
      rw [consecTrues_succ coins pos (n + 1), if_pos hc, ih (pos + 1) h']
      have harith : pos + 1 + n = pos + (n + 1) := by omega
      rw [harith]
      by_cases hc2 : coins (pos + (n + 1)) <;> simp [hc2]
    · rw [if_neg hc] at h
      omega

theorem startPt_of_mem {nodes : List Node} {k : Key} {s b : Nat}
    {c : List Nat} {d : Option Nat} (hL : LevelOK nodes s c d)
    (hb : b ∈ c) {kb : Key} (hkb : keyAt nodes b = some kb) (hble : kb ≤ k) :
    ∃ csuf, StartPt nodes k s c b csuf := by
  obtain ⟨hsent, hchain, hreal, hsorted⟩ := hL
  obtain ⟨l₁, l₂, hc⟩ := List.append_of_mem hb
  refine ⟨l₂, l₁ ++ [b], by rw [hc]; simp, ?_, ?_⟩
  · rw [lastOf_append]
    rfl
  · intro x hx
    rcases List.mem_append.mp hx with hx | hx
    · have hpw : List.Pairwise (· < ·) (c.map (keyD nodes)) :=
        List.chain'_iff_pairwise.mp hsorted
      have hxc : x ∈ c := by rw [hc]; exact List.mem_append.mpr (Or.inl hx)
      have hkx := realChain_keyD hreal hxc
      refine ⟨keyD nodes x, hkx, ?_⟩
      have hlt : keyD nodes x < keyD nodes b := by
        rw [hc, List.map_append, List.map_cons] at hpw
        have h1 := (List.pairwise_append.mp hpw).2.2
        exact h1 _ (List.mem_map_of_mem _ hx) _ (by simp)
      have hdb : keyD nodes b = kb := by simp [keyD, hkb]
      rw [hdb] at hlt
      exact le_trans (le_of_lt hlt) hble
    · have hxb : x = b := by simpa using hx
      exact ⟨kb, by rw [hxb]; exact hkb, hble⟩

/-- Agreement on a level's addresses transfers `LevelOK`. -/
theorem levelOK_congr {nodes nodes' : List Node} {s : Nat} {c : List Nat}
    {d : Option Nat} (hag : ∀ x ∈ s :: c, nodes'[x]? = nodes[x]?)
    (h : LevelOK nodes s c d) : LevelOK nodes' s c d := by
  obtain ⟨⟨n, hn, hprops⟩, hchain, hreal, hsorted⟩ := h
  refine ⟨⟨n, by rw [hag s (by simp), hn], hprops⟩,
    isChain_congr hag hchain, ?_, ?_⟩
  · intro x hx
    obtain ⟨m, hm, hmk⟩ := hreal x hx
    exact ⟨m, by rw [hag x (by simp [hx]), hm], hmk⟩
  · have hmap : c.map (keyD nodes') = c.map (keyD nodes) := by
      apply List.map_congr_left
      intro x hx
      simp only [keyD, keyAt, hag x (by simp [hx])]
    simpa only [SortedChain, hmap] using hsorted

/-- Entries are preserved when keys and values are. -/
theorem entriesOf_congr {nodes nodes' : List Node} {c : List Nat}
    (h : ∀ x ∈ c, ∃ n n', nodes[x]? = some n ∧ nodes'[x]? = some n' ∧
      n'.k = n.k ∧ n'.v = n.v) :
    entriesOf nodes' c = entriesOf nodes c := by
  induction c with
  | nil => rfl
  | cons b l ih =>
    obtain ⟨n, n', hn, hn', hk, hv⟩ := h b (by simp)
    have ht := ih fun x hx => h x (by simp [hx])
    simp only [entriesOf] at ht ⊢
    simp only [List.filterMap_cons, hn, hn', hk, hv, ht]

/-- The chain after splicing a fresh node (new address `nodes₀.length`)
after anchor `r` whose old cell was `rn`: normal form of the two stores of
`chainNode` on the extended heap. -/
theorem chainNode_eq_spliced {nodes₀ : List Node} {r : Nat} {rn : Node}
    (dw : Option Nat) (k : Key) (v : Val)
    (hr : nodes₀[r]? = some rn) :
    chainNode (nodes₀ ++ [⟨dw, none, some k, some v⟩]) r nodes₀.length =
      nodes₀.set r { rn with next := some nodes₀.length } ++
        [⟨dw, rn.next, some k, some v⟩] := by
  have hrlt : r < nodes₀.length := (List.getElem?_eq_some.mp hr).1
  have h1 : (nodes₀ ++ [(⟨dw, none, some k, some v⟩ : Node)])[r]? =
      some rn := by
    rw [List.getElem?_append_left hrlt, hr]
  have h2 : (nodes₀ ++ [(⟨dw, none, some k, some v⟩ : Node)])[nodes₀.length]? =
      some ⟨dw, none, some k, some v⟩ := List.getElem?_concat_length _ _
  have hset1 : (nodes₀ ++ [(⟨dw, none, some k, some v⟩ : Node)]).set
      nodes₀.length ⟨dw, rn.next, some k, some v⟩ =
      nodes₀ ++ [⟨dw, rn.next, some k, some v⟩] := by
    rw [List.set_append_right _ _ (Nat.le_refl _)]
    simp
  simp only [chainNode, h1, h2]
  rw [hset1, List.set_append_left _ _ hrlt]

/-! ## Splicing a fresh node into a level -/

/-- Normal form of the heap after `chainNode` splices a freshly allocated
node (which gets address `nodes₀.length`) after the anchor `r`, whose cell
was `rn`. -/
def spliced (nodes₀ : List Node) (r : Nat) (rn : Node) (dw : Option Nat)
    (k : Key) (v : Val) : List Node :=
  nodes₀.set r { rn with next := some nodes₀.length } ++
    [⟨dw, rn.next, some k, some v⟩]

theorem spliced_length (nodes₀ : List Node) (r : Nat) (rn : Node)
    (dw : Option Nat) (k : Key) (v : Val) :
    (spliced nodes₀ r rn dw k v).length = nodes₀.length + 1 := by
  simp [spliced]

theorem spliced_get_old {nodes₀ : List Node} {r x : Nat} (rn : Node)
    (dw : Option Nat) (k : Key) (v : Val)
    (hx : x < nodes₀.length) (hxr : x ≠ r) :
    (spliced nodes₀ r rn dw k v)[x]? = nodes₀[x]? := by
  rw [spliced, List.getElem?_append_left (by simpa using hx),
    List.getElem?_set_ne (fun h => hxr h.symm)]

theorem spliced_get_r {nodes₀ : List Node} {r : Nat} (rn : Node)
    (dw : Option Nat) (k : Key) (v : Val) (hr : r < nodes₀.length) :
    (spliced nodes₀ r rn dw k v)[r]? =
      some { rn with next := some nodes₀.length } := by
  rw [spliced, List.getElem?_append_left (by simpa using hr),
    List.getElem?_set_eq_of_lt _ hr]

theorem spliced_get_w (nodes₀ : List Node) (r : Nat) (rn : Node)
    (dw : Option Nat) (k : Key) (v : Val) :
    (spliced nodes₀ r rn dw k v)[nodes₀.length]? =
      some ⟨dw, rn.next, some k, some v⟩ := by
  have h : (nodes₀.set r { rn with next := some nodes₀.length }).length =
      nodes₀.length := List.length_set _ _ _
  rw [spliced, List.getElem?_append_right (le_of_eq h), h]
  simp

theorem spliced_keyAt {nodes₀ : List Node} {r x : Nat} {rn : Node}
    (dw : Option Nat) (k : Key) (v : Val)
    (hr : nodes₀[r]? = some rn) (hx : x < nodes₀.length) :
    keyAt (spliced nodes₀ r rn dw k v) x = keyAt nodes₀ x := by
  by_cases hxr : x = r
  · subst hxr
    rw [keyAt, spliced_get_r rn dw k v (List.getElem?_eq_some.mp hr).1,
      keyAt, hr]
  · rw [keyAt, spliced_get_old rn dw k v hx hxr, keyAt]

theorem spliced_valAt {nodes₀ : List Node} {r x : Nat} {rn : Node}
    (dw : Option Nat) (k : Key) (v : Val)
    (hr : nodes₀[r]? = some rn) (hx : x < nodes₀.length) :
    valAt (spliced nodes₀ r rn dw k v) x = valAt nodes₀ x := by
  by_cases hxr : x = r
  · subst hxr
    rw [valAt, spliced_get_r rn dw k v (List.getElem?_eq_some.mp hr).1,
      valAt, hr]
  · rw [valAt, spliced_get_old rn dw k v hx hxr, valAt]

theorem chainSeg_congr_init {nodes nodes' : List Node} {c : List Nat} :
    ∀ {a : Nat}, (∀ x ∈ a :: c, x ≠ lastOf a c → nodes'[x]? = nodes[x]?) →
      (a :: c).Nodup → ChainSeg nodes a c → ChainSeg nodes' a c := by
  induction c with
  | nil => intro a _ _ _; trivial
  | cons b l ih =>
    intro a hag hnd h
    obtain ⟨⟨n, hn, hnx⟩, hseg⟩ := h
    have hlast : lastOf a (b :: l) = lastOf b l := lastOf_cons a b l
    have hane : a ≠ lastOf a (b :: l) := by
      rw [hlast]
      intro hcontra
      have hm := lastOf_mem b l
      rw [← hcontra] at hm
      exact (List.nodup_cons.mp hnd).1 hm
    refine ⟨⟨n, by rw [hag a (by simp) hane, hn], hnx⟩, ?_⟩
    refine ih ?_ (List.nodup_cons.mp hnd).2 hseg
    intro x hx hxne
    refine hag x (by simp [List.mem_cons.mp hx]) ?_
    rw [hlast]
    exact hxne

theorem sentinel_not_mem {nodes : List Node} {s : Nat} {c : List Nat}
    {d : Option Nat} (hL : LevelOK nodes s c d) : s ∉ c := by
  intro hmem
  obtain ⟨⟨n, hn, hk, _, _⟩, _, hreal, _⟩ := hL
  obtain ⟨m, hm, hmk, _⟩ := hreal s hmem
  rw [hn] at hm
  obtain rfl : n = m := by injection hm
  rw [hk] at hmk
  simp at hmk

/-- Splicing a fresh node with key `k` after the anchor restores a
well-formed level whose chain is `c₁ ++ w :: c₂` with `w` the fresh
address. -/
theorem levelOK_splice {nodes₀ : List Node} {s r : Nat} {c₁ c₂ : List Nat}
    {rn : Node} {d : Option Nat} (dw : Option Nat) {k : Key} {v : Val}
    (hL : LevelOK nodes₀ s (c₁ ++ c₂) d)
    (hr : nodes₀[r]? = some rn)
    (hlast : r = lastOf s c₁)
    (hkey1 : ∀ x ∈ c₁, ∃ kx, keyAt nodes₀ x = some kx ∧ kx ≤ k)
    (hkey2 : ∀ x, c₂.head? = some x → ∃ kx, keyAt nodes₀ x = some kx ∧ k < kx)
    (hknot : ¬ chainHasKey nodes₀ (c₁ ++ c₂) k) :
    LevelOK (spliced nodes₀ r rn dw k v) s
      (c₁ ++ nodes₀.length :: c₂) d := by
  obtain ⟨hsent, hchain, hreal, hsorted⟩ := hL
  have hrlt : r < nodes₀.length := (List.getElem?_eq_some.mp hr).1
  have hsub := isChain_append.mp hchain
  have hch2 : IsChain nodes₀ r c₂ := by rw [hlast]; exact hsub.2
  have hcnd : (c₁ ++ c₂).Nodup := sortedChain_nodup hsorted
  have hsnot : s ∉ c₁ ++ c₂ :=
    sentinel_not_mem ⟨hsent, hchain, hreal, hsorted⟩
  have hlive : ∀ x ∈ c₁ ++ c₂, x < nodes₀.length := by
    intro x hx
    obtain ⟨m, hm, _⟩ := hreal x hx
    exact (List.getElem?_eq_some.mp hm).1
  have hagree : ∀ x ∈ s :: (c₁ ++ c₂), x ≠ r →
      (spliced nodes₀ r rn dw k v)[x]? = nodes₀[x]? := by
    intro x hx hxr
    rcases List.mem_cons.mp hx with rfl | hx
    · obtain ⟨n, hn, _⟩ := hsent
      exact spliced_get_old rn dw k v (List.getElem?_eq_some.mp hn).1 hxr
    · exact spliced_get_old rn dw k v (hlive x hx) hxr
  have hrmem : r ∈ s :: c₁ := by rw [hlast]; exact lastOf_mem s c₁
  have hc2ne : ∀ x ∈ c₂, x ≠ r := by
    intro x hx hxr
    rcases List.mem_cons.mp hrmem with hs | hc1
    · exact hsnot (by rw [← hs, ← hxr]; exact List.mem_append.mpr (Or.inr hx))
    · have hdisj := (List.nodup_append.mp hcnd).2.2
      exact hdisj hc1 (by rw [hxr] at hx; exact hx)
  have hkeyDold : ∀ x ∈ c₁ ++ c₂,
      keyD (spliced nodes₀ r rn dw k v) x = keyD nodes₀ x := by
    intro x hx
    simp only [keyD, spliced_keyAt dw k v hr (hlive x hx)]
  have hkDw : keyD (spliced nodes₀ r rn dw k v) nodes₀.length = k := by
    simp [keyD, keyAt, spliced_get_w]
  refine ⟨?_, ?_, ?_, ?_⟩
  · -- sentinel
    obtain ⟨n, hn, hk, hv, hd⟩ := hsent
    by_cases hsr : s = r
    · subst hsr
      rw [hn] at hr
      obtain rfl : n = rn := by injection hr
      exact ⟨_, spliced_get_r _ dw k v hrlt, hk, hv, hd⟩
    · exact ⟨n, by rw [hagree s (by simp) hsr, hn], hk, hv, hd⟩
  · -- the spliced chain
    constructor
    · -- segment
      rw [chainSeg_append]
      constructor
      · refine chainSeg_congr_init ?_ ?_ hsub.1
        · intro x hx hxne
          refine hagree x ?_ (by rw [← hlast] at hxne; exact hxne)
          rcases List.mem_cons.mp hx with rfl | hx
          · simp
          · exact List.mem_cons.mpr (Or.inr (List.mem_append.mpr (Or.inl hx)))
        · have hsl : (s :: c₁).Sublist (s :: (c₁ ++ c₂)) :=
            (List.sublist_append_left c₁ c₂).cons₂ s
          exact hsl.nodup (List.nodup_cons.mpr ⟨hsnot, hcnd⟩)
      · rw [← hlast]
        refine ⟨⟨_, spliced_get_r rn dw k v hrlt, rfl⟩, ?_⟩
        cases c₂ with
        | nil => trivial
        | cons b l =>
          obtain ⟨⟨n, hn, hnx⟩, hseg⟩ := hch2.1
          rw [hr] at hn
          obtain rfl : rn = n := by injection hn
          refine ⟨⟨_, spliced_get_w nodes₀ r rn dw k v, hnx⟩, ?_⟩
          refine chainSeg_congr ?_ hseg
          intro x hx
          have hxc2 : x ∈ b :: l := hx
          exact hagree x
            (List.mem_cons.mpr (Or.inr (List.mem_append.mpr (Or.inr hxc2))))
            (hc2ne x hxc2)
    · -- terminal null next
      rw [lastOf_append, ← hlast, lastOf_cons]
      obtain ⟨n, hn, hnx⟩ := hch2.2
      cases c₂ with
      | nil =>
        rw [lastOf_nil]
        rw [lastOf_nil] at hn
        rw [hr] at hn
        obtain rfl : rn = n := by injection hn
        exact ⟨_, spliced_get_w nodes₀ r rn dw k v, hnx⟩
      | cons b l =>
        rw [lastOf_cons]
        rw [lastOf_cons] at hn
        have hm : lastOf b l ∈ b :: l := lastOf_mem b l
        refine ⟨n, ?_, hnx⟩
        rw [hagree _ (List.mem_cons.mpr (Or.inr
          (List.mem_append.mpr (Or.inr hm)))) (hc2ne _ hm), hn]
  · -- real chain
    intro x hx
    rcases List.mem_append.mp hx with hx1 | hx2
    · obtain ⟨m, hm, hmk, hmv⟩ := hreal x (List.mem_append.mpr (Or.inl hx1))
      by_cases hxr : x = r
      · subst hxr
        rw [hr] at hm
        obtain rfl : rn = m := by injection hm
        exact ⟨_, spliced_get_r rn dw k v hrlt, hmk, hmv⟩
      · exact ⟨m, by
          rw [hagree x (List.mem_cons.mpr (Or.inr
            (List.mem_append.mpr (Or.inl hx1)))) hxr, hm], hmk, hmv⟩
    · rcases List.mem_cons.mp hx2 with rfl | hx2
      · exact ⟨_, spliced_get_w nodes₀ r rn dw k v, by simp, by simp⟩
      · obtain ⟨m, hm, hmk, hmv⟩ := hreal x (List.mem_append.mpr (Or.inr hx2))
        exact ⟨m, by
          rw [hagree x (List.mem_cons.mpr (Or.inr
            (List.mem_append.mpr (Or.inr hx2)))) (hc2ne x hx2), hm], hmk, hmv⟩
  · -- sorted
    have hmap : (c₁ ++ nodes₀.length :: c₂).map
        (keyD (spliced nodes₀ r rn dw k v)) =
        c₁.map (keyD nodes₀) ++ k :: c₂.map (keyD nodes₀) := by
      rw [List.map_append, List.map_cons, hkDw]
      have h1 : c₁.map (keyD (spliced nodes₀ r rn dw k v)) =
          c₁.map (keyD nodes₀) :=
        List.map_congr_left fun x hx =>
          hkeyDold x (List.mem_append.mpr (Or.inl hx))
      have h2 : c₂.map (keyD (spliced nodes₀ r rn dw k v)) =
          c₂.map (keyD nodes₀) :=
        List.map_congr_left fun x hx =>
          hkeyDold x (List.mem_append.mpr (Or.inr hx))
      rw [h1, h2]
    rw [SortedChain, hmap]
    have hold : List.Chain' (· < ·)
        (c₁.map (keyD nodes₀) ++ c₂.map (keyD nodes₀)) := by
      have := hsorted
      rwa [SortedChain, List.map_append] at this
    obtain ⟨ho1, ho2, hocross⟩ := List.chain'_append.mp hold
    refine List.chain'_append.mpr ⟨ho1, ?_, ?_⟩
    · refine List.chain'_cons'.mpr ⟨?_, ho2⟩
      intro y hy
      rw [List.head?_map] at hy
      cases hc2h : c₂.head? with
      | none => rw [hc2h] at hy; simp at hy
      | some b =>
        rw [hc2h] at hy
        obtain ⟨kb, hkb, hkbgt⟩ := hkey2 b hc2h
        have hyb : y = keyD nodes₀ b := by simpa using hy.symm
        have hdb : keyD nodes₀ b = kb := by simp [keyD, hkb]
        rw [hyb, hdb]
        exact hkbgt
    · intro x hx y hy
      have hyk : y = k := by
        simp only [List.head?_cons, Option.mem_def] at hy
        exact (Option.some.inj hy).symm
      subst hyk
      rw [List.getLast?_map] at hx
      cases hl : c₁.getLast? with
      | none => rw [hl] at hx; simp at hx
      | some b =>
        rw [hl] at hx
        have hbmem : b ∈ c₁ := List.mem_of_mem_getLast? (by simp [hl])
        obtain ⟨kb, hkb, hkble⟩ := hkey1 b hbmem
        have hxb : x = keyD nodes₀ b := by simpa using hx.symm
        have hdb : keyD nodes₀ b = kb := by simp [keyD, hkb]
        rw [hxb, hdb]
        rcases lt_or_eq_of_le hkble with h | h
        · exact h
        · exfalso
          refine hknot ⟨b, List.mem_append.mpr (Or.inl hbmem), ?_⟩
          rw [hkb, h]

/-! ## Tower-level propagation -/

/-- The bottom level's chain of a tower description. -/
def bottomChain (t : List (Nat × List Nat)) : List Nat :=
  (t.getLastD (0, [])).2

theorem bottomChain_cons_cons (p q : Nat × List Nat)
    (rest : List (Nat × List Nat)) :
    bottomChain (p :: q :: rest) = bottomChain (q :: rest) := by
  simp [bottomChain, List.getLastD_cons]

/-- Every key-value pair on any level also sits on the bottom level, with
the same value (column coherence). -/
theorem towerFrom_key_to_bottom {nodes : List Node} :
    ∀ {rest : List (Nat × List Nat)} {s : Nat} {c : List Nat},
      TowerFrom nodes ((s, c) :: rest) →
      ∀ a ∈ c, ∃ b ∈ bottomChain ((s, c) :: rest),
        keyAt nodes b = keyAt nodes a ∧ valAt nodes b = valAt nodes a := by
  intro rest
  induction rest with
  | nil =>
    intro s c _ a ha
    exact ⟨a, by simpa [bottomChain] using ha, rfl, rfl⟩
  | cons q rest' ih =>
    intro s c h a ha
    obtain ⟨s', c'⟩ := q
    obtain ⟨hL, hdl, hdisj, hrest⟩ := h
    obtain ⟨n, hn, b, hb, hdown, hbk, hbv⟩ := hdl a ha
    obtain ⟨b2, hb2, hb2k, hb2v⟩ := ih hrest b hb
    rw [bottomChain_cons_cons]
    refine ⟨b2, hb2, ?_, ?_⟩
    · rw [hb2k, hbk, keyAt, hn]
    · rw [hb2v, hbv, valAt, hn]

theorem towerFrom_hasKey_bottom {nodes : List Node} {k : Key}
    {s : Nat} {c : List Nat} {rest : List (Nat × List Nat)}
    (h : TowerFrom nodes ((s, c) :: rest))
    (hk : chainHasKey nodes c k) :
    chainHasKey nodes (bottomChain ((s, c) :: rest)) k := by
  obtain ⟨a, ha, hak⟩ := hk
  obtain ⟨b, hb, hbk, _⟩ := towerFrom_key_to_bottom h a ha
  exact ⟨b, hb, by rw [hbk, hak]⟩

/-- Two chain nodes with the same key coincide (per-level uniqueness). -/
theorem chain_key_unique {nodes : List Node} {s : Nat} {c : List Nat}
    {d : Option Nat} (hL : LevelOK nodes s c d) {a a' : Nat} {kk : Key}
    (ha : a ∈ c) (ha' : a' ∈ c)
    (h1 : keyAt nodes a = some kk) (h2 : keyAt nodes a' = some kk) :
    a = a' := by
  obtain ⟨_, _, _, hsorted⟩ := hL
  have hnd : (c.map (keyD nodes)).Nodup :=
    (List.chain'_iff_pairwise.mp hsorted).nodup
  refine List.inj_on_of_nodup_map hnd ha ha' ?_
  simp [keyD, h1, h2]

/-! ## Congruence up to `next` and value overwrites -/

theorem chainSeg_congr_next {nodes nodes' : List Node} {c : List Nat} :
    ∀ {a : Nat},
      (∀ x ∈ a :: c, ∀ n, nodes[x]? = some n →
        ∃ n', nodes'[x]? = some n' ∧ n'.next = n.next) →
      ChainSeg nodes a c → ChainSeg nodes' a c := by
  induction c with
  | nil => intro a _ _; trivial
  | cons b l ih =>
    intro a hag h
    obtain ⟨⟨n, hn, hnx⟩, hseg⟩ := h
    obtain ⟨n', hn', hnx'⟩ := hag a (by simp) n hn
    refine ⟨⟨n', hn', by rw [hnx', hnx]⟩, ?_⟩
    exact ih (fun x hx => hag x (by simp [List.mem_cons.mp hx])) hseg

theorem isChain_congr_next {nodes nodes' : List Node} {a : Nat}
    {c : List Nat}
    (hag : ∀ x ∈ a :: c, ∀ n, nodes[x]? = some n →
      ∃ n', nodes'[x]? = some n' ∧ n'.next = n.next)
    (h : IsChain nodes a c) : IsChain nodes' a c := by
  refine ⟨chainSeg_congr_next hag h.1, ?_⟩
  obtain ⟨n, hn, hnx⟩ := h.2
  obtain ⟨n', hn', hnx'⟩ := hag _ (lastOf_mem a c) n hn
  exact ⟨n', hn', by rw [hnx', hnx]⟩

/-- Overwriting the value of a real node keeps the level well-formed. -/
theorem levelOK_update_val {nodes : List Node} {s : Nat} {c : List Nat}
    {d : Option Nat} {r : Nat} {rn : Node} (v : Val)
    (hL : LevelOK nodes s c d) (hr : nodes[r]? = some rn)
    (hrk : rn.k.isSome) :
    LevelOK (nodes.set r { rn with v := some v }) s c d := by
  have hcell : ∀ (x : Nat) (n : Node), nodes[x]? = some n →
      ∃ n' : Node, (nodes.set r { rn with v := some v })[x]? = some n' ∧
        n'.k = n.k ∧ n'.next = n.next ∧ n'.down = n.down ∧
        n.v.isSome ≤ n'.v.isSome := by
    intro x n hn
    by_cases hxr : x = r
    · subst hxr
      rw [hr] at hn
      obtain rfl : rn = n := by injection hn
      refine ⟨{ rn with v := some v },
        List.getElem?_set_eq_of_lt _ (List.getElem?_eq_some.mp hr).1,
        rfl, rfl, rfl, by simp⟩
    · exact ⟨n, by rw [List.getElem?_set_ne (fun h => hxr h.symm), hn],
        rfl, rfl, rfl, le_refl _⟩
  obtain ⟨hsent, hchain, hreal, hsorted⟩ := hL
  refine ⟨?_, ?_, ?_, ?_⟩
  · obtain ⟨n, hn, hk, hv, hd⟩ := hsent
    by_cases hsr : s = r
    · subst hsr
      rw [hr] at hn
      obtain rfl : rn = n := by injection hn
      rw [hk] at hrk
      simp at hrk
    · exact ⟨n, by rw [List.getElem?_set_ne (fun h => hsr h.symm), hn],
        hk, hv, hd⟩
  · refine isChain_congr_next ?_ hchain
    intro x _ n hn
    obtain ⟨n', hn', _, hnx, _, _⟩ := hcell x n hn
    exact ⟨n', hn', hnx⟩
  · intro x hx
    obtain ⟨n, hn, hk, hv⟩ := hreal x hx
    obtain ⟨n', hn', hk', _, _, hv'⟩ := hcell x n hn
    refine ⟨n', hn', by rw [hk']; exact hk, ?_⟩
    rw [hv] at hv'
    exact le_antisymm (Bool.le_true _) hv'
  · have hmap : c.map (keyD (nodes.set r { rn with v := some v })) =
        c.map (keyD nodes) := by
      apply List.map_congr_left
      intro x hx
      by_cases hxr : x = r
      · subst hxr
        simp [keyD, keyAt, hr,
          List.getElem?_set_eq_of_lt _ (List.getElem?_eq_some.mp hr).1]
      · simp [keyD, keyAt, List.getElem?_set_ne (fun h => hxr h.symm)]
    simpa only [SortedChain, hmap] using hsorted

theorem keyAt_set_val {nodes : List Node} {r : Nat} {rn : Node} (v : Val)
    (hr : nodes[r]? = some rn) (x : Nat) :
    keyAt (nodes.set r { rn with v := some v }) x = keyAt nodes x := by
  by_cases hxr : x = r
  · subst hxr
    simp [keyAt, hr,
      List.getElem?_set_eq_of_lt _ (List.getElem?_eq_some.mp hr).1]
  · simp [keyAt, List.getElem?_set_ne (fun h => hxr h.symm)]

/-! ## Step lemmas for `upsertRec` -/

theorem upsertRec_step_update (coins : Nat → Bool) (k : Key) (v : Val)
    (nodes : List Node) (pos cur fuel : Nat) {rn : Node}
    (hr : nodes[findInLevel nodes nodes.length cur k]? = some rn)
    (hk : rn.k = some k) :
    upsertRec coins k v nodes pos (some cur) (fuel + 1) =
      (none,
        (upsertRec coins k v
          (nodes.set (findInLevel nodes nodes.length cur k)
            { rn with v := some v }) pos rn.down fuel).2.1,
        (upsertRec coins k v
          (nodes.set (findInLevel nodes nodes.length cur k)
            { rn with v := some v }) pos rn.down fuel).2.2) := by
  simp [upsertRec, hr, hk]

theorem upsertRec_step_leaf (coins : Nat → Bool) (k : Key) (v : Val)
    (nodes : List Node) (pos cur fuel : Nat) {rn : Node}
    (hr : nodes[findInLevel nodes nodes.length cur k]? = some rn)
    (hk : ¬ rn.k = some k) (hd : rn.down = none) :
    upsertRec coins k v nodes pos (some cur) (fuel + 1) =
      (some nodes.length,
        chainNode (nodes ++ [⟨none, none, some k, some v⟩])
          (findInLevel nodes nodes.length cur k) nodes.length,
        pos) := by
  simp [upsertRec, hr, hk, hd]

theorem upsertRec_step_descend_none (coins : Nat → Bool) (k : Key) (v : Val)
    (nodes : List Node) (pos cur fuel : Nat) {rn : Node} {d : Nat}
    (hr : nodes[findInLevel nodes nodes.length cur k]? = some rn)
    (hk : ¬ rn.k = some k) (hd : rn.down = some d)
    (hsub : (upsertRec coins k v nodes pos (some d) fuel).1 = none) :
    upsertRec coins k v nodes pos (some cur) (fuel + 1) =
      (none, (upsertRec coins k v nodes pos (some d) fuel).2.1,
        (upsertRec coins k v nodes pos (some d) fuel).2.2) := by
  simp [upsertRec, hr, hk, hd, hsub]

theorem upsertRec_step_descend_promote (coins : Nat → Bool) (k : Key)
    (v : Val) (nodes : List Node) (pos cur fuel : Nat) {rn : Node}
    {d ca : Nat}
    (hr : nodes[findInLevel nodes nodes.length cur k]? = some rn)
    (hk : ¬ rn.k = some k) (hd : rn.down = some d)
    (hsub : (upsertRec coins k v nodes pos (some d) fuel).1 = some ca)
    (hcoin : coins (upsertRec coins k v nodes pos (some d) fuel).2.2 = true) :
    upsertRec coins k v nodes pos (some cur) (fuel + 1) =
      (some (upsertRec coins k v nodes pos (some d) fuel).2.1.length,
        chainNode ((upsertRec coins k v nodes pos (some d) fuel).2.1 ++
            [⟨some ca, none, some k, some v⟩])
          (findInLevel nodes nodes.length cur k)
          (upsertRec coins k v nodes pos (some d) fuel).2.1.length,
        (upsertRec coins k v nodes pos (some d) fuel).2.2 + 1) := by
  simp [upsertRec, hr, hk, hd, hsub, hcoin]

theorem upsertRec_step_descend_nopromote (coins : Nat → Bool) (k : Key)
    (v : Val) (nodes : List Node) (pos cur fuel : Nat) {rn : Node}
    {d ca : Nat}
    (hr : nodes[findInLevel nodes nodes.length cur k]? = some rn)
    (hk : ¬ rn.k = some k) (hd : rn.down = some d)
    (hsub : (upsertRec coins k v nodes pos (some d) fuel).1 = some ca)
    (hcoin : coins (upsertRec coins k v nodes pos (some d) fuel).2.2 = false) :
    upsertRec coins k v nodes pos (some cur) (fuel + 1) =
      (none, (upsertRec coins k v nodes pos (some d) fuel).2.1,
        (upsertRec coins k v nodes pos (some d) fuel).2.2 + 1) := by
  simp [upsertRec, hr, hk, hd, hsub, hcoin]

/-! ## Outcomes of `upsertRec` -/

/-- The top level's chain of a tower description. -/
def headChain (t : List (Nat × List Nat)) : List Nat :=
  (t.headD (0, [])).2

/-- Heap relation produced by `upsertRec` when the key was already present:
a pure value overwrite along the column of `k`; no allocation, no link
change. -/
def UpdateOutcome (nodes nodes' : List Node) (k : Key) (v : Val)
    (t : List (Nat × List Nat)) : Prop :=
  nodes'.length = nodes.length ∧
  TowerFrom nodes' t ∧
  (∀ x, x ∉ towerAddrs t → nodes'[x]? = nodes[x]?) ∧
  (∀ (x : Nat) (n : Node), nodes[x]? = some n → ∃ n' : Node,
    nodes'[x]? = some n' ∧ n'.k = n.k ∧ n'.down = n.down ∧
    n'.next = n.next ∧ (n'.v = n.v ∨ (n.k = some k ∧ n'.v = some v))) ∧
  (∀ (x : Nat) (n : Node), nodes[x]? = some n → n.k = some k →
    x ∈ towerAddrs t → nodes'[x]? = some { n with v := some v })

/-- Heap relation produced by `upsertRec` when the key is new: the last `m`
levels of the tower each received one fresh node carrying `k ↦ v`. -/
def InsertOutcome (nodes nodes' : List Node) (k : Key) (v : Val)
    (t t' : List (Nat × List Nat)) (m : Nat) : Prop :=
  nodes'.length = nodes.length + m ∧
  TowerFrom nodes' t' ∧
  t'.length = t.length ∧
  t'.map Prod.fst = t.map Prod.fst ∧
  (∀ x : Nat, x < nodes.length → x ∉ towerAddrs t →
    nodes'[x]? = nodes[x]?) ∧
  (∀ (x : Nat) (n : Node), nodes[x]? = some n → ∃ n' : Node,
    nodes'[x]? = some n' ∧ n'.k = n.k ∧ n'.v = n.v ∧ n'.down = n.down) ∧
  (∀ x ∈ towerAddrs t', x ∈ towerAddrs t ∨ nodes.length ≤ x) ∧
  (∀ (j : Nat) (lv : Nat × List Nat), t[j]? = some lv →
    (j + m < t.length → t'[j]? = some lv) ∧
    (t.length ≤ j + m → ∃ (c₁ c₂ : List Nat) (w : Nat),
      lv.2 = c₁ ++ c₂ ∧ t'[j]? = some (lv.1, c₁ ++ w :: c₂) ∧
      nodes.length ≤ w ∧ keyAt nodes' w = some k ∧
      valAt nodes' w = some v))

theorem updateOutcome_refl (nodes : List Node) (k : Key) (v : Val) :
    UpdateOutcome nodes nodes k v [] := by
  refine ⟨rfl, trivial, fun _ _ => rfl, ?_, ?_⟩
  · intro x n hn
    exact ⟨n, hn, rfl, rfl, rfl, Or.inl rfl⟩
  · intro x n _ _ hx
    simp [towerAddrs] at hx

theorem insertOutcome_refl (nodes : List Node) (k : Key) (v : Val) :
    InsertOutcome nodes nodes k v [] [] 0 := by
  refine ⟨rfl, trivial, rfl, rfl, fun _ _ _ => rfl, ?_, ?_, ?_⟩
  · intro x n hn
    exact ⟨n, hn, rfl, rfl, rfl⟩
  · intro x hx
    simp [towerAddrs] at hx
  · intro j lv hlv
    simp at hlv

/-- Lifting an update outcome through a level at which the key is absent
(the descent passed through without writing). -/
theorem updateOutcome_lift_descend {nodes nodes' : List Node} {k : Key}
    {v : Val} {s : Nat} {c : List Nat} {q : Nat × List Nat}
    {rest' : List (Nat × List Nat)}
    (h : TowerFrom nodes ((s, c) :: q :: rest'))
    (hnok : ¬ chainHasKey nodes c k)
    (hsub : UpdateOutcome nodes nodes' k v (q :: rest')) :
    UpdateOutcome nodes nodes' k v ((s, c) :: q :: rest') := by
  obtain ⟨s', c'⟩ := q
  obtain ⟨hL, hdl, hdisj, hrest⟩ := h
  obtain ⟨hlen, htow, hframe, hcell, hcol⟩ := hsub
  have hagsc : ∀ x ∈ s :: c, nodes'[x]? = nodes[x]? := by
    intro x hx
    exact hframe x (hdisj x hx)
  refine ⟨hlen, ?_, ?_, hcell, ?_⟩
  · -- TowerFrom
    refine ⟨levelOK_congr hagsc hL, ?_, hdisj, htow⟩
    intro a ha
    obtain ⟨n, hn, b, hb, hdown, hbk, hbv⟩ := hdl a ha
    have hbadr : b ∈ towerAddrs ((s', c') :: rest') :=
      mem_towerAddrs_cons.mpr (Or.inr (Or.inl hb))
    have hkbnot : ¬ n.k = some k := by
      intro hcontra
      exact hnok ⟨a, ha, by rw [keyAt, hn]; exact hcontra⟩
    obtain ⟨nb0, hnb0⟩ : ∃ nb0 : Node, nodes[b]? = some nb0 := by
      obtain ⟨d0, hL'⟩ := towerFrom_mem_levelOK hrest (s', c') (by simp)
      obtain ⟨m, hm, _⟩ := hL'.2.2.1 b hb
      exact ⟨m, hm⟩
    obtain ⟨nb', hnb', hbk', hbd', hbx', hbv'⟩ := hcell b nb0 hnb0
    refine ⟨n, by rw [hagsc a (by simp [ha]), hn], b, hb, hdown, ?_, ?_⟩
    · simp only [keyAt, hnb', hbk']
      simp only [keyAt, hnb0] at hbk
      exact hbk
    · simp only [valAt, hnb']
      simp only [valAt, hnb0] at hbv
      rcases hbv' with heq | ⟨hkk, _⟩
      · rw [heq, hbv]
      · exfalso
        simp only [keyAt, hnb0] at hbk
        rw [hbk] at hkk
        exact hkbnot hkk
  · -- frame
    intro x hx
    have hx2 : x ∉ towerAddrs ((s', c') :: rest') := by
      intro hcontra
      exact hx (mem_towerAddrs_cons.mpr (Or.inr (Or.inr hcontra)))
    exact hframe x hx2
  · -- column overwrite
    intro x n hn hk hx
    rcases mem_towerAddrs_cons.mp hx with rfl | hxc | hxr
    · obtain ⟨ns, hns, hnsk, _, _⟩ := hL.1
      rw [hns] at hn
      obtain rfl : ns = n := by injection hn
      rw [hnsk] at hk
      exact absurd hk (by simp)
    · exact absurd ⟨x, hxc, by rw [keyAt, hn]; exact hk⟩ hnok
    · exact hcol x n hn hk hxr

/-- Lifting an update outcome through the trigger level: the level's own
`k` node was overwritten first, then the column below was updated. -/
theorem updateOutcome_lift_trigger {nodes nodes' : List Node} {k : Key}
    {v : Val} {s r : Nat} {c : List Nat} {rest : List (Nat × List Nat)}
    {rn : Node}
    (h : TowerFrom nodes ((s, c) :: rest))
    (hr : nodes[r]? = some rn) (hrc : r ∈ c) (hrk : rn.k = some k)
    (hsub : UpdateOutcome (nodes.set r { rn with v := some v }) nodes' k v
      rest) :
    UpdateOutcome nodes nodes' k v ((s, c) :: rest) := by
  have hL := towerFrom_head_levelOK h
  have hrlt : r < nodes.length := (List.getElem?_eq_some.mp hr).1
  have hrs : r ∉ towerAddrs rest := by
    cases rest with
    | nil => simp [towerAddrs]
    | cons q rest' =>
      obtain ⟨q1, q2⟩ := q
      exact h.2.2.1 r (by simp [hrc])
  obtain ⟨hlen, htow, hframe, hcell, hcol⟩ := hsub
  have hn1r : (nodes.set r { rn with v := some v })[r]? =
      some { rn with v := some v } := List.getElem?_set_eq_of_lt _ hrlt
  have hn1x : ∀ x : Nat, x ≠ r →
      (nodes.set r { rn with v := some v })[x]? = nodes[x]? := by
    intro x hx
    exact List.getElem?_set_ne (fun hh => hx hh.symm)
  have hdisj01 : ∀ x ∈ s :: c, x ∉ towerAddrs rest := by
    cases rest with
    | nil => intro x _; simp [towerAddrs]
    | cons q rest' =>
      obtain ⟨q1, q2⟩ := q
      exact h.2.2.1
  have hagsc : ∀ x ∈ s :: c, x ≠ r →
      nodes'[x]? = nodes[x]? := by
    intro x hx hxr
    rw [hframe x (hdisj01 x hx), hn1x x hxr]
  have hn'r : nodes'[r]? = some { rn with v := some v } := by
    rw [hframe r hrs, hn1r]
  refine ⟨by rw [hlen]; simp, ?_, ?_, ?_, ?_⟩
  · -- TowerFrom
    have hL1 : LevelOK (nodes.set r { rn with v := some v }) s c
        ((rest.head?).map Prod.fst) :=
      levelOK_update_val v hL hr (by rw [hrk]; rfl)
    have hLOK' : LevelOK nodes' s c ((rest.head?).map Prod.fst) := by
      refine levelOK_congr ?_ hL1
      intro x hx
      exact hframe x (hdisj01 x hx)
    cases rest with
    | nil =>
      obtain ⟨_, hbot⟩ := h
      refine ⟨hLOK', ?_⟩
      intro a ha
      obtain ⟨n, hn, hd⟩ := hbot a ha
      by_cases har : a = r
      · subst har
        rw [hr] at hn
        obtain rfl : rn = n := by injection hn
        exact ⟨{ rn with v := some v }, by
          rw [hframe a (by simp [towerAddrs]), hn1r], hd⟩
      · exact ⟨n, by rw [hagsc a (by simp [ha]) har, hn], hd⟩
    | cons q rest' =>
      obtain ⟨s', c'⟩ := q
      obtain ⟨_, hdl, hdisj, hrest⟩ := h
      refine ⟨hLOK', ?_, hdisj, htow⟩
      intro a ha
      obtain ⟨n, hn, b, hb, hdown, hbk, hbv⟩ := hdl a ha
      have hbadr : b ∈ towerAddrs ((s', c') :: rest') :=
        mem_towerAddrs_cons.mpr (Or.inr (Or.inl hb))
      have hbner : b ≠ r := by
        intro hcontra
        exact hrs (hcontra ▸ hbadr)
      by_cases har : a = r
      · -- the trigger node: value written here and below
        subst har
        rw [hr] at hn
        obtain rfl : rn = n := by injection hn
        obtain ⟨nb0, hnb0⟩ : ∃ nb0 : Node, nodes[b]? = some nb0 := by
          obtain ⟨d0, hL'⟩ := towerFrom_mem_levelOK hrest (s', c') (by simp)
          obtain ⟨m, hm, _⟩ := hL'.2.2.1 b hb
          exact ⟨m, hm⟩
        have hnb0k : nb0.k = some k := by
          simp only [keyAt, hnb0] at hbk
          rw [hbk, hrk]
        have hb' := hcol b nb0 (by rw [hn1x b hbner, hnb0]) hnb0k hbadr
        refine ⟨{ rn with v := some v }, hn'r, b, hb, hdown, ?_, ?_⟩
        · simp only [keyAt, hb']
          show nb0.k = rn.k
          rw [hnb0k, hrk]
        · simp only [valAt, hb']
      · -- a different key: untouched, and its column below untouched
        have hkanot : ¬ n.k = some k := by
          intro hcontra
          have : a = r := chain_key_unique hL ha hrc
            (by rw [keyAt, hn]; exact hcontra)
            (by rw [keyAt, hr]; exact hrk)
          exact har this
        obtain ⟨nb0, hnb0⟩ : ∃ nb0 : Node, nodes[b]? = some nb0 := by
          obtain ⟨d0, hL'⟩ := towerFrom_mem_levelOK hrest (s', c') (by simp)
          obtain ⟨m, hm, _⟩ := hL'.2.2.1 b hb
          exact ⟨m, hm⟩
        obtain ⟨nb', hnb', hbk', hbd', hbx', hbv'⟩ :=
          hcell b nb0 (by rw [hn1x b hbner, hnb0])
        refine ⟨n, by rw [hagsc a (by simp [ha]) har, hn], b, hb, hdown,
          ?_, ?_⟩
        · simp only [keyAt, hnb', hbk']
          simp only [keyAt, hnb0] at hbk
          exact hbk
        · simp only [valAt, hnb']
          simp only [valAt, hnb0] at hbv
          rcases hbv' with heq | ⟨hkk, _⟩
          · rw [heq, hbv]
          · exfalso
            simp only [keyAt, hnb0] at hbk
            rw [hbk] at hkk
            exact hkanot hkk
  · -- frame
    intro x hx
    have hx2 : x ∉ towerAddrs rest := by
      intro hcontra
      cases rest with
      | nil => simp [towerAddrs] at hcontra
      | cons q rest' =>
        obtain ⟨q1, q2⟩ := q
        exact hx (mem_towerAddrs_cons.mpr (Or.inr (Or.inr hcontra)))
    have hxr : x ≠ r := by
      intro hcontra
      exact hx (mem_towerAddrs_cons.mpr (Or.inr (Or.inl (hcontra ▸ hrc))))
    rw [hframe x hx2, hn1x x hxr]
  · -- cells
    intro x n hn
    by_cases hxr : x = r
    · subst hxr
      rw [hr] at hn
      obtain rfl : rn = n := by injection hn
      obtain ⟨n', hn', hk', hd', hx', hv'⟩ :=
        hcell _ { rn with v := some v } hn1r
      refine ⟨n', hn', hk', hd', hx', Or.inr ⟨hrk, ?_⟩⟩
      rcases hv' with heq | ⟨_, heq⟩
      · rw [heq]
      · exact heq
    · obtain ⟨n', hn', hk', hd', hx', hv'⟩ :=
        hcell x n (by rw [hn1x x hxr, hn])
      exact ⟨n', hn', hk', hd', hx', hv'⟩
  · -- column overwrite
    intro x n hn hk hx
    rcases mem_towerAddrs_cons.mp hx with rfl | hxc | hxr2
    · obtain ⟨ns, hns, hnsk, _, _⟩ := hL.1
      rw [hns] at hn
      obtain rfl : ns = n := by injection hn
      rw [hnsk] at hk
      exact absurd hk (by simp)
    · have hxisr : x = r := chain_key_unique hL hxc hrc
        (by rw [keyAt, hn]; exact hk) (by rw [keyAt, hr]; exact hrk)
      subst hxisr
      rw [hr] at hn
      obtain rfl : rn = n := by injection hn
      exact hn'r
    · have hxner : x ≠ r := fun hcontra => hrs (hcontra ▸ hxr2)
      exact hcol x n (by rw [hn1x x hxner, hn]) hk hxr2

theorem keyAt_some_lt {nodes : List Node} {x : Nat} {kk : Key}
    (h : keyAt nodes x = some kk) : x < nodes.length := by
  rw [keyAt] at h
  cases hg : nodes[x]? with
  | none => rw [hg] at h; simp at h
  | some n => exact (List.getElem?_eq_some.mp hg).1

theorem headFst_of_mapFst {t t' : List (Nat × List Nat)}
    (h : t'.map Prod.fst = t.map Prod.fst) :
    (t'.head?).map Prod.fst = (t.head?).map Prod.fst := by
  rw [← List.head?_map, ← List.head?_map, h]

/-- Lifting an insert outcome through a level that did not receive a copy
of the key (no promotion reached it). -/
theorem insertOutcome_lift_nosplice {nodes nodes' : List Node} {k : Key}
    {v : Val} {s : Nat} {c : List Nat} {q : Nat × List Nat}
    {rest' t'sub : List (Nat × List Nat)} {m : Nat}
    (h : TowerFrom nodes ((s, c) :: q :: rest'))
    (hsub : InsertOutcome nodes nodes' k v (q :: rest') t'sub m)
    (hm : m ≤ (q :: rest').length) :
    InsertOutcome nodes nodes' k v ((s, c) :: q :: rest')
      ((s, c) :: t'sub) m := by
  obtain ⟨s', c'⟩ := q
  obtain ⟨hL, hdl, hdisj, hrest⟩ := h
  obtain ⟨hlen, htow, htlen, htfst, hframe, hcell, hcov, hlevels⟩ := hsub
  have hsclt : ∀ x ∈ s :: c, x < nodes.length := by
    intro x hx
    rcases List.mem_cons.mp hx with rfl | hx
    · obtain ⟨n, hn, _⟩ := hL.1
      exact (List.getElem?_eq_some.mp hn).1
    · obtain ⟨n, hn, _⟩ := hL.2.2.1 x hx
      exact (List.getElem?_eq_some.mp hn).1
  have hagsc : ∀ x ∈ s :: c, nodes'[x]? = nodes[x]? := by
    intro x hx
    exact hframe x (hsclt x hx) (hdisj x hx)
  have hnotsub : ∀ x ∈ s :: c, x ∉ towerAddrs t'sub := by
    intro x hx hcontra
    rcases hcov x hcontra with hold | hfresh
    · exact hdisj x hx hold
    · exact absurd (hsclt x hx) (by omega)
  -- the head level of the sub-tower
  have hlev0 := hlevels 0 (s', c') (by simp)
  have hheadd : (t'sub.head?).map Prod.fst = some s' :=
    headFst_of_mapFst htfst
  refine ⟨hlen, ?_, by simp [htlen], by simp [htfst], ?_, hcell, ?_, ?_⟩
  · -- TowerFrom nodes' ((s, c) :: t'sub)
    have hLOK' : LevelOK nodes' s c ((t'sub.head?).map Prod.fst) := by
      rw [hheadd]
      exact levelOK_congr hagsc hL
    have hdl' : ∀ ch', t'sub.head? = some (s', ch') →
        (∀ b ∈ c', b ∈ ch') →
        DownLink nodes' c ch' := by
      intro ch' _ hsubset a ha
      obtain ⟨n, hn, b, hb, hdown, hbk, hbv⟩ := hdl a ha
      obtain ⟨nb0, hnb0⟩ : ∃ nb0 : Node, nodes[b]? = some nb0 := by
        obtain ⟨d0, hL'⟩ := towerFrom_mem_levelOK hrest (s', c') (by simp)
        obtain ⟨mm, hmm, _⟩ := hL'.2.2.1 b hb
        exact ⟨mm, hmm⟩
      obtain ⟨nb', hnb', hbk', hbv', hbd'⟩ := hcell b nb0 hnb0
      refine ⟨n, by rw [hagsc a (by simp [ha]), hn], b, hsubset b hb,
        hdown, ?_, ?_⟩
      · simp only [keyAt, hnb', hbk']
        simp only [keyAt, hnb0] at hbk
        exact hbk
      · simp only [valAt, hnb', hbv']
        simp only [valAt, hnb0] at hbv
        exact hbv
    cases ht'sub : t'sub with
    | nil =>
      exfalso
      rw [ht'sub] at htlen
      simp at htlen
    | cons p' t'' =>
      obtain ⟨ps, pc⟩ := p'
      have hps : ps = s' := by
        rw [ht'sub] at hheadd
        simpa using hheadd
      rw [ht'sub] at hLOK' htow hnotsub
      refine ⟨by simpa using hLOK', ?_, hnotsub, htow⟩
      -- DownLink c pc, via the sub-tower's head level
      refine hdl' pc (by rw [ht'sub]; simp [hps]) ?_
      have h0 : t'sub[0]? = some (s', pc) := by rw [ht'sub]; simp [hps]
      by_cases hcase : 0 + m < ((s', c') :: rest').length
      · have h1 := hlev0.1 hcase
        rw [h0] at h1
        have hpc : pc = c' := congrArg Prod.snd (Option.some.inj h1)
        intro b hb
        rw [hpc]
        exact hb
      · have hge : ((s', c') :: rest').length ≤ 0 + m := by omega
        obtain ⟨c₁', c₂', w₀, hsp', ht0, _, _, _⟩ := hlev0.2 hge
        rw [h0] at ht0
        have hpc : pc = c₁' ++ w₀ :: c₂' := by
          simp only [List.getElem?_cons_zero] at ht0
          exact congrArg Prod.snd (Option.some.inj ht0)
        intro b hb
        rw [hpc]
        have hsp'' : c' = c₁' ++ c₂' := hsp'
        rw [hsp''] at hb
        rcases List.mem_append.mp hb with hb | hb
        · exact List.mem_append.mpr (Or.inl hb)
        · exact List.mem_append.mpr (Or.inr (List.mem_cons.mpr (Or.inr hb)))
  · intro x hxlt hx
    refine hframe x hxlt ?_
    intro hcontra
    exact hx (mem_towerAddrs_cons.mpr (Or.inr (Or.inr hcontra)))
  · intro x hx
    rcases mem_towerAddrs_cons.mp hx with rfl | hxc | hxr
    · exact Or.inl (mem_towerAddrs_cons.mpr (Or.inl rfl))
    · exact Or.inl (mem_towerAddrs_cons.mpr (Or.inr (Or.inl hxc)))
    · rcases hcov x hxr with hold | hfresh
      · exact Or.inl (mem_towerAddrs_cons.mpr (Or.inr (Or.inr hold)))
      · exact Or.inr hfresh
  · intro j lv hlv
    cases j with
    | zero =>
      obtain rfl : (s, c) = lv := by simpa using hlv
      constructor
      · intro _
        simp
      · intro hcontra
        simp only [List.length_cons] at hcontra hm
        omega
    | succ j =>
      have hlv' : ((s', c') :: rest')[j]? = some lv := by simpa using hlv
      obtain ⟨h1, h2⟩ := hlevels j lv hlv'
      constructor
      · intro hlt
        have : j + m < ((s', c') :: rest').length := by
          simp only [List.length_cons] at hlt ⊢
          omega
        simp only [List.getElem?_cons_succ]
        exact h1 this
      · intro hge
        have : ((s', c') :: rest').length ≤ j + m := by
          simp only [List.length_cons] at hge ⊢
          omega
        obtain ⟨c₁, c₂, w, hsp, ht', hw, hwk, hwv⟩ := h2 this
        exact ⟨c₁, c₂, w, hsp, by simpa using ht', hw, hwk, hwv⟩

/-- Lifting an insert outcome through a level that receives a copy of the
key: a fresh node is spliced in after the anchor. Covers both the bottom
level (empty `rest`, null `down`) and a promotion (`down` points to the
candidate returned from below). -/
theorem insertOutcome_lift_splice {nodes nodes' : List Node} {k : Key}
    {v : Val} {s r : Nat} {c c₁ c₂ : List Nat}
    {rest t'sub : List (Nat × List Nat)} {rn : Node} {dw : Option Nat}
    (h : TowerFrom nodes ((s, c) :: rest))
    (hnok : ¬ chainHasKey nodes c k)
    (hsub : InsertOutcome nodes nodes' k v rest t'sub rest.length)
    (hc12 : c = c₁ ++ c₂)
    (hr : nodes[r]? = some rn)
    (hlast : r = lastOf s c₁)
    (hkey1 : ∀ x ∈ c₁, ∃ kx, keyAt nodes x = some kx ∧ kx ≤ k)
    (hkey2 : ∀ x, c₂.head? = some x → ∃ kx, keyAt nodes x = some kx ∧ k < kx)
    (hdw : (rest = [] ∧ dw = none) ∨
      (∃ w0, dw = some w0 ∧ w0 ∈ headChain t'sub ∧
        keyAt nodes' w0 = some k ∧ valAt nodes' w0 = some v)) :
    InsertOutcome nodes (spliced nodes' r rn dw k v) k v
      ((s, c) :: rest) ((s, c₁ ++ nodes'.length :: c₂) :: t'sub)
      (rest.length + 1) := by
  obtain ⟨hlen, htow, htlen, htfst, hframe, hcell, hcov, hlevels⟩ := hsub
  have hL := towerFrom_head_levelOK h
  have hsclt : ∀ x ∈ s :: c, x < nodes.length := by
    intro x hx
    rcases List.mem_cons.mp hx with rfl | hx
    · obtain ⟨n, hn, _⟩ := hL.1
      exact (List.getElem?_eq_some.mp hn).1
    · obtain ⟨n, hn, _⟩ := hL.2.2.1 x hx
      exact (List.getElem?_eq_some.mp hn).1
  have hdisj0 : ∀ x ∈ s :: c, x ∉ towerAddrs rest := by
    cases rest with
    | nil => intro x _; simp [towerAddrs]
    | cons q rest' =>
      obtain ⟨q1, q2⟩ := q
      exact h.2.2.1
  have hagsc : ∀ x ∈ s :: c, nodes'[x]? = nodes[x]? := by
    intro x hx
    exact hframe x (hsclt x hx) (hdisj0 x hx)
  have hrmem : r ∈ s :: c := by
    have h1 : r ∈ s :: c₁ := by rw [hlast]; exact lastOf_mem s c₁
    rcases List.mem_cons.mp h1 with rfl | h1
    · simp
    · rw [hc12]
      exact List.mem_cons.mpr (Or.inr (List.mem_append.mpr (Or.inl h1)))
  have hr' : nodes'[r]? = some rn := by rw [hagsc r hrmem, hr]
  have hrlt : r < nodes.length := (List.getElem?_eq_some.mp hr).1
  have hkA : ∀ x ∈ s :: c, keyAt nodes' x = keyAt nodes x := by
    intro x hx
    simp only [keyAt, hagsc x hx]
  have hkey1' : ∀ x ∈ c₁, ∃ kx, keyAt nodes' x = some kx ∧ kx ≤ k := by
    intro x hx
    obtain ⟨kx, h1, h2⟩ := hkey1 x hx
    refine ⟨kx, ?_, h2⟩
    rw [hkA x (by
      rw [hc12]
      exact List.mem_cons.mpr (Or.inr (List.mem_append.mpr (Or.inl hx))))]
    exact h1
  have hkey2' : ∀ x, c₂.head? = some x →
      ∃ kx, keyAt nodes' x = some kx ∧ k < kx := by
    intro x hx
    obtain ⟨kx, h1, h2⟩ := hkey2 x hx
    refine ⟨kx, ?_, h2⟩
    have hxc : x ∈ c₂ := List.mem_of_mem_head? (by simp [hx])
    rw [hkA x (by
      rw [hc12]
      exact List.mem_cons.mpr (Or.inr (List.mem_append.mpr (Or.inr hxc))))]
    exact h1
  have hnok' : ¬ chainHasKey nodes' (c₁ ++ c₂) k := by
    intro ⟨a, ha, hak⟩
    refine hnok ⟨a, by rw [hc12]; exact ha, ?_⟩
    rw [← hkA a (by rw [hc12]; exact List.mem_cons.mpr (Or.inr ha))]
    exact hak
  have hL' : LevelOK nodes' s (c₁ ++ c₂) ((rest.head?).map Prod.fst) := by
    have := levelOK_congr hagsc hL
    rwa [hc12] at this
  have hLOKnew : LevelOK (spliced nodes' r rn dw k v) s
      (c₁ ++ nodes'.length :: c₂) ((rest.head?).map Prod.fst) :=
    levelOK_splice dw hL' hr' hlast hkey1' hkey2' hnok'
  have hheadfst : (t'sub.head?).map Prod.fst = (rest.head?).map Prod.fst :=
    headFst_of_mapFst htfst
  have hcellsplice : ∀ (x : Nat) (n : Node), nodes[x]? = some n →
      ∃ n' : Node, (spliced nodes' r rn dw k v)[x]? = some n' ∧
        n'.k = n.k ∧ n'.v = n.v ∧ n'.down = n.down := by
    intro x n hn
    by_cases hxr : x = r
    · subst hxr
      rw [hr] at hn
      obtain rfl : rn = n := by injection hn
      exact ⟨{ rn with next := some nodes'.length },
        spliced_get_r rn dw k v (List.getElem?_eq_some.mp hr').1,
        rfl, rfl, rfl⟩
    · obtain ⟨n', hn', hk', hv', hd'⟩ := hcell x n hn
      refine ⟨n', ?_, hk', hv', hd'⟩
      rw [spliced_get_old rn dw k v (List.getElem?_eq_some.mp hn').1 hxr,
        hn']
  have haddrsub : ∀ x ∈ towerAddrs t'sub,
      (spliced nodes' r rn dw k v)[x]? = nodes'[x]? := by
    intro x hx
    have hxlt : x < nodes'.length := towerAddrs_lt_length htow x hx
    have hxr : x ≠ r := by
      rcases hcov x hx with hold | hfresh
      · intro hcontra
        exact hdisj0 r hrmem (hcontra ▸ hold)
      · intro hcontra
        omega
    exact spliced_get_old rn dw k v hxlt hxr
  refine ⟨?_, ?_, ?_, ?_, ?_, hcellsplice, ?_, ?_⟩
  · rw [spliced_length, hlen]
    omega
  · -- TowerFrom of the new tower
    cases ht'sub : t'sub with
    | nil =>
      subst ht'sub
      have hrest : rest = [] := List.length_eq_zero.mp htlen.symm
      subst hrest
      have hLOK0 : LevelOK (spliced nodes' r rn dw k v) s
          (c₁ ++ nodes'.length :: c₂) none := by
        simpa using hLOKnew
      refine ⟨hLOK0, ?_⟩
      obtain ⟨_, hbot⟩ := h
      have hdwnone : dw = none := by
        rcases hdw with ⟨_, hd⟩ | ⟨w0, _, hw0, _, _⟩
        · exact hd
        · simp [headChain] at hw0
      intro a ha
      rcases List.mem_append.mp ha with ha1 | ha2
      · have hac : a ∈ c := by
          rw [hc12]; exact List.mem_append.mpr (Or.inl ha1)
        obtain ⟨n, hn, hd⟩ := hbot a hac
        obtain ⟨n', hn', _, _, hd'⟩ := hcellsplice a n hn
        exact ⟨n', hn', by rw [hd', hd]⟩
      · rcases List.mem_cons.mp ha2 with rfl | ha2
        · exact ⟨_, spliced_get_w nodes' r rn dw k v, hdwnone⟩
        · have hac : a ∈ c := by
            rw [hc12]; exact List.mem_append.mpr (Or.inr ha2)
          obtain ⟨n, hn, hd⟩ := hbot a hac
          obtain ⟨n', hn', _, _, hd'⟩ := hcellsplice a n hn
          exact ⟨n', hn', by rw [hd', hd]⟩
    | cons p' t'' =>
      subst ht'sub
      obtain ⟨ps, pc⟩ := p'
      cases hrest : rest with
      | nil =>
        exfalso
        rw [hrest] at htlen
        simp at htlen
      | cons q rest' =>
        subst hrest
        obtain ⟨s', c'⟩ := q
        have hps : ps = s' := by
          have h2 := htfst
          simp at h2
          exact h2.1
        have hlev0 := hlevels 0 (s', c') (by simp)
        have hge0 : ((s', c') :: rest').length ≤ 0 + ((s', c') :: rest').length := by
          omega
        obtain ⟨c₁', c₂', w₀, hsp', ht0, hw₀f, hw₀k, hw₀v⟩ := hlev0.2 hge0
        have hsp'' : c' = c₁' ++ c₂' := hsp'
        have hpc : pc = c₁' ++ w₀ :: c₂' := by
          simp only [List.getElem?_cons_zero] at ht0
          exact congrArg Prod.snd (Option.some.inj ht0)
        have hrest_tow : TowerFrom nodes ((s', c') :: rest') :=
          towerFrom_tail h
        obtain ⟨_, hdl, _, _⟩ := h
        refine ⟨?_, ?_, ?_, towerFrom_congr haddrsub htow⟩
        · -- the spliced level with its sentinel down pointer
          rw [hps]
          exact hLOKnew
        · -- DownLink of the spliced level into pc
          have hmemmap : ∀ b ∈ c', b ∈ pc := by
            intro b hb
            rw [hpc]
            rw [hsp''] at hb
            rcases List.mem_append.mp hb with hb | hb
            · exact List.mem_append.mpr (Or.inl hb)
            · exact List.mem_append.mpr (Or.inr
                (List.mem_cons.mpr (Or.inr hb)))
          have holdcell : ∀ a ∈ c,
              ∃ n : Node, (spliced nodes' r rn dw k v)[a]? = some n ∧
              ∃ b ∈ pc, n.down = some b ∧
                keyAt (spliced nodes' r rn dw k v) b = n.k ∧
                valAt (spliced nodes' r rn dw k v) b = n.v := by
            intro a hac
            obtain ⟨n, hn, b, hb, hdown, hbk, hbv⟩ := hdl a hac
            obtain ⟨n', hn', hk', hv', hd'⟩ := hcellsplice a n hn
            obtain ⟨nb0, hnb0⟩ : ∃ nb0 : Node, nodes[b]? = some nb0 := by
              obtain ⟨d0, hL2⟩ := towerFrom_mem_levelOK
                hrest_tow (s', c') (by simp)
              obtain ⟨mm, hmm, _⟩ := hL2.2.2.1 b hb
              exact ⟨mm, hmm⟩
            obtain ⟨nb', hnb', hbk', hbv', _⟩ := hcell b nb0 hnb0
            have hblt : b < nodes'.length :=
              (List.getElem?_eq_some.mp hnb').1
            refine ⟨n', hn', b, hmemmap b hb, by rw [hd', hdown], ?_, ?_⟩
            · rw [spliced_keyAt dw k v hr' hblt, hk']
              simp only [keyAt, hnb', hbk']
              simp only [keyAt, hnb0] at hbk
              exact hbk
            · rw [spliced_valAt dw k v hr' hblt, hv']
              simp only [valAt, hnb', hbv']
              simp only [valAt, hnb0] at hbv
              exact hbv
          intro a ha
          rcases List.mem_append.mp ha with ha1 | ha2
          · exact holdcell a (by
              rw [hc12]; exact List.mem_append.mpr (Or.inl ha1))
          · rcases List.mem_cons.mp ha2 with rfl | ha3
            · -- the fresh node of this level
              rcases hdw with ⟨hrnil, _⟩ | ⟨w0, hdweq, hw0mem, hw0k, hw0v⟩
              · exact absurd hrnil (by simp)
              · have hw0pc : w0 ∈ pc := by simpa [headChain] using hw0mem
                have hw0lt : w0 < nodes'.length := keyAt_some_lt hw0k
                refine ⟨⟨dw, rn.next, some k, some v⟩,
                  spliced_get_w nodes' r rn dw k v, w0, hw0pc,
                  by rw [hdweq], ?_, ?_⟩
                · rw [spliced_keyAt dw k v hr' hw0lt]
                  exact hw0k
                · rw [spliced_valAt dw k v hr' hw0lt]
                  exact hw0v
            · exact holdcell a (by
                rw [hc12]; exact List.mem_append.mpr (Or.inr ha3))
        · -- disjointness of the new level from the sub-tower
          intro x hx hcontra
          rcases List.mem_cons.mp hx with rfl | hx2
          · rcases hcov x hcontra with hold | hfresh
            · exact hdisj0 x (by simp) hold
            · exact absurd (hsclt x (by simp)) (by omega)
          · rcases List.mem_append.mp hx2 with hxc1 | hxc2
            · have hxc : x ∈ s :: c := by
                rw [hc12]
                exact List.mem_cons.mpr (Or.inr
                  (List.mem_append.mpr (Or.inl hxc1)))
              rcases hcov x hcontra with hold | hfresh
              · exact hdisj0 x hxc hold
              · exact absurd (hsclt x hxc) (by omega)
            · rcases List.mem_cons.mp hxc2 with rfl | hxc3
              · have := towerAddrs_lt_length htow _ hcontra
                omega
              · have hxc : x ∈ s :: c := by
                  rw [hc12]
                  exact List.mem_cons.mpr (Or.inr
                    (List.mem_append.mpr (Or.inr hxc3)))
                rcases hcov x hcontra with hold | hfresh
                · exact hdisj0 x hxc hold
                · exact absurd (hsclt x hxc) (by omega)
  · simp [htlen]
  · simp [htfst]
  · -- frame
    intro x hxlt hx
    have hxr : x ≠ r := by
      intro hcontra
      subst hcontra
      refine hx (mem_towerAddrs_cons.mpr ?_)
      rcases List.mem_cons.mp hrmem with h1 | h1
      · exact Or.inl h1
      · exact Or.inr (Or.inl h1)
    rw [spliced_get_old rn dw k v (by omega) hxr]
    exact hframe x hxlt
      (fun hc => hx (mem_towerAddrs_cons.mpr (Or.inr (Or.inr hc))))
  · -- address coverage
    intro x hx
    rcases mem_towerAddrs_cons.mp hx with rfl | hxc | hxr
    · exact Or.inl (mem_towerAddrs_cons.mpr (Or.inl rfl))
    · rcases List.mem_append.mp hxc with h1 | h2
      · refine Or.inl (mem_towerAddrs_cons.mpr (Or.inr (Or.inl ?_)))
        rw [hc12]
        exact List.mem_append.mpr (Or.inl h1)
      · rcases List.mem_cons.mp h2 with rfl | h3
        · exact Or.inr (by omega)
        · refine Or.inl (mem_towerAddrs_cons.mpr (Or.inr (Or.inl ?_)))
          rw [hc12]
          exact List.mem_append.mpr (Or.inr h3)
    · rcases hcov x hxr with hold | hfresh
      · exact Or.inl (mem_towerAddrs_cons.mpr (Or.inr (Or.inr hold)))
      · exact Or.inr hfresh
  · -- per-level description
    intro j lv hlv
    cases j with
    | zero =>
      obtain rfl : (s, c) = lv := by simpa using hlv
      constructor
      · intro hcontra
        simp only [List.length_cons] at hcontra
        omega
      · intro _
        refine ⟨c₁, c₂, nodes'.length, hc12, by simp, by omega, ?_, ?_⟩
        · simp [keyAt, spliced_get_w]
        · simp [valAt, spliced_get_w]
    | succ j =>
      have hlv' : rest[j]? = some lv := by simpa using hlv
      obtain ⟨h1, h2⟩ := hlevels j lv hlv'
      have hge : rest.length ≤ j + rest.length := by omega
      obtain ⟨c₁j, c₂j, wj, hspj, htj, hwjf, hwjk, hwjv⟩ := h2 hge
      constructor
      · intro hcontra
        simp only [List.length_cons] at hcontra
        omega
      · intro _
        have hwjlt : wj < nodes'.length := keyAt_some_lt hwjk
        refine ⟨c₁j, c₂j, wj, hspj, by simpa using htj, hwjf, ?_, ?_⟩
        · rw [spliced_keyAt dw k v hr' hwjlt]
          exact hwjk
        · rw [spliced_valAt dw k v hr' hwjlt]
          exact hwjv

theorem upsertRec_none (coins : Nat → Bool) (k : Key) (v : Val)
    (nodes : List Node) (pos fuel : Nat) :
    upsertRec coins k v nodes pos none fuel = (none, nodes, pos) := by
  cases fuel <;> rfl

/-- Complete characterization of `upsertRec` on a well-formed subtower:
if the key is present below, the call performs a pure column update and
draws no coin; if the key is absent, it inserts one fresh node on each of
the bottom `consecTrues + 1` levels, drawing one coin per promotion
decision. -/
theorem upsertRec_spec (coins : Nat → Bool) (k : Key) (v : Val) :
    ∀ (rest : List (Nat × List Nat)) (nodes : List Node) (pos : Nat)
      (s p : Nat) (c csuf : List Nat) (fuel : Nat),
      TowerFrom nodes ((s, c) :: rest) →
      StartPt nodes k s c p csuf →
      rest.length + 1 ≤ fuel →
      ((chainHasKey nodes (bottomChain ((s, c) :: rest)) k →
        ∃ nodes',
          upsertRec coins k v nodes pos (some p) fuel =
            (none, nodes', pos) ∧
          UpdateOutcome nodes nodes' k v ((s, c) :: rest)) ∧
       (¬ chainHasKey nodes (bottomChain ((s, c) :: rest)) k →
        ∃ (ret : Option Nat) (nodes' : List Node)
          (t' : List (Nat × List Nat)),
          upsertRec coins k v nodes pos (some p) fuel =
            (ret, nodes',
              pos + min (consecTrues coins pos rest.length + 1)
                rest.length) ∧
          InsertOutcome nodes nodes' k v ((s, c) :: rest) t'
            (consecTrues coins pos rest.length + 1) ∧
          (consecTrues coins pos rest.length + 1 ≤ rest.length →
            ret = none) ∧
          (consecTrues coins pos rest.length + 1 = rest.length + 1 →
            ∃ w, ret = some w ∧ w ∈ headChain t' ∧ nodes.length ≤ w ∧
              keyAt nodes' w = some k ∧ valAt nodes' w = some v))) := by
  intro rest
  induction rest with
  | nil =>
    intro nodes pos s p c csuf fuel h hst hfuel
    obtain ⟨f, rfl⟩ : ∃ f, fuel = f + 1 := by
      cases fuel with
      | zero => simp at hfuel
      | succ f => exact ⟨f, rfl⟩
    have hL := towerFrom_head_levelOK h
    obtain ⟨c₁, c₂, hc12, hanch, hseg1, hch2, hkey1, hkey2, hmemkey,
      hnokey⟩ := anchor_split hL hst
    have hFIL : findInLevel nodes nodes.length p k =
        anchorIn nodes k p csuf := by
      obtain ⟨cpre, hcp, hpl, _⟩ := hst
      have hchain := hL.2.1
      rw [hcp] at hchain
      have hsplit := isChain_append.mp hchain
      have hisc : IsChain nodes p csuf := by rw [hpl]; exact hsplit.2
      have hlen2 : csuf.length ≤ nodes.length := by
        have hnd : c.Nodup := sortedChain_nodup hL.2.2.2
        have hlive : ∀ x ∈ c, x < nodes.length := by
          intro x hx
          obtain ⟨n, hn, _⟩ := hL.2.2.1 x hx
          exact (List.getElem?_eq_some.mp hn).1
        have h1 : c.length ≤ nodes.length := chain_length_le hnd hlive
        rw [hcp] at h1
        simp only [List.length_append] at h1
        omega
      exact findInLevel_eq_anchorIn hisc hlen2
    rw [← hFIL] at hanch hch2 hmemkey hnokey
    have hrmem : findInLevel nodes nodes.length p k ∈ s :: c := by
      have h1 : findInLevel nodes nodes.length p k ∈ s :: c₁ := by
        rw [hanch]; exact lastOf_mem s c₁
      rcases List.mem_cons.mp h1 with heq | h1
      · rw [heq]; simp
      · rw [hc12]
        exact List.mem_cons.mpr (Or.inr (List.mem_append.mpr (Or.inl h1)))
    obtain ⟨rn, hrn⟩ : ∃ rn : Node,
        nodes[findInLevel nodes nodes.length p k]? = some rn := by
      rcases List.mem_cons.mp hrmem with heq | h1
      · obtain ⟨n, hn, _⟩ := hL.1
        exact ⟨n, by rw [heq, hn]⟩
      · obtain ⟨n, hn, _⟩ := hL.2.2.1 _ h1
        exact ⟨n, hn⟩
    have hbc : bottomChain [(s, c)] = c := rfl
    have hrc_of_key : rn.k = some k →
        findInLevel nodes nodes.length p k ∈ c := by
      intro hkk
      rcases List.mem_cons.mp hrmem with heq | h1
      · exfalso
        obtain ⟨ns, hns, hnsk, _, _⟩ := hL.1
        rw [heq, hns] at hrn
        obtain rfl : ns = rn := by injection hrn
        rw [hnsk] at hkk
        exact Option.noConfusion hkk
      · exact h1
    constructor
    · -- the key is present: bottom-level update
      intro hhk
      rw [hbc] at hhk
      have hkr : rn.k = some k := by
        have := hmemkey hhk
        simp only [keyAt, hrn] at this
        exact this
      have hrc : findInLevel nodes nodes.length p k ∈ c := hrc_of_key hkr
      have hdn : rn.down = none := by
        obtain ⟨n, hn, hd⟩ := h.2 _ hrc
        rw [hrn] at hn
        obtain rfl : rn = n := by injection hn
        exact hd
      refine ⟨nodes.set (findInLevel nodes nodes.length p k)
        { rn with v := some v }, ?_, ?_⟩
      · rw [upsertRec_step_update coins k v nodes pos p f hrn hkr, hdn,
          upsertRec_none]
      · exact updateOutcome_lift_trigger h hrn hrc hkr
          (updateOutcome_refl _ k v)
    · -- the key is absent: leaf insert
      intro hnk
      rw [hbc] at hnk
      have hkr : ¬ rn.k = some k := by
        intro hkk
        exact (hnokey hnk) (by simp only [keyAt, hrn]; exact hkk)
      have hdn : rn.down = none := by
        rcases List.mem_cons.mp hrmem with heq | h1
        · obtain ⟨ns, hns, _, _, hnd⟩ := hL.1
          rw [heq, hns] at hrn
          obtain rfl : ns = rn := by injection hrn
          simpa using hnd
        · obtain ⟨n, hn, hd⟩ := h.2 _ h1
          rw [hrn] at hn
          obtain rfl : rn = n := by injection hn
          exact hd
      have hct : consecTrues coins pos ([] : List (Nat × List Nat)).length
          = 0 := rfl
      refine ⟨some nodes.length, spliced nodes
        (findInLevel nodes nodes.length p k) rn none k v,
        [(s, c₁ ++ nodes.length :: c₂)], ?_, ?_, ?_, ?_⟩
      · rw [upsertRec_step_leaf coins k v nodes pos p f hrn hkr hdn,
          chainNode_eq_spliced none k v hrn]
        simp [hct, spliced]
      · have := insertOutcome_lift_splice h hnk
          (insertOutcome_refl nodes k v) hc12 hrn hanch hkey1 hkey2
          (Or.inl ⟨rfl, rfl⟩)
        simpa [hct] using this
      · intro hcontra
        simp [hct] at hcontra
      · intro _
        refine ⟨nodes.length, rfl, ?_, Nat.le_refl _, ?_, ?_⟩
        · simp [headChain]
        · simp [keyAt, spliced_get_w]
        · simp [valAt, spliced_get_w]
  | cons q rest' ih =>
    intro nodes pos s p c csuf fuel h hst hfuel
    obtain ⟨s', cq⟩ := q
    obtain ⟨f, rfl⟩ : ∃ f, fuel = f + 1 := by
      cases fuel with
      | zero => simp at hfuel
      | succ f => exact ⟨f, rfl⟩
    have hfuel' : rest'.length + 1 ≤ f := by
      simp only [List.length_cons] at hfuel
      omega
    have hL := towerFrom_head_levelOK h
    obtain ⟨c₁, c₂, hc12, hanch, hseg1, hch2, hkey1, hkey2, hmemkey,
      hnokey⟩ := anchor_split hL hst
    have hFIL : findInLevel nodes nodes.length p k =
        anchorIn nodes k p csuf := by
      obtain ⟨cpre, hcp, hpl, _⟩ := hst
      have hchain := hL.2.1
      rw [hcp] at hchain
      have hsplit := isChain_append.mp hchain
      have hisc : IsChain nodes p csuf := by rw [hpl]; exact hsplit.2
      have hlen2 : csuf.length ≤ nodes.length := by
        have hnd : c.Nodup := sortedChain_nodup hL.2.2.2
        have hlive : ∀ x ∈ c, x < nodes.length := by
          intro x hx
          obtain ⟨n, hn, _⟩ := hL.2.2.1 x hx
          exact (List.getElem?_eq_some.mp hn).1
        have h1 : c.length ≤ nodes.length := chain_length_le hnd hlive
        rw [hcp] at h1
        simp only [List.length_append] at h1
        omega
      exact findInLevel_eq_anchorIn hisc hlen2
    rw [← hFIL] at hanch hch2 hmemkey hnokey
    have hrmem : findInLevel nodes nodes.length p k ∈ s :: c := by
      have h1 : findInLevel nodes nodes.length p k ∈ s :: c₁ := by
        rw [hanch]; exact lastOf_mem s c₁
      rcases List.mem_cons.mp h1 with heq | h1
      · rw [heq]; simp
      · rw [hc12]
        exact List.mem_cons.mpr (Or.inr (List.mem_append.mpr (Or.inl h1)))
    obtain ⟨rn, hrn⟩ : ∃ rn : Node,
        nodes[findInLevel nodes nodes.length p k]? = some rn := by
      rcases List.mem_cons.mp hrmem with heq | h1
      · obtain ⟨n, hn, _⟩ := hL.1
        exact ⟨n, by rw [heq, hn]⟩
      · obtain ⟨n, hn, _⟩ := hL.2.2.1 _ h1
        exact ⟨n, hn⟩
    have hrc_of_key : rn.k = some k →
        findInLevel nodes nodes.length p k ∈ c := by
      intro hkk
      rcases List.mem_cons.mp hrmem with heq | h1
      · exfalso
        obtain ⟨ns, hns, hnsk, _, _⟩ := hL.1
        rw [heq, hns] at hrn
        obtain rfl : ns = rn := by injection hrn
        rw [hnsk] at hkk
        exact Option.noConfusion hkk
      · exact h1
    have hbot_eq : bottomChain ((s, c) :: (s', cq) :: rest') =
        bottomChain ((s', cq) :: rest') := bottomChain_cons_cons _ _ _
    have hdl : DownLink nodes c cq := h.2.1
    by_cases hkr : rn.k = some k
    · -- trigger level of an update
      have hrc : findInLevel nodes nodes.length p k ∈ c := hrc_of_key hkr
      obtain ⟨n0, hn0, b, hb, hdown, hbk, hbv⟩ := hdl _ hrc
      rw [hrn] at hn0
      obtain rfl : rn = n0 := by injection hn0
      have hkb : keyAt nodes b = some k := by rw [hbk, hkr]
      have hbk0 : chainHasKey nodes (bottomChain ((s', cq) :: rest')) k := by
        have h1 : chainHasKey nodes c k :=
          ⟨_, hrc, by simp only [keyAt, hrn]; exact hkr⟩
        have := towerFrom_hasKey_bottom h h1
        rwa [hbot_eq] at this
      -- the heap after the trigger write
      have hrs : findInLevel nodes nodes.length p k
          ∉ towerAddrs ((s', cq) :: rest') := h.2.2.1 _ (by simp [hrc])
      have htow1 : TowerFrom
          (nodes.set (findInLevel nodes nodes.length p k)
            { rn with v := some v }) ((s', cq) :: rest') := by
        refine towerFrom_congr ?_ (towerFrom_tail h)
        intro x hx
        have hne : findInLevel nodes nodes.length p k ≠ x := by
          intro hcontra
          exact hrs (by rw [hcontra]; exact hx)
        exact List.getElem?_set_ne hne
      have hkb1 : keyAt (nodes.set (findInLevel nodes nodes.length p k)
          { rn with v := some v }) b = some k := by
        rw [keyAt_set_val v hrn b]
        exact hkb
      obtain ⟨csuf', hstart1⟩ := startPt_of_mem
        (towerFrom_head_levelOK htow1) hb hkb1 (le_refl k)
      have hbk1 : chainHasKey
          (nodes.set (findInLevel nodes nodes.length p k)
            { rn with v := some v }) (bottomChain ((s', cq) :: rest')) k := by
        obtain ⟨a, ha, hak⟩ := hbk0
        exact ⟨a, ha, by rw [keyAt_set_val v hrn a]; exact hak⟩
      obtain ⟨nodes', hstep_sub, houtcome⟩ :=
        (ih (nodes.set (findInLevel nodes nodes.length p k)
          { rn with v := some v }) pos s' b cq csuf' f htow1 hstart1
          hfuel').1 hbk1
      constructor
      · intro _
        refine ⟨nodes', ?_, ?_⟩
        · rw [← hdown] at hstep_sub
          rw [upsertRec_step_update coins k v nodes pos p f hrn hkr,
            hstep_sub]
        · exact updateOutcome_lift_trigger h hrn hrc hkr houtcome
      · intro hnk
        rw [hbot_eq] at hnk
        exact absurd hbk0 hnk
    · -- the key is absent at this level: descend
      have hnok : ¬ chainHasKey nodes c k := by
        intro hhk
        exact hkr (by
          have := hmemkey hhk
          simp only [keyAt, hrn] at this
          exact this)
      -- down target and start point for the level below
      obtain ⟨dtgt, csuf', hdown, hstart'⟩ :
          ∃ (dtgt : Nat) (csuf' : List Nat), rn.down = some dtgt ∧
            StartPt nodes k s' cq dtgt csuf' := by
        rcases List.mem_cons.mp hrmem with heq | hrc
        · obtain ⟨ns, hns, _, _, hnd⟩ := hL.1
          rw [heq, hns] at hrn
          obtain rfl : ns = rn := by injection hrn
          exact ⟨s', cq, by simpa using hnd,
            startPt_sentinel nodes k s' cq⟩
        · obtain ⟨n0, hn0, b, hb, hdown, hbk, hbv⟩ := hdl _ hrc
          rw [hrn] at hn0
          obtain rfl : rn = n0 := by injection hn0
          have hrc1 : findInLevel nodes nodes.length p k ∈ c₁ := by
            have h1 : findInLevel nodes nodes.length p k ∈ s :: c₁ := by
              rw [hanch]; exact lastOf_mem s c₁
            rcases List.mem_cons.mp h1 with heq | h1
            · exfalso
              exact sentinel_not_mem hL (heq ▸ hrc)
            · exact h1
          obtain ⟨kr, hkrv, hkrle⟩ := hkey1 _ hrc1
          have hkb : keyAt nodes b = some kr := by
            rw [hbk]
            simp only [keyAt, hrn] at hkrv
            exact hkrv
          obtain ⟨csuf', hs'⟩ := startPt_of_mem
            (towerFrom_head_levelOK (towerFrom_tail h)) hb hkb hkrle
          exact ⟨b, csuf', hdown, hs'⟩
      have hihres := ih nodes pos s' dtgt cq csuf' f (towerFrom_tail h)
        hstart' hfuel'
      by_cases hbk : chainHasKey nodes (bottomChain ((s', cq) :: rest')) k
      · -- present below: sub-call is an update, no promotion candidate
        obtain ⟨nodes', hstep_sub, houtcome⟩ := hihres.1 hbk
        constructor
        · intro _
          refine ⟨nodes', ?_, ?_⟩
          · rw [upsertRec_step_descend_none coins k v nodes pos p f hrn hkr
              hdown (by rw [hstep_sub]), hstep_sub]
          · exact updateOutcome_lift_descend h hnok houtcome
        · intro hnk
          rw [hbot_eq] at hnk
          exact absurd hbk hnk
      · -- absent below: sub-call inserts
        obtain ⟨rets, nodes', t'sub, hstep_sub, hio, hretnone, hretsome⟩ :=
          hihres.2 hbk
        have hconj2 : ¬ chainHasKey nodes
            (bottomChain ((s, c) :: (s', cq) :: rest')) k := by
          rw [hbot_eq]
          exact hbk
        have hcts_le := consecTrues_le coins rest'.length pos
        have hrlen : ((s', cq) :: rest').length = rest'.length + 1 := rfl
        refine ⟨?_, ?_⟩
        case _ => intro hhk; rw [hbot_eq] at hhk; exact absurd hhk hbk
        intro _
        by_cases hfull :
            consecTrues coins pos rest'.length + 1 = rest'.length + 1
        · -- the sub-call promoted all the way: draw a coin here
          obtain ⟨w0, hret, hw0mem, hw0f, hw0k, hw0v⟩ := hretsome hfull
          have hcts : consecTrues coins pos rest'.length = rest'.length := by
            omega
          have hpos_sub : pos + min (consecTrues coins pos rest'.length + 1)
              rest'.length = pos + rest'.length := by
            omega
          have hctp := consecTrues_full coins rest'.length pos hcts
          have hio' : InsertOutcome nodes nodes' k v ((s', cq) :: rest')
              t'sub ((s', cq) :: rest').length := by
            rw [hrlen, ← hfull]
            exact hio
          have hframe_r : nodes'[findInLevel nodes nodes.length p k]? =
              some rn := by
            obtain ⟨hlen2, _, _, _, hframe2, _, _, _⟩ := hio
            rw [hframe2 _ (by
                rcases List.mem_cons.mp hrmem with heq | h1
                · obtain ⟨n, hn, _⟩ := hL.1
                  rw [heq]
                  exact (List.getElem?_eq_some.mp hn).1
                · obtain ⟨n, hn, _⟩ := hL.2.2.1 _ h1
                  exact (List.getElem?_eq_some.mp hn).1)
              (h.2.2.1 _ hrmem), hrn]
          by_cases hcoin : coins (pos + rest'.length)
          · -- promote into this level as well
            have hsplice := insertOutcome_lift_splice h hnok hio' hc12
              hrn hanch hkey1 hkey2
              (Or.inr ⟨w0, rfl, hw0mem, hw0k, hw0v⟩)
            refine ⟨some nodes'.length,
              spliced nodes' (findInLevel nodes nodes.length p k) rn
                (some w0) k v,
              (s, c₁ ++ nodes'.length :: c₂) :: t'sub, ?_, ?_, ?_, ?_⟩
            · rw [upsertRec_step_descend_promote coins k v nodes pos p f
                hrn hkr hdown (by rw [hstep_sub]; exact hret)
                (by rw [hstep_sub]; simpa [hpos_sub] using hcoin)]
              rw [hstep_sub]
              simp only [hpos_sub]
              rw [chainNode_eq_spliced (some w0) k v hframe_r]
              have hctp2 : consecTrues coins pos (rest'.length + 1) =
                  rest'.length + 1 := by
                rw [hctp, if_pos hcoin]
              rw [hrlen, hctp2]
              have : pos + rest'.length + 1 =
                  pos + min (rest'.length + 1 + 1) (rest'.length + 1) := by
                omega
              rw [this]
              rfl
            · have : consecTrues coins pos ((s', cq) :: rest').length + 1 =
                  ((s', cq) :: rest').length + 1 := by
                rw [hrlen, hctp, if_pos hcoin]
              rw [hrlen] at this ⊢
              rw [this]
              have hlen_eq : rest'.length + 1 + 1 =
                  ((s', cq) :: rest').length + 1 := by rw [hrlen]
              simpa using hsplice
            · intro hcontra
              rw [hrlen, hctp, if_pos hcoin] at hcontra
              omega
            · intro _
              refine ⟨nodes'.length, rfl, ?_, ?_, ?_, ?_⟩
              · simp [headChain]
              · obtain ⟨hlen2, _⟩ := hio
                omega
              · simp [keyAt, spliced_get_w]
              · simp [valAt, spliced_get_w]
          · -- the coin stops the promotion here
            have hnosplice := insertOutcome_lift_nosplice h hio'
              (by rw [hrlen])
            refine ⟨none, nodes', (s, c) :: t'sub, ?_, ?_, ?_, ?_⟩
            · rw [upsertRec_step_descend_nopromote coins k v nodes pos p f
                hrn hkr hdown (by rw [hstep_sub]; exact hret)
                (by rw [hstep_sub]; simpa [hpos_sub] using
                  Bool.of_not_eq_true hcoin)]
              rw [hstep_sub]
              simp only [hpos_sub]
              have hctp2 : consecTrues coins pos (rest'.length + 1) =
                  rest'.length := by
                rw [hctp, if_neg hcoin]
              rw [hrlen, hctp2]
              have : pos + rest'.length + 1 =
                  pos + min (rest'.length + 1) (rest'.length + 1) := by
                omega
              rw [this]
            · have hctp2 : consecTrues coins pos
                  ((s', cq) :: rest').length = rest'.length := by
                rw [hrlen, hctp, if_neg hcoin]
              rw [hctp2]
              have : rest'.length + 1 = ((s', cq) :: rest').length := by
                rw [hrlen]
              rw [this]
              exact hnosplice
            · intro _
              rfl
            · intro hcontra
              have hctp2 : consecTrues coins pos
                  ((s', cq) :: rest').length = rest'.length := by
                rw [hrlen, hctp, if_neg hcoin]
              rw [hctp2, hrlen] at hcontra
              omega
        · -- the sub-call stopped before the top: no candidate arrives here
          have hmle : consecTrues coins pos rest'.length + 1 ≤
              rest'.length := by
            omega
          have hret_none : rets = none := hretnone hmle
          have hstable : consecTrues coins pos (rest'.length + 1) =
              consecTrues coins pos rest'.length :=
            consecTrues_stable coins rest'.length pos (by omega)
          refine ⟨none, nodes', (s, c) :: t'sub, ?_, ?_, ?_, ?_⟩
          · rw [upsertRec_step_descend_none coins k v nodes pos p f hrn hkr
              hdown (by rw [hstep_sub]; exact hret_none), hstep_sub]
            rw [hrlen, hstable]
            have : pos + min (consecTrues coins pos rest'.length + 1)
                rest'.length =
                pos + min (consecTrues coins pos rest'.length + 1)
                  (rest'.length + 1) := by
              omega
            rw [← this]
          · have hnosplice := insertOutcome_lift_nosplice h hio
              (by rw [hrlen]; omega)
            rw [hrlen, hstable]
            exact hnosplice
          · intro _
            rfl
          · intro hcontra
            rw [hrlen, hstable] at hcontra
            omega

/-! ## From chains to association lists -/

/-- Some level of a well-formed tower carries the bottom chain. -/
theorem towerFrom_bottom_levelOK {nodes : List Node} :
    ∀ {q : Nat × List Nat} {rest : List (Nat × List Nat)},
      TowerFrom nodes (q :: rest) →
      ∃ sb d, LevelOK nodes sb (bottomChain (q :: rest)) d := by
  intro q rest
  induction rest generalizing q with
  | nil =>
    intro h
    obtain ⟨s, c⟩ := q
    exact ⟨s, none, h.1⟩
  | cons q' rest' ih =>
    intro h
    rw [bottomChain_cons_cons]
    exact ih (towerFrom_tail h)

/-- A chain without the key yields an association list without the key. -/
theorem listFind_entriesOf_none {nodes : List Node} {k : Key} :
    ∀ {c : List Nat}, ¬ chainHasKey nodes c k →
      listFind k (entriesOf nodes c) = none := by
  intro c
  induction c with
  | nil => intro _; rfl
  | cons a l ih =>
    intro hnk
    have hna : ¬ keyAt nodes a = some k := fun hk => hnk ⟨a, by simp, hk⟩
    have hnl : ¬ chainHasKey nodes l k := by
      rintro ⟨b, hb, hk⟩
      exact hnk ⟨b, by simp [hb], hk⟩
    simp only [entriesOf, List.filterMap_cons] at ih ⊢
    cases hn : nodes[a]? with
    | none =>
      simp only [hn]
      exact ih hnl
    | some n =>
      simp only [hn]
      cases hk : n.k with
      | none =>
        simp only []
        exact ih hnl
      | some k' =>
        cases hv : n.v with
        | none =>
          simp only []
          exact ih hnl
        | some v' =>
          simp only []
          have hne : ¬ k' = k := by
            intro hkk
            exact hna (by simp only [keyAt, hn, hk, hkk])
          simp only [listFind, if_neg hne]
          exact ih hnl

/-- On a sorted real chain, `listFind` over the entries returns the value
stored at the (unique) member carrying the key. -/
theorem listFind_entriesOf_mem {nodes : List Node} {k : Key} :
    ∀ {c : List Nat}, RealChain nodes c → SortedChain nodes c →
      ∀ a, a ∈ c → keyAt nodes a = some k →
        listFind k (entriesOf nodes c) = valAt nodes a := by
  intro c
  induction c with
  | nil =>
    intro _ _ a ha
    simp at ha
  | cons b l ih =>
    intro hreal hsort a ha hak
    have hrl : RealChain nodes l := fun x hx => hreal x (by simp [hx])
    have hsl : SortedChain nodes l := by
      have := hsort
      simp only [SortedChain, List.map_cons] at this ⊢
      exact this.tail
    rw [entriesOf_eq_map hreal]
    simp only [List.map_cons, listFind]
    rcases List.mem_cons.mp ha with rfl | ha'
    · have hkd : keyD nodes a = k := by simp [keyD, hak]
      rw [hkd, if_pos rfl]
      obtain ⟨n, hn, _, hveng⟩ := hreal a (by simp)
      obtain ⟨vb, hvb⟩ := Option.isSome_iff_exists.mp hveng
      simp only [valAt, valD, hn, hvb]
      rfl
    · have hpw := List.chain'_iff_pairwise.mp hsort
      simp only [List.map_cons] at hpw
      have hlt : keyD nodes b < keyD nodes a :=
        (List.pairwise_cons.mp hpw).1 _ (List.mem_map_of_mem _ ha')
      have hka : keyD nodes a = k := by simp [keyD, hak]
      have hne : ¬ keyD nodes b = k := by
        rw [← hka]
        exact ne_of_lt hlt
      rw [if_neg hne, ← entriesOf_eq_map hrl]
      exact ih hrl hsl a ha' hak

/-- The entries of a sorted real chain form a sorted association list. -/
theorem sortedKV_entriesOf {nodes : List Node} {c : List Nat}
    (hreal : RealChain nodes c) (hsort : SortedChain nodes c) :
    SortedKV (entriesOf nodes c) := by
  rw [entriesOf_eq_map hreal]
  have hkeys : keysOf (c.map fun a => (keyD nodes a, valD nodes a)) =
      c.map (keyD nodes) := by
    simp [keysOf, List.map_map]
  simp only [SortedKV, hkeys]
  exact hsort

/-- `entriesOf` distributes over chain concatenation. -/
theorem entriesOf_append (nodes : List Node) (l₁ l₂ : List Nat) :
    entriesOf nodes (l₁ ++ l₂) = entriesOf nodes l₁ ++ entriesOf nodes l₂ := by
  simp [entriesOf, List.filterMap_append]

/-- An address carrying `k ↦ v` contributes exactly that entry. -/
theorem entriesOf_cons_of_kv {nodes : List Node} {a : Nat} {k : Key}
    {v : Val} (l : List Nat) (hk : keyAt nodes a = some k)
    (hv : valAt nodes a = some v) :
    entriesOf nodes (a :: l) = (k, v) :: entriesOf nodes l := by
  cases hn : nodes[a]? with
  | none =>
    simp only [keyAt, hn] at hk
    exact Option.noConfusion hk
  | some n =>
    simp only [keyAt, hn] at hk
    simp only [valAt, hn] at hv
    simp only [entriesOf, List.filterMap_cons, hn, hk, hv]

/-- The bottom chain's addresses belong to the tower. -/
theorem bottomChain_mem_towerAddrs :
    ∀ {t : List (Nat × List Nat)} {a : Nat}, t ≠ [] →
      a ∈ bottomChain t → a ∈ towerAddrs t := by
  intro t
  induction t with
  | nil => intro a h; exact absurd rfl h
  | cons q rest ih =>
    intro a _ ha
    obtain ⟨s, c⟩ := q
    cases rest with
    | nil =>
      have : a ∈ c := ha
      simp [towerAddrs, this]
    | cons q' rest' =>
      rw [bottomChain_cons_cons] at ha
      have := ih (by simp) ha
      simp [towerAddrs] at this ⊢
      tauto

/-- The last element of a nonempty list, through `getElem?`. -/
theorem getElem_last_eq (t : List (Nat × List Nat)) (hne : t ≠ []) :
    t[t.length - 1]? = some (t.getLastD (0, [])) := by
  rw [← List.getLast?_eq_getElem?, List.getLastD_eq_getLast?]
  cases ht : t.getLast? with
  | none =>
    exact absurd (List.getLast?_eq_none_iff.mp ht) hne
  | some x => rfl

/-- `listUpdateVal` of an absent key changes nothing. -/
theorem listUpdateVal_id {k : Key} {v : Val} :
    ∀ {l : List (Key × Val)}, k ∉ keysOf l → listUpdateVal k v l = l := by
  intro l
  induction l with
  | nil => intro _; rfl
  | cons p l ih =>
    intro hk
    obtain ⟨k', v'⟩ := p
    have hne : ¬ k' = k := fun h => hk (by simp [keysOf, h])
    have hkl : k ∉ keysOf l := fun h => hk (by simp [keysOf] at h ⊢; tauto)
    show (if k' = k then (k, v) else (k', v')) :: listUpdateVal k v l = _
    rw [if_neg hne, ih hkl]

/-- On a sorted list that already binds `k`, overwriting the value of `k`
is the same as `listUpsert`. -/
theorem listUpdateVal_eq_listUpsert {k : Key} {v : Val} :
    ∀ {l : List (Key × Val)}, SortedKV l → k ∈ keysOf l →
      listUpdateVal k v l = listUpsert k v l := by
  intro l
  induction l with
  | nil => intro _ h; simp [keysOf] at h
  | cons p l ih =>
    intro hs hk
    obtain ⟨k', v'⟩ := p
    have hpw := List.chain'_iff_pairwise.mp hs
    simp only [keysOf, List.map_cons] at hpw
    by_cases h1 : k' = k
    · subst h1
      have hkl : k' ∉ keysOf l := by
        intro hmem
        have := (List.pairwise_cons.mp hpw).1 k' hmem
        exact lt_irrefl _ this
      show (if k' = k' then (k', v) else (k', v')) ::
          listUpdateVal k' v l = listUpsert k' v ((k', v') :: l)
      rw [if_pos rfl, listUpdateVal_id hkl]
      simp [listUpsert]
    · have hkl : k ∈ keysOf l := by
        simp only [keysOf, List.map_cons, List.mem_cons] at hk
        rcases hk with h | h
        · exact absurd h.symm h1
        · exact h
      have hlt : k' < k := (List.pairwise_cons.mp hpw).1 k hkl
      have hsl : SortedKV l := by
        simp only [SortedKV, keysOf, List.map_cons] at hs ⊢
        exact hs.tail
      show (if k' = k then (k, v) else (k', v')) ::
          listUpdateVal k v l = listUpsert k v ((k', v') :: l)
      rw [if_neg h1]
      have hne : ¬ k = k' := fun h => h1 h.symm
      have hnlt : ¬ k < k' := not_lt_of_gt hlt
      simp only [listUpsert, if_neg hne, if_neg hnlt]
      rw [ih hsl hkl]

/-- A pointwise column overwrite on the members of a chain maps its
entries through `listUpdateVal`. -/
theorem entriesOf_update {nodes nodes' : List Node} {k : Key} {v : Val} :
    ∀ {c : List Nat}, RealChain nodes c →
      (∀ a ∈ c, keyAt nodes' a = keyAt nodes a ∧
        (keyAt nodes a = some k → valAt nodes' a = some v) ∧
        (¬ keyAt nodes a = some k → valAt nodes' a = valAt nodes a)) →
      entriesOf nodes' c = listUpdateVal k v (entriesOf nodes c) := by
  intro c
  induction c with
  | nil => intro _ _; rfl
  | cons a l ih =>
    intro hreal hpt
    have hrl : RealChain nodes l := fun x hx => hreal x (by simp [hx])
    have hptl : ∀ x ∈ l, keyAt nodes' x = keyAt nodes x ∧
        (keyAt nodes x = some k → valAt nodes' x = some v) ∧
        (¬ keyAt nodes x = some k → valAt nodes' x = valAt nodes x) :=
      fun x hx => hpt x (by simp [hx])
    obtain ⟨n, hn, hkeng, hveng⟩ := hreal a (by simp)
    obtain ⟨ka, hka⟩ := Option.isSome_iff_exists.mp hkeng
    obtain ⟨va, hva⟩ := Option.isSome_iff_exists.mp hveng
    have haK : keyAt nodes a = some ka := by simp only [keyAt, hn, hka]
    have haV : valAt nodes a = some va := by simp only [valAt, hn, hva]
    obtain ⟨hkeq, hvkey, hvoth⟩ := hpt a (by simp)
    have haK' : keyAt nodes' a = some ka := by rw [hkeq, haK]
    rw [entriesOf_cons_of_kv l haK haV]
    by_cases hak : ka = k
    · subst hak
      have haV' : valAt nodes' a = some v := hvkey haK
      rw [entriesOf_cons_of_kv l haK' haV']
      show _ = (if ka = ka then (ka, v) else (ka, va)) :: _
      rw [if_pos rfl, ih hrl hptl]
      rfl
    · have haV' : valAt nodes' a = valAt nodes a := by
        refine hvoth ?_
        rw [haK]
        intro hcontra
        exact hak (by injection hcontra)
      rw [haV] at haV'
      rw [entriesOf_cons_of_kv l haK' haV']
      show _ = (if ka = k then (k, v) else (ka, va)) :: _
      rw [if_neg hak, ih hrl hptl]
      rfl

/-- The descent of `SkipList::find` on a well-formed subtower returns the
bottom level's binding of the key. -/
theorem findLoop_spec (k : Key) :
    ∀ (rest : List (Nat × List Nat)) (nodes : List Node)
      (s p : Nat) (c csuf : List Nat) (fuel : Nat),
      TowerFrom nodes ((s, c) :: rest) →
      StartPt nodes k s c p csuf →
      rest.length + 1 ≤ fuel →
      findLoop nodes k fuel (findInLevel nodes nodes.length p k) =
        listFind k (entriesOf nodes (bottomChain ((s, c) :: rest))) := by
  intro rest
  induction rest with
  | nil =>
    intro nodes s p c csuf fuel h hst hfuel
    obtain ⟨f, rfl⟩ : ∃ f, fuel = f + 1 := by
      cases fuel with
      | zero => simp at hfuel
      | succ f => exact ⟨f, rfl⟩
    have hL := towerFrom_head_levelOK h
    obtain ⟨c₁, c₂, hc12, hanch, hseg1, hch2, hkey1, hkey2, hmemkey,
      hnokey⟩ := anchor_split hL hst
    have hFIL : findInLevel nodes nodes.length p k =
        anchorIn nodes k p csuf := by
      obtain ⟨cpre, hcp, hpl, _⟩ := hst
      have hchain := hL.2.1
      rw [hcp] at hchain
      have hsplit := isChain_append.mp hchain
      have hisc : IsChain nodes p csuf := by rw [hpl]; exact hsplit.2
      have hlen2 : csuf.length ≤ nodes.length := by
        have hnd : c.Nodup := sortedChain_nodup hL.2.2.2
        have hlive : ∀ x ∈ c, x < nodes.length := by
          intro x hx
          obtain ⟨n, hn, _⟩ := hL.2.2.1 x hx
          exact (List.getElem?_eq_some.mp hn).1
        have h1 : c.length ≤ nodes.length := chain_length_le hnd hlive
        rw [hcp] at h1
        simp only [List.length_append] at h1
        omega
      exact findInLevel_eq_anchorIn hisc hlen2
    rw [← hFIL] at hanch hch2 hmemkey hnokey
    have hrmem : findInLevel nodes nodes.length p k ∈ s :: c := by
      have h1 : findInLevel nodes nodes.length p k ∈ s :: c₁ := by
        rw [hanch]; exact lastOf_mem s c₁
      rcases List.mem_cons.mp h1 with heq | h1
      · rw [heq]; simp
      · rw [hc12]
        exact List.mem_cons.mpr (Or.inr (List.mem_append.mpr (Or.inl h1)))
    obtain ⟨rn, hrn⟩ : ∃ rn : Node,
        nodes[findInLevel nodes nodes.length p k]? = some rn := by
      rcases List.mem_cons.mp hrmem with heq | h1
      · obtain ⟨n, hn, _⟩ := hL.1
        exact ⟨n, by rw [heq, hn]⟩
      · obtain ⟨n, hn, _⟩ := hL.2.2.1 _ h1
        exact ⟨n, hn⟩
    have hrc_of_key : rn.k = some k →
        findInLevel nodes nodes.length p k ∈ c := by
      intro hkk
      rcases List.mem_cons.mp hrmem with heq | h1
      · exfalso
        obtain ⟨ns, hns, hnsk, _, _⟩ := hL.1
        rw [heq, hns] at hrn
        obtain rfl : ns = rn := by injection hrn
        rw [hnsk] at hkk
        exact Option.noConfusion hkk
      · exact h1
    have hbc : bottomChain [(s, c)] = c := rfl
    have hdn : rn.down = none := by
      rcases List.mem_cons.mp hrmem with heq | h1
      · obtain ⟨ns, hns, _, _, hnd⟩ := hL.1
        rw [heq, hns] at hrn
        obtain rfl : ns = rn := by injection hrn
        simpa using hnd
      · obtain ⟨n, hn, hd⟩ := h.2 _ h1
        rw [hrn] at hn
        obtain rfl : rn = n := by injection hn
        exact hd
    have hres : findLoop nodes k (f + 1)
        (findInLevel nodes nodes.length p k) =
        if rn.k = some k then rn.v else none := by
      simp only [findLoop, hrn, hdn]
    by_cases hhk : chainHasKey nodes c k
    · have hkr : rn.k = some k := by
        have := hmemkey hhk
        simp only [keyAt, hrn] at this
        exact this
      rw [hres, if_pos hkr, hbc]
      have hfe := listFind_entriesOf_mem hL.2.2.1 hL.2.2.2 _
        (hrc_of_key hkr) (by simp only [keyAt, hrn]; exact hkr)
      rw [hfe]
      simp only [valAt, hrn]
    · have hkr : ¬ rn.k = some k := by
        intro hkk
        exact (hnokey hhk) (by simp only [keyAt, hrn]; exact hkk)
      rw [hres, if_neg hkr, hbc]
      exact (listFind_entriesOf_none hhk).symm
  | cons q rest' ih =>
    intro nodes s p c csuf fuel h hst hfuel
    obtain ⟨s', cq⟩ := q
    obtain ⟨f, rfl⟩ : ∃ f, fuel = f + 1 := by
      cases fuel with
      | zero => simp at hfuel
      | succ f => exact ⟨f, rfl⟩
    have hfuel' : rest'.length + 1 ≤ f := by
      simp only [List.length_cons] at hfuel
      omega
    have hL := towerFrom_head_levelOK h
    obtain ⟨c₁, c₂, hc12, hanch, hseg1, hch2, hkey1, hkey2, hmemkey,
      hnokey⟩ := anchor_split hL hst
    have hFIL : findInLevel nodes nodes.length p k =
        anchorIn nodes k p csuf := by
      obtain ⟨cpre, hcp, hpl, _⟩ := hst
      have hchain := hL.2.1
      rw [hcp] at hchain
      have hsplit := isChain_append.mp hchain
      have hisc : IsChain nodes p csuf := by rw [hpl]; exact hsplit.2
      have hlen2 : csuf.length ≤ nodes.length := by
        have hnd : c.Nodup := sortedChain_nodup hL.2.2.2
        have hlive : ∀ x ∈ c, x < nodes.length := by
          intro x hx
          obtain ⟨n, hn, _⟩ := hL.2.2.1 x hx
          exact (List.getElem?_eq_some.mp hn).1
        have h1 : c.length ≤ nodes.length := chain_length_le hnd hlive
        rw [hcp] at h1
        simp only [List.length_append] at h1
        omega
      exact findInLevel_eq_anchorIn hisc hlen2
    rw [← hFIL] at hanch hch2 hmemkey hnokey
    have hrmem : findInLevel nodes nodes.length p k ∈ s :: c := by
      have h1 : findInLevel nodes nodes.length p k ∈ s :: c₁ := by
        rw [hanch]; exact lastOf_mem s c₁
      rcases List.mem_cons.mp h1 with heq | h1
      · rw [heq]; simp
      · rw [hc12]
        exact List.mem_cons.mpr (Or.inr (List.mem_append.mpr (Or.inl h1)))
    obtain ⟨rn, hrn⟩ : ∃ rn : Node,
        nodes[findInLevel nodes nodes.length p k]? = some rn := by
      rcases List.mem_cons.mp hrmem with heq | h1
      · obtain ⟨n, hn, _⟩ := hL.1
        exact ⟨n, by rw [heq, hn]⟩
      · obtain ⟨n, hn, _⟩ := hL.2.2.1 _ h1
        exact ⟨n, hn⟩
    have hrc_of_key : rn.k = some k →
        findInLevel nodes nodes.length p k ∈ c := by
      intro hkk
      rcases List.mem_cons.mp hrmem with heq | h1
      · exfalso
        obtain ⟨ns, hns, hnsk, _, _⟩ := hL.1
        rw [heq, hns] at hrn
        obtain rfl : ns = rn := by injection hrn
        rw [hnsk] at hkk
        exact Option.noConfusion hkk
      · exact h1
    have hbot_eq : bottomChain ((s, c) :: (s', cq) :: rest') =
        bottomChain ((s', cq) :: rest') := bottomChain_cons_cons _ _ _
    have hdl : DownLink nodes c cq := h.2.1
    by_cases hkk : rn.k = some k
    · -- hit at an inner level: the value equals the bottom binding
      have hrc : findInLevel nodes nodes.length p k ∈ c := hrc_of_key hkk
      obtain ⟨n0, hn0, b, hb, hdownb, _, _⟩ := hdl _ hrc
      rw [hrn] at hn0
      obtain rfl : rn = n0 := by injection hn0
      have hres : findLoop nodes k (f + 1)
          (findInLevel nodes nodes.length p k) = rn.v := by
        simp only [findLoop, hrn, hdownb, if_pos hkk]
      rw [hres]
      obtain ⟨bb, hbbmem, hbbk, hbbv⟩ := towerFrom_key_to_bottom h _ hrc
      have hkR : keyAt nodes (findInLevel nodes nodes.length p k) =
          some k := by
        simp only [keyAt, hrn]
        exact hkk
      obtain ⟨sb, d, hLb⟩ := towerFrom_bottom_levelOK h
      have hfe := listFind_entriesOf_mem hLb.2.2.1 hLb.2.2.2 bb hbbmem
        (by rw [hbbk, hkR])
      rw [hfe, hbbv]
      simp only [valAt, hrn]
    · -- no hit here: descend
      obtain ⟨dtgt, csuf', hdown, hstart'⟩ :
          ∃ (dtgt : Nat) (csuf' : List Nat), rn.down = some dtgt ∧
            StartPt nodes k s' cq dtgt csuf' := by
        rcases List.mem_cons.mp hrmem with heq | hrc
        · obtain ⟨ns, hns, _, _, hnd⟩ := hL.1
          rw [heq, hns] at hrn
          obtain rfl : ns = rn := by injection hrn
          exact ⟨s', cq, by simpa using hnd,
            startPt_sentinel nodes k s' cq⟩
        · obtain ⟨n0, hn0, b, hb, hdownb, hbk, hbv⟩ := hdl _ hrc
          rw [hrn] at hn0
          obtain rfl : rn = n0 := by injection hn0
          have hrc1 : findInLevel nodes nodes.length p k ∈ c₁ := by
            have h1 : findInLevel nodes nodes.length p k ∈ s :: c₁ := by
              rw [hanch]; exact lastOf_mem s c₁
            rcases List.mem_cons.mp h1 with heq | h1
            · exfalso
              exact sentinel_not_mem hL (heq ▸ hrc)
            · exact h1
          obtain ⟨kr, hkrv, hkrle⟩ := hkey1 _ hrc1
          have hkb : keyAt nodes b = some kr := by
            rw [hbk]
            simp only [keyAt, hrn] at hkrv
            exact hkrv
          obtain ⟨csuf', hs'⟩ := startPt_of_mem
            (towerFrom_head_levelOK (towerFrom_tail h)) hb hkb hkrle
          exact ⟨b, csuf', hdownb, hs'⟩
      have hres : findLoop nodes k (f + 1)
          (findInLevel nodes nodes.length p k) =
          findLoop nodes k f (findInLevel nodes nodes.length dtgt k) := by
        simp only [findLoop, hrn, hdown, if_neg hkk]
      rw [hres, hbot_eq]
      exact ih nodes s' dtgt cq csuf' f (towerFrom_tail h) hstart' hfuel'

/-! ## Top-level operations on well-formed states -/

/-- `SkipList::find` on a well-formed state reads the bottom level. -/
theorem find_spec {s : SL} {t : List (Nat × List Nat)} (k : Key)
    {s0 : Nat} {c0 : List Nat} {rest : List (Nat × List Nat)}
    (ht : t = (s0, c0) :: rest)
    (hheads : s.heads = t.map Prod.fst)
    (htow : TowerFrom s.nodes t) :
    find s k = some (listFind k (entriesOf s.nodes (bottomChain t))) := by
  subst ht
  have hh0 : s.heads[0]? = some s0 := by rw [hheads]; simp
  have hlen : s.heads.length = rest.length + 1 := by rw [hheads]; simp
  simp only [find, hh0, hlen]
  exact congrArg some (findLoop_spec k rest s.nodes s0 s0 c0 c0
    (rest.length + 1) htow (startPt_sentinel _ _ _ _) (le_refl _))

/-- `SkipList::upsert` on a well-formed state: the tower stays well formed,
the sentinels are unchanged, and the bottom level's contents evolve by
`listUpsert`. -/
theorem upsert_abs {s : SL} {t : List (Nat × List Nat)}
    (coins : Nat → Bool) (pos : Nat) (k : Key) (v : Val)
    {s0 : Nat} {c0 : List Nat} {rest : List (Nat × List Nat)}
    (ht : t = (s0, c0) :: rest)
    (hheads : s.heads = t.map Prod.fst)
    (htow : TowerFrom s.nodes t) :
    ∃ (s' : SL) (pos' : Nat) (t' : List (Nat × List Nat)),
      upsert s coins pos k v = some (s', pos') ∧
      s'.heads = s.heads ∧
      t'.map Prod.fst = t.map Prod.fst ∧
      TowerFrom s'.nodes t' ∧
      entriesOf s'.nodes (bottomChain t') =
        listUpsert k v (entriesOf s.nodes (bottomChain t)) := by
  subst ht
  have hh0 : s.heads[0]? = some s0 := by rw [hheads]; simp
  have hlen : s.heads.length = rest.length + 1 := by rw [hheads]; simp
  have hspec := upsertRec_spec coins k v rest s.nodes pos s0 s0 c0 c0
    (rest.length + 1) htow (startPt_sentinel _ _ _ _) (le_refl _)
  obtain ⟨sb, d, hLb⟩ := towerFrom_bottom_levelOK htow
  have hrealb : RealChain s.nodes (bottomChain ((s0, c0) :: rest)) :=
    hLb.2.2.1
  have hsortb : SortedChain s.nodes (bottomChain ((s0, c0) :: rest)) :=
    hLb.2.2.2
  by_cases hbk : chainHasKey s.nodes (bottomChain ((s0, c0) :: rest)) k
  · -- update in place
    obtain ⟨nodes', hrun, hUO⟩ := hspec.1 hbk
    obtain ⟨hlen', htow', hframe, hcell, hcol⟩ := hUO
    refine ⟨⟨nodes', s.heads⟩, pos, (s0, c0) :: rest, ?_, rfl, rfl,
      htow', ?_⟩
    · simp only [upsert, hh0, hlen, hrun]
    · have hpt : ∀ a ∈ bottomChain ((s0, c0) :: rest),
          keyAt nodes' a = keyAt s.nodes a ∧
          (keyAt s.nodes a = some k → valAt nodes' a = some v) ∧
          (¬ keyAt s.nodes a = some k →
            valAt nodes' a = valAt s.nodes a) := by
        intro a ha
        obtain ⟨n, hn, _, _⟩ := hrealb a ha
        obtain ⟨n', hn', hk', hd', hx', hv'⟩ := hcell a n hn
        refine ⟨by simp only [keyAt, hn, hn', hk'], ?_, ?_⟩
        · intro hka
          have hnk : n.k = some k := by
            simp only [keyAt, hn] at hka
            exact hka
          have hw := hcol a n hn hnk
            (bottomChain_mem_towerAddrs (by simp) ha)
          simp only [valAt, hw]
        · intro hka
          have hnk : ¬ n.k = some k := by
            intro hcontra
            exact hka (by simp only [keyAt, hn]; exact hcontra)
          rcases hv' with hsame | ⟨hcontra, _⟩
          · simp only [valAt, hn, hn', hsame]
          · exact absurd hcontra hnk
      rw [entriesOf_update hrealb hpt]
      refine listUpdateVal_eq_listUpsert
        (sortedKV_entriesOf hrealb hsortb) ?_
      obtain ⟨a, ha, hka⟩ := hbk
      obtain ⟨n, hn, _, hveng⟩ := hrealb a ha
      rw [← listFind_isSome_iff,
        listFind_entriesOf_mem hrealb hsortb a ha hka]
      obtain ⟨va, hva⟩ := Option.isSome_iff_exists.mp hveng
      simp [valAt, hn, hva]
  · -- fresh insert
    obtain ⟨ret, nodes', t', hrun, hIO, _, _⟩ := hspec.2 hbk
    obtain ⟨hlen', htow', htlen, htfst, hframe, hcell, hcov, hlevels⟩ :=
      hIO
    refine ⟨⟨nodes', s.heads⟩,
      pos + min (consecTrues coins pos rest.length + 1) rest.length, t',
      ?_, rfl, htfst, htow', ?_⟩
    · simp only [upsert, hh0, hlen, hrun]
    · have htne : ((s0, c0) :: rest) ≠ ([] : List (Nat × List Nat)) := by
        simp
      have hjlast := getElem_last_eq ((s0, c0) :: rest) htne
      obtain ⟨hsplit1, hsplit2⟩ :=
        hlevels (((s0, c0) :: rest).length - 1) _ hjlast
      have hge : ((s0, c0) :: rest).length ≤
          (((s0, c0) :: rest).length - 1) +
            (consecTrues coins pos rest.length + 1) := by
        simp only [List.length_cons]
        omega
      obtain ⟨cb₁, cb₂, w, hcb, ht'j, hwf, hwk, hwv⟩ := hsplit2 hge
      have hbtc : bottomChain ((s0, c0) :: rest) = cb₁ ++ cb₂ := hcb
      have ht'ne : t' ≠ ([] : List (Nat × List Nat)) := by
        intro hcontra
        rw [hcontra] at htlen
        simp at htlen
      have hbt' : bottomChain t' = cb₁ ++ w :: cb₂ := by
        have h1 := getElem_last_eq t' ht'ne
        rw [htlen] at h1
        rw [ht'j] at h1
        have h2 := Option.some.inj h1
        simp only [bottomChain, ← h2]
      have hcong : ∀ (cc : List Nat),
          (∀ x ∈ cc, x ∈ bottomChain ((s0, c0) :: rest)) →
          entriesOf nodes' cc = entriesOf s.nodes cc := by
        intro cc hsub
        refine entriesOf_congr ?_
        intro x hx
        obtain ⟨n, hn, _, _⟩ := hrealb x (hsub x hx)
        obtain ⟨n', hn', hk', hv', hd'⟩ := hcell x n hn
        exact ⟨n, n', hn, hn', hk', hv'⟩
      have he1 : entriesOf nodes' cb₁ = entriesOf s.nodes cb₁ :=
        hcong cb₁ fun x hx => by
          rw [hbtc]
          exact List.mem_append.mpr (Or.inl hx)
      have he2 : entriesOf nodes' cb₂ = entriesOf s.nodes cb₂ :=
        hcong cb₂ fun x hx => by
          rw [hbtc]
          exact List.mem_append.mpr (Or.inr hx)
      have hsplitE : entriesOf nodes' (bottomChain t') =
          entriesOf s.nodes cb₁ ++ (k, v) :: entriesOf s.nodes cb₂ := by
        rw [hbt', entriesOf_append, entriesOf_cons_of_kv cb₂ hwk hwv,
          he1, he2]
      obtain ⟨q', t'rest, rfl⟩ :
          ∃ q' t'rest, t' = q' :: t'rest := by
        cases t' with
        | nil => exact absurd rfl ht'ne
        | cons a b => exact ⟨a, b, rfl⟩
      obtain ⟨sb', d', hLb'⟩ := towerFrom_bottom_levelOK htow'
      have hsorted' := sortedKV_entriesOf hLb'.2.2.1 hLb'.2.2.2
      rw [hsplitE] at hsorted'
      rw [hsplitE, hbtc, entriesOf_append]
      exact (listUpsert_eq_splice k v _ _ hsorted').symm

/-! ## The constructor -/

/-- The sentinel heap built by the constructor of height `m`: sentinel `j`
links down to sentinel `j + 1`, the last one to null. -/
def sent (m : Nat) : List Node :=
  (List.range m).map fun j =>
    ⟨if j + 1 < m then some (j + 1) else none, none, none, none⟩

theorem sent_length (m : Nat) : (sent m).length = m := by simp [sent]

theorem sent_getElem (m j : Nat) :
    (sent m)[j]? = if j < m then
      some ⟨if j + 1 < m then some (j + 1) else none, none, none, none⟩
    else none := by
  by_cases h : j < m
  · rw [if_pos h]
    simp [sent, List.getElem?_map, List.getElem?_range, h]
  · rw [if_neg h]
    exact List.getElem?_eq_none (by simp [sent]; omega)

theorem mkLoop_succ_none (nodes : List Node) (heads : List Nat) (n : Nat) :
    mkLoop nodes heads none (n + 1) =
      mkLoop (nodes ++ [(⟨none, none, none, none⟩ : Node)])
        (heads ++ [nodes.length]) (some nodes.length) n := by
  simp [mkLoop]

theorem mkLoop_succ_some (nodes : List Node) (heads : List Nat)
    (p n : Nat)
    (hp : (nodes ++ [(⟨none, none, none, none⟩ : Node)])[p]? =
      some ⟨none, none, none, none⟩) :
    mkLoop nodes heads (some p) (n + 1) =
      mkLoop ((nodes ++ [(⟨none, none, none, none⟩ : Node)]).set p
          ⟨some nodes.length, none, none, none⟩)
        (heads ++ [nodes.length]) (some nodes.length) n := by
  simp [mkLoop, hp]

theorem sent_snoc_zero :
    (sent 0 ++ [(⟨none, none, none, none⟩ : Node)]) = sent 1 := by
  simp [sent]

theorem sent_step (i : Nat) (h : 1 ≤ i) :
    (sent i ++ [(⟨none, none, none, none⟩ : Node)]).set (i - 1)
      ⟨some i, none, none, none⟩ = sent (i + 1) := by
  apply List.ext_getElem?
  intro j
  rw [sent_getElem]
  by_cases h1 : j = i - 1
  · subst h1
    rw [List.getElem?_set_eq_of_lt _ (by simp [sent_length]; omega)]
    have h2 : i - 1 < i + 1 := by omega
    have h3 : i - 1 + 1 = i := by omega
    rw [if_pos h2, h3, if_pos (by omega)]
  · rw [List.getElem?_set_ne (fun hh => h1 hh.symm)]
    by_cases h2 : j < i
    · rw [List.getElem?_append_left (by simp [sent_length]; omega),
        sent_getElem, if_pos h2, if_pos (show j < i + 1 by omega)]
      have hj1 : j + 1 < i := by omega
      rw [if_pos hj1, if_pos (show j + 1 < i + 1 by omega)]
    · by_cases h3 : j = i
      · subst h3
        rw [List.getElem?_append_right (by simp [sent_length]),
          if_pos (by omega)]
        simp [sent_length]
      · rw [List.getElem?_eq_none (by simp [sent_length]; omega),
          if_neg (by omega)]

theorem mkLoop_closed :
    ∀ (n i : Nat) (heads : List Nat),
      mkLoop (sent i) heads (if i = 0 then none else some (i - 1)) n =
        ⟨sent (i + n), heads ++ List.range' i n⟩ := by
  intro n
  induction n with
  | zero =>
    intro i heads
    simp [mkLoop]
  | succ n ih =>
    intro i heads
    by_cases h0 : i = 0
    · subst h0
      rw [if_pos rfl, mkLoop_succ_none]
      have h1 := ih 1 (heads ++ [(sent 0).length])
      rw [if_neg (by omega)] at h1
      rw [sent_snoc_zero]
      have h2 : (sent 0).length = 0 := rfl
      rw [h2] at h1 ⊢
      rw [show (1 : Nat) - 1 = 0 from rfl] at h1
      rw [h1]
      have h3 : (1 : Nat) + n = 0 + (n + 1) := by omega
      have h4 : (heads ++ [0]) ++ List.range' 1 n =
          heads ++ List.range' 0 (n + 1) := by
        rw [List.append_assoc]
        congr 1
      rw [h3, h4]
    · rw [if_neg h0]
      have hp : (sent i ++ [(⟨none, none, none, none⟩ : Node)])[i - 1]? =
          some ⟨none, none, none, none⟩ := by
        rw [List.getElem?_append_left (by simp [sent_length]; omega),
          sent_getElem, if_pos (by omega), if_neg (by omega)]
      rw [mkLoop_succ_some (sent i) heads (i - 1) n hp, sent_length]
      rw [sent_step i (by omega)]
      have h1 := ih (i + 1) (heads ++ [i])
      rw [if_neg (by omega)] at h1
      rw [show i + 1 - 1 = i from by omega] at h1
      rw [h1]
      have h3 : i + 1 + n = i + (n + 1) := by omega
      have h4 : (heads ++ [i]) ++ List.range' (i + 1) n =
          heads ++ List.range' i (n + 1) := by
        rw [List.append_assoc]
        congr 1
      rw [h3, h4]

theorem mkSkipList_eq (H : Nat) :
    mkSkipList H = ⟨sent H, List.range H⟩ := by
  have h := mkLoop_closed H 0 []
  rw [if_pos rfl] at h
  have h0 : sent 0 = ([] : List Node) := rfl
  rw [h0] at h
  rw [mkSkipList, h]
  have : List.range' 0 H = List.range H := (List.range_eq_range' H).symm
  simp [this]

/-- The tower description of the fresh sentinel column starting at level
address `i`. -/
def sentTower : Nat → Nat → List (Nat × List Nat)
  | _, 0 => []
  | i, n + 1 => (i, []) :: sentTower (i + 1) n

theorem sentTower_map_fst :
    ∀ (n i : Nat), (sentTower i n).map Prod.fst = List.range' i n := by
  intro n
  induction n with
  | zero => intro i; rfl
  | succ n ih =>
    intro i
    rw [List.range'_succ]
    show i :: (sentTower (i + 1) n).map Prod.fst = _
    rw [ih (i + 1)]

theorem mem_towerAddrs_sentTower :
    ∀ (n i x : Nat), x ∈ towerAddrs (sentTower i n) → i ≤ x := by
  intro n
  induction n with
  | zero =>
    intro i x h
    simp [sentTower, towerAddrs] at h
  | succ n ih =>
    intro i x h
    show i ≤ x
    have h1 : x = i ∨ x ∈ towerAddrs (sentTower (i + 1) n) := by
      simpa [sentTower, towerAddrs] using h
    rcases h1 with rfl | h1
    · exact le_refl x
    · have := ih (i + 1) x h1
      omega

theorem bottomChain_sentTower :
    ∀ (n i : Nat), bottomChain (sentTower i n) = [] := by
  intro n
  induction n with
  | zero => intro i; rfl
  | succ n ih =>
    intro i
    cases n with
    | zero => rfl
    | succ m =>
      show bottomChain ((i, []) :: sentTower (i + 1) (m + 1)) = []
      have h1 : sentTower (i + 1) (m + 1) =
          (i + 1, []) :: sentTower (i + 2) m := rfl
      rw [h1, bottomChain_cons_cons, ← h1]
      exact ih (i + 1)

theorem sent_levelOK (H i : Nat) (hi : i < H) :
    LevelOK (sent H) i []
      (if i + 1 < H then some (i + 1) else none) := by
  refine ⟨⟨⟨if i + 1 < H then some (i + 1) else none, none, none, none⟩,
    ?_, rfl, rfl, rfl⟩, ⟨trivial, ?_⟩, ?_, ?_⟩
  · rw [sent_getElem, if_pos hi]
  · refine ⟨⟨if i + 1 < H then some (i + 1) else none, none, none, none⟩,
      ?_, rfl⟩
    show (sent H)[lastOf i []]? = _
    rw [lastOf_nil, sent_getElem, if_pos hi]
  · intro a ha
    simp at ha
  · show (List.map (keyD (sent H)) []).Chain' (· < ·)
    simp

theorem towerFrom_sentTower (H : Nat) :
    ∀ (n i : Nat), i + n = H → 1 ≤ n →
      TowerFrom (sent H) (sentTower i n) := by
  intro n
  induction n with
  | zero =>
    intro i _ hn
    omega
  | succ n ih =>
    intro i hiH _
    cases n with
    | zero =>
      show TowerFrom (sent H) [(i, [])]
      have hi : i < H := by omega
      have hd : ¬ i + 1 < H := by omega
      refine ⟨?_, ?_⟩
      · have := sent_levelOK H i hi
        rwa [if_neg hd] at this
      · intro a ha
        simp at ha
    | succ m =>
      show TowerFrom (sent H)
        ((i, []) :: (i + 1, []) :: sentTower (i + 2) m)
      have hi : i < H := by omega
      have hd : i + 1 < H := by omega
      refine ⟨?_, ?_, ?_, ?_⟩
      · have := sent_levelOK H i hi
        rwa [if_pos hd] at this
      · intro a ha
        simp at ha
      · intro x hx hmem
        have h1 : x = i := by simpa using hx
        subst h1
        have := mem_towerAddrs_sentTower (m + 1) (x + 1) x hmem
        omega
      · exact ih (i + 1) (by omega) (by omega)

/-- A sequence of upserts from a well-formed state: the final state is
well formed and its bottom level folds the operations through
`listUpsert`. -/
theorem runUpserts_abs (coins : Nat → Bool) :
    ∀ (ops : List (Key × Val)) (s : SL) (pos : Nat)
      (t : List (Nat × List Nat)), t ≠ [] →
      s.heads = t.map Prod.fst → TowerFrom s.nodes t →
      ∃ (s' : SL) (pos' : Nat) (t' : List (Nat × List Nat)),
        runUpserts coins s pos ops = some (s', pos') ∧
        s'.heads = s.heads ∧ t' ≠ [] ∧
        t'.map Prod.fst = t.map Prod.fst ∧
        TowerFrom s'.nodes t' ∧
        entriesOf s'.nodes (bottomChain t') =
          ops.foldl (fun e p => listUpsert p.1 p.2 e)
            (entriesOf s.nodes (bottomChain t)) := by
  intro ops
  induction ops with
  | nil =>
    intro s pos t hne hheads htow
    exact ⟨s, pos, t, rfl, rfl, hne, rfl, htow, rfl⟩
  | cons op ops ih =>
    intro s pos t hne hheads htow
    obtain ⟨k, v⟩ := op
    obtain ⟨⟨s0, c0⟩, rest, rfl⟩ :
        ∃ q rest, t = q :: rest := by
      cases t with
      | nil => exact absurd rfl hne
      | cons a b => exact ⟨a, b, rfl⟩
    obtain ⟨s1, pos1, t1, hup, hh1, hf1, htow1, habs1⟩ :=
      upsert_abs coins pos k v rfl hheads htow
    have hne1 : t1 ≠ [] := by
      intro hcontra
      rw [hcontra] at hf1
      simp at hf1
    have hheads1 : s1.heads = t1.map Prod.fst := by
      rw [hh1, hheads, hf1]
    obtain ⟨s', pos', t', hrun, hh', hne', hf', htow', habs'⟩ :=
      ih s1 pos1 t1 hne1 hheads1 htow1
    refine ⟨s', pos', t', ?_, by rw [hh', hh1], hne',
      by rw [hf', hf1], htow', ?_⟩
    · simp only [runUpserts, hup]
      exact hrun
    · rw [habs', habs1]
      rfl

/-! ## Indexed access to tower levels -/

/-- The complete walk of a level equals its chain. -/
theorem levelOK_chainFrom {nodes : List Node} {si : Nat} {ci : List Nat}
    {d : Option Nat} (hL : LevelOK nodes si ci d) :
    chainFrom nodes nodes.length si = ci := by
  refine chainFrom_eq_of_isChain hL.2.1 ?_
  refine chain_length_le (sortedChain_nodup hL.2.2.2) ?_
  intro x hx
  obtain ⟨n, hn, _⟩ := hL.2.2.1 x hx
  exact (List.getElem?_eq_some.mp hn).1

theorem towerFrom_getElem_levelOK {nodes : List Node} :
    ∀ {t : List (Nat × List Nat)}, TowerFrom nodes t →
      ∀ {i : Nat} {si : Nat} {ci : List Nat}, t[i]? = some (si, ci) →
        LevelOK nodes si ci ((t[i + 1]?).map Prod.fst) := by
  intro t
  induction t with
  | nil =>
    intro _ i si ci hi
    simp at hi
  | cons q rest ih =>
    intro h i si ci hi
    cases i with
    | zero =>
      simp only [List.getElem?_cons_zero] at hi
      obtain rfl : q = (si, ci) := by injection hi
      have h2 := towerFrom_head_levelOK h
      have hh : rest.head? = rest[0]? := by
        cases rest with
        | nil => rfl
        | cons a b => simp
      rw [hh] at h2
      simpa using h2
    | succ i =>
      simp only [List.getElem?_cons_succ] at hi ⊢
      exact ih (towerFrom_tail h) hi

theorem towerFrom_getElem_downLink {nodes : List Node} :
    ∀ {t : List (Nat × List Nat)}, TowerFrom nodes t →
      ∀ {i : Nat} {si si' : Nat} {ci ci' : List Nat},
        t[i]? = some (si, ci) → t[i + 1]? = some (si', ci') →
        DownLink nodes ci ci' := by
  intro t
  induction t with
  | nil =>
    intro _ i si si' ci ci' hi
    simp at hi
  | cons q rest ih =>
    intro h i si si' ci ci' hi hi'
    cases i with
    | zero =>
      simp only [List.getElem?_cons_zero] at hi
      obtain rfl : q = (si, ci) := by injection hi
      simp only [List.getElem?_cons_succ] at hi'
      cases rest with
      | nil => simp at hi'
      | cons q' rest' =>
        simp only [List.getElem?_cons_zero] at hi'
        obtain rfl : q' = (si', ci') := by injection hi'
        exact h.2.1
    | succ i =>
      simp only [List.getElem?_cons_succ] at hi hi'
      exact ih (towerFrom_tail h) hi hi'

/-- A key on any level is also on every lower level (step form). -/
theorem downLink_hasKey {nodes : List Node} {c c' : List Nat} {k : Key}
    (hdl : DownLink nodes c c') (hk : chainHasKey nodes c k) :
    chainHasKey nodes c' k := by
  obtain ⟨a, ha, hka⟩ := hk
  obtain ⟨n, hn, b, hb, _, hbk, _⟩ := hdl a ha
  refine ⟨b, hb, ?_⟩
  rw [hbk]
  simp only [keyAt, hn] at hka
  rw [hka]

/-- A key on any level is also on every level below it. -/
theorem towerFrom_hasKey_mono {nodes : List Node}
    {t : List (Nat × List Nat)} (h : TowerFrom nodes t) {k : Key} :
    ∀ (dlt i : Nat) {si sj : Nat} {ci cj : List Nat},
      t[i]? = some (si, ci) → t[i + dlt]? = some (sj, cj) →
      chainHasKey nodes ci k → chainHasKey nodes cj k := by
  intro dlt
  induction dlt with
  | zero =>
    intro i si sj ci cj hi hj hk
    simp only [Nat.add_zero] at hj
    rw [hi] at hj
    obtain ⟨rfl, rfl⟩ : sj = si ∧ cj = ci := by
      have h2 := Option.some.inj hj
      exact ⟨(congrArg Prod.fst h2).symm, (congrArg Prod.snd h2).symm⟩
    exact hk
  | succ dlt ih =>
    intro i si sj ci cj hi hj hk
    have hlt : i + 1 < t.length := by
      have := (List.getElem?_eq_some.mp hj).1
      omega
    obtain ⟨⟨si1, ci1⟩, hi1⟩ : ∃ lv, t[i + 1]? = some lv := by
      exact ⟨t[i + 1], List.getElem?_eq_getElem hlt⟩
    have hstep := downLink_hasKey
      (towerFrom_getElem_downLink h hi hi1) hk
    have hj' : t[(i + 1) + dlt]? = some (sj, cj) := by
      rw [show i + 1 + dlt = i + (dlt + 1) from by omega]
      exact hj
    exact ih (i + 1) hi1 hj' hstep

/-- A key on level `j` of a well-formed tower is on the bottom level. -/
theorem towerFrom_getElem_hasKey_bottom {nodes : List Node}
    {t : List (Nat × List Nat)} (h : TowerFrom nodes t) {k : Key}
    {j : Nat} {sj : Nat} {cj : List Nat}
    (hj : t[j]? = some (sj, cj)) (hk : chainHasKey nodes cj k) :
    chainHasKey nodes (bottomChain t) k := by
  have hne : t ≠ [] := by
    intro hcontra
    rw [hcontra] at hj
    simp at hj
  have hlast := getElem_last_eq t hne
  have hjlt : j < t.length := (List.getElem?_eq_some.mp hj).1
  have hlast' : t[j + (t.length - 1 - j)]? =
      some (t.getLastD (0, [])) := by
    rw [show j + (t.length - 1 - j) = t.length - 1 from by omega]
    exact hlast
  exact towerFrom_hasKey_mono h (t.length - 1 - j) j hj hlast' hk

/-- Adjacent members of a complete sorted chain have increasing keys. -/
theorem isChain_adjacent {nodes : List Node} :
    ∀ {c : List Nat} {st : Nat}, IsChain nodes st c →
      SortedChain nodes c →
      ∀ a ∈ c, ∀ (n : Node) (b : Nat), nodes[a]? = some n →
        n.next = some b → b ∈ c ∧ keyD nodes a < keyD nodes b := by
  intro c
  induction c with
  | nil =>
    intro st _ _ a ha
    simp at ha
  | cons x l ih =>
    intro st hch hsort a ha n b hn hnext
    have htail : IsChain nodes x l := by
      refine ⟨hch.1.2, ?_⟩
      have := hch.2
      rwa [show lastOf st (x :: l) = lastOf x l from by
        simp only [lastOf, List.getLastD_cons]] at this
    have hsortl : SortedChain nodes l := by
      have := hsort
      simp only [SortedChain, List.map_cons] at this ⊢
      exact this.tail
    rcases List.mem_cons.mp ha with rfl | ha'
    · cases l with
      | nil =>
        exfalso
        obtain ⟨nl, hnl, hnln⟩ := hch.2
        have : lastOf st [a] = a := by simp [lastOf]
        rw [this] at hnl
        rw [hn] at hnl
        obtain rfl : n = nl := by injection hnl
        rw [hnext] at hnln
        exact Option.noConfusion hnln
      | cons y l' =>
        obtain ⟨⟨nx, hnx, hnxn⟩, _⟩ := htail.1
        rw [hn] at hnx
        obtain rfl : n = nx := by injection hnx
        rw [hnext] at hnxn
        obtain rfl : b = y := by injection hnxn
        refine ⟨by simp, ?_⟩
        have := hsort
        simp only [SortedChain, List.map_cons, List.chain'_cons] at this
        exact this.1
    · obtain ⟨hb, hlt⟩ := ih htail hsortl a ha' n b hn hnext
      exact ⟨by simp [hb], hlt⟩

/-- Membership of a key among a chain's entries. -/
theorem chainHasKey_iff_keysOf {nodes : List Node} {c : List Nat}
    {k : Key} (hreal : RealChain nodes c) :
    k ∈ keysOf (entriesOf nodes c) ↔ chainHasKey nodes c k := by
  rw [entriesOf_eq_map hreal]
  constructor
  · intro hk
    simp only [keysOf, List.map_map, List.mem_map] at hk
    obtain ⟨a, ha, hka⟩ := hk
    obtain ⟨n, hn, hkeng, _⟩ := hreal a ha
    obtain ⟨ka, hkav⟩ := Option.isSome_iff_exists.mp hkeng
    refine ⟨a, ha, ?_⟩
    have hkd : keyD nodes a = k := hka
    simp only [keyD, keyAt, hn, hkav, Option.getD_some] at hkd
    simp only [keyAt, hn, hkav]
    rw [hkd]
  · rintro ⟨a, ha, hka⟩
    simp only [keysOf, List.map_map, List.mem_map]
    refine ⟨a, ha, ?_⟩
    show keyD nodes a = k
    simp [keyD, hka]

/-- Counting the members of a list that satisfy a tail-segment predicate. -/
theorem countP_iff_suffix {α : Type} (p : α → Bool) :
    ∀ (l : List α) (m : Nat),
      (∀ (j : Nat) (lv : α), l[j]? = some lv →
        (p lv = true ↔ l.length ≤ j + m)) →
      l.countP p = min m l.length := by
  intro l
  induction l with
  | nil =>
    intro m _
    simp [List.countP_nil]
  | cons x l ih =>
    intro m hchar
    have hx := hchar 0 x (by simp)
    have hl : ∀ (j : Nat) (lv : α), l[j]? = some lv →
        (p lv = true ↔ l.length ≤ j + m) := by
      intro j lv hj
      have := hchar (j + 1) lv (by simpa using hj)
      simp only [List.length_cons] at this
      constructor
      · intro hp
        have := this.mp hp
        omega
      · intro hle
        exact this.mpr (by omega)
    have hrec := ih m hl
    by_cases hcase : (x :: l).length ≤ m
    · have hpx : p x = true := hx.mpr (by omega)
      rw [List.countP_cons, hrec, hpx, if_pos rfl]
      simp only [List.length_cons] at hcase ⊢
      omega
    · have hpx : ¬ p x = true := by
        intro hp
        have := hx.mp hp
        omega
      rw [List.countP_cons, hrec, if_neg (by simpa using hpx)]
      simp only [List.length_cons] at hcase ⊢
      omega

theorem mem_towerAddrs_of_level :
    ∀ {t : List (Nat × List Nat)} {lv : Nat × List Nat}, lv ∈ t →
      ∀ a ∈ lv.1 :: lv.2, a ∈ towerAddrs t := by
  intro t
  induction t with
  | nil =>
    intro lv hlv
    simp at hlv
  | cons q rest ih =>
    intro lv hlv a ha
    obtain ⟨s, c⟩ := q
    rw [mem_towerAddrs_cons]
    rcases List.mem_cons.mp hlv with rfl | hlv'
    · rcases List.mem_cons.mp ha with rfl | ha'
      · exact Or.inl rfl
      · exact Or.inr (Or.inl ha')
    · exact Or.inr (Or.inr (ih hlv' a ha))

theorem towerFrom_getElem_bottomLevel {nodes : List Node} :
    ∀ {t : List (Nat × List Nat)}, TowerFrom nodes t →
      ∀ {i : Nat} {si : Nat} {ci : List Nat}, t[i]? = some (si, ci) →
        t[i + 1]? = none → BottomLevel nodes ci := by
  intro t
  induction t with
  | nil =>
    intro _ i si ci hi
    simp at hi
  | cons q rest ih =>
    intro h i si ci hi hi1
    cases i with
    | zero =>
      simp only [List.getElem?_cons_zero] at hi
      obtain rfl : q = (si, ci) := by injection hi
      simp only [List.getElem?_cons_succ] at hi1
      cases rest with
      | nil => exact h.2
      | cons q' rest' => simp at hi1
    | succ i =>
      simp only [List.getElem?_cons_succ] at hi hi1
      exact ih (towerFrom_tail h) hi hi1

/-- A sequence of upserts from a freshly constructed index of height
`H ≥ 1`: the run succeeds and the result is well formed, with the bottom
level holding exactly the folded operations. -/
theorem runUpserts_fresh (H : Nat) (hH : 1 ≤ H) (coins : Nat → Bool)
    (ops : List (Key × Val)) :
    ∃ (s' : SL) (pos' : Nat) (t' : List (Nat × List Nat)),
      runUpserts coins (mkSkipList H) 0 ops = some (s', pos') ∧
      t' ≠ [] ∧ s'.heads = t'.map Prod.fst ∧ TowerFrom s'.nodes t' ∧
      t'.length = H ∧
      entriesOf s'.nodes (bottomChain t') =
        ops.foldl (fun e p => listUpsert p.1 p.2 e) [] := by
  have hne : sentTower 0 H ≠ [] := by
    cases H with
    | zero => omega
    | succ m => simp [sentTower]
  have hheads : (mkSkipList H).heads = (sentTower 0 H).map Prod.fst := by
    rw [mkSkipList_eq, sentTower_map_fst]
    exact List.range_eq_range' H
  have htow : TowerFrom (mkSkipList H).nodes (sentTower 0 H) := by
    rw [mkSkipList_eq]
    exact towerFrom_sentTower H H 0 (by omega) hH
  obtain ⟨s', pos', t', hrun, hh', hne', hf', htow', habs'⟩ :=
    runUpserts_abs coins ops (mkSkipList H) 0 (sentTower 0 H) hne hheads
      htow
  have hstl : (sentTower 0 H).length = H := by
    have h2 := congrArg List.length (sentTower_map_fst H 0)
    simpa using h2
  refine ⟨s', pos', t', hrun, hne', by rw [hh', hheads, ← hf'], htow',
    ?_, ?_⟩
  · have h2 := congrArg List.length hf'
    simpa [hstl] using h2
  · rw [habs']
    have he0 : entriesOf (mkSkipList H).nodes
        (bottomChain (sentTower 0 H)) = [] := by
      rw [bottomChain_sentTower]
      rfl
    rw [he0]

/-! ## The claims -/

/-- C1: from an index constructed with height ≥ 1, after any
single-threaded sequence of upserts, `find k` returns exactly the value of
the most recent upsert whose key equals `k`, and returns absent if no
upsert in the sequence used `k`; on a freshly constructed index it returns
absent for every key. -/
theorem C1_find_returns_last_upsert (H : Nat) (hH : 1 ≤ H)
    (coins : Nat → Bool) (ops : List (Key × Val)) (k : Key) :
    ∃ (s' : SL) (pos' : Nat),
      runUpserts coins (mkSkipList H) 0 ops = some (s', pos') ∧
      find s' k = some (specLookup ops k) := by
  have hne : sentTower 0 H ≠ [] := by
    cases H with
    | zero => omega
    | succ m => simp [sentTower]
  have hheads : (mkSkipList H).heads = (sentTower 0 H).map Prod.fst := by
    rw [mkSkipList_eq, sentTower_map_fst]
    exact List.range_eq_range' H
  have htow : TowerFrom (mkSkipList H).nodes (sentTower 0 H) := by
    rw [mkSkipList_eq]
    exact towerFrom_sentTower H H 0 (by omega) hH
  obtain ⟨s', pos', t', hrun, hh', hne', hf', htow', habs'⟩ :=
    runUpserts_abs coins ops (mkSkipList H) 0 (sentTower 0 H) hne hheads
      htow
  refine ⟨s', pos', hrun, ?_⟩
  obtain ⟨⟨s0, c0⟩, rest, rfl⟩ : ∃ q rest, t' = q :: rest := by
    cases t' with
    | nil => exact absurd rfl hne'
    | cons a b => exact ⟨a, b, rfl⟩
  rw [find_spec k rfl (by rw [hh', hheads, ← hf']) htow']
  congr 1
  rw [habs']
  have he0 : entriesOf (mkSkipList H).nodes
      (bottomChain (sentTower 0 H)) = [] := by
    rw [bottomChain_sentTower]
    rfl
  rw [he0, listFind_foldl]
  rfl

theorem C1_witness :
    (1 : Nat) ≤ 1 ∧
      ∃ (s' : SL) (pos' : Nat),
        runUpserts (fun _ => false) (mkSkipList 1) 0 [(2, 5)] =
          some (s', pos') ∧
        find s' 2 = some (specLookup [(2, 5)] 2) :=
  ⟨by decide, C1_find_returns_last_upsert 1 (by decide) (fun _ => false)
    [(2, 5)] 2⟩

/-- C9: the constructor builds a tower of exactly `H` sentinel levels;
under the precondition `height ≥ 1` the `heads` vector is non-empty, the
`heads[0]` access performed by `upsert` and by `find` is in bounds, and
both operations have a defined result (their out-of-range branch is
unreachable). -/
theorem C9_height_precondition (H : Nat) (hH : 1 ≤ H) :
    (mkSkipList H).heads.length = H ∧
    (mkSkipList H).heads[0]? = some 0 ∧
    (∀ (coins : Nat → Bool) (pos : Nat) (k : Key) (v : Val),
      (upsert (mkSkipList H) coins pos k v).isSome) ∧
    (∀ k : Key, (find (mkSkipList H) k).isSome) := by
  rw [mkSkipList_eq]
  have h0 : (List.range H)[0]? = some 0 := by
    rw [List.getElem?_eq_getElem (by simpa using hH)]
    simp
  refine ⟨by simp, h0, ?_, ?_⟩
  · intro coins pos k v
    simp only [upsert, h0]
    rfl
  · intro k
    simp only [find, h0]
    rfl

theorem C9_witness :
    (1 : Nat) ≤ 1 ∧
      ((mkSkipList 1).heads.length = 1 ∧
      (mkSkipList 1).heads[0]? = some 0 ∧
      (∀ (coins : Nat → Bool) (pos : Nat) (k : Key) (v : Val),
        (upsert (mkSkipList 1) coins pos k v).isSome) ∧
      (∀ k : Key, (find (mkSkipList 1) k).isSome)) :=
  ⟨by decide, C9_height_precondition 1 (by decide)⟩

/-- C10: `clear` leaves the `heads` vector empty, so every subsequent
`upsert` or `find` would read `heads[0]` of an empty vector and has no
defined result (modelled `none`); `clear` does not reset the index to an
empty usable state. -/
theorem C10_clear_unusable (s : SL) :
    (clear s).heads = [] ∧
    (∀ (coins : Nat → Bool) (pos : Nat) (k : Key) (v : Val),
      upsert (clear s) coins pos k v = none) ∧
    (∀ k : Key, find (clear s) k = none) := by
  refine ⟨rfl, ?_, ?_⟩
  · intro coins pos k v
    rfl
  · intro k
    rfl

/-- C3: after any sequence of upserts on an index of height ≥ 1, every
level is sorted: for every non-sentinel node on a level's chain whose
`next` is non-null, its key is strictly below its successor's key. -/
theorem C3_levels_sorted (H : Nat) (hH : 1 ≤ H) (coins : Nat → Bool)
    (ops : List (Key × Val)) :
    ∃ (s' : SL) (pos' : Nat),
      runUpserts coins (mkSkipList H) 0 ops = some (s', pos') ∧
      ∀ h0 ∈ s'.heads, ∀ a ∈ chainFrom s'.nodes s'.nodes.length h0,
        ∀ (n nb : Node) (b : Nat) (ka kb : Key),
          s'.nodes[a]? = some n → n.next = some b →
          s'.nodes[b]? = some nb → n.k = some ka → nb.k = some kb →
          ka < kb := by
  obtain ⟨s', pos', t', hrun, hne', hheads', htow', hlen', habs'⟩ :=
    runUpserts_fresh H hH coins ops
  refine ⟨s', pos', hrun, ?_⟩
  intro h0 hh0 a ha n nb b ka kb hn hnext hnb hka hkb
  rw [hheads'] at hh0
  obtain ⟨lv, hlv, hlvfst⟩ := List.mem_map.mp hh0
  obtain ⟨d, hL⟩ := towerFrom_mem_levelOK htow' lv hlv
  have hwalk : chainFrom s'.nodes s'.nodes.length h0 = lv.2 := by
    rw [← hlvfst]
    exact levelOK_chainFrom hL
  rw [hwalk] at ha
  obtain ⟨hb, hlt⟩ := isChain_adjacent hL.2.1 hL.2.2.2 a ha n b hn hnext
  have hda : keyD s'.nodes a = ka := by simp [keyD, keyAt, hn, hka]
  have hdb : keyD s'.nodes b = kb := by simp [keyD, keyAt, hnb, hkb]
  rw [hda, hdb] at hlt
  exact hlt

theorem C3_witness :
    (1 : Nat) ≤ 1 ∧
      ∃ (s' : SL) (pos' : Nat),
        runUpserts (fun _ => false) (mkSkipList 1) 0 [(3, 4)] =
          some (s', pos') ∧
        ∀ h0 ∈ s'.heads, ∀ a ∈ chainFrom s'.nodes s'.nodes.length h0,
          ∀ (n nb : Node) (b : Nat) (ka kb : Key),
            s'.nodes[a]? = some n → n.next = some b →
            s'.nodes[b]? = some nb → n.k = some ka → nb.k = some kb →
            ka < kb :=
  ⟨by decide, C3_levels_sorted 1 (by decide) (fun _ => false) [(3, 4)]⟩

/-- C4: after any sequence of upserts on an index of height ≥ 1, every
node whose `down` pointer is non-null points into the level one below with
the same key, and a key present on the chain of level `i` is present on
the chain of every level `j ≥ i` (the levels carrying a key form a
contiguous suffix ending at the bottom). -/
theorem C4_column_and_prefix (H : Nat) (hH : 1 ≤ H) (coins : Nat → Bool)
    (ops : List (Key × Val)) :
    ∃ (s' : SL) (pos' : Nat),
      runUpserts coins (mkSkipList H) 0 ops = some (s', pos') ∧
      (∀ (i h0 : Nat), s'.heads[i]? = some h0 →
        ∀ a ∈ h0 :: chainFrom s'.nodes s'.nodes.length h0,
        ∀ (n : Node) (b : Nat), s'.nodes[a]? = some n →
          n.down = some b →
          ∃ h1, s'.heads[i + 1]? = some h1 ∧
            b ∈ h1 :: chainFrom s'.nodes s'.nodes.length h1 ∧
            keyAt s'.nodes b = n.k) ∧
      (∀ (i j h0 hj : Nat) (kk : Key), i ≤ j →
        s'.heads[i]? = some h0 → s'.heads[j]? = some hj →
        (∃ a ∈ chainFrom s'.nodes s'.nodes.length h0,
          keyAt s'.nodes a = some kk) →
        ∃ a ∈ chainFrom s'.nodes s'.nodes.length hj,
          keyAt s'.nodes a = some kk) := by
  obtain ⟨s', pos', t', hrun, hne', hheads', htow', hlen', habs'⟩ :=
    runUpserts_fresh H hH coins ops
  have hidx : ∀ (i h0 : Nat), s'.heads[i]? = some h0 →
      ∃ ci, t'[i]? = some (h0, ci) ∧
        chainFrom s'.nodes s'.nodes.length h0 = ci := by
    intro i h0 hih0
    rw [hheads', List.getElem?_map] at hih0
    cases ht'i : t'[i]? with
    | none => rw [ht'i] at hih0; exact Option.noConfusion hih0
    | some lv =>
      rw [ht'i] at hih0
      obtain ⟨si, ci⟩ := lv
      obtain rfl : si = h0 := by
        have := Option.some.inj hih0
        exact this
      refine ⟨ci, rfl, ?_⟩
      exact levelOK_chainFrom (towerFrom_getElem_levelOK htow' ht'i)
  refine ⟨s', pos', hrun, ?_, ?_⟩
  · intro i h0 hih0 a ha n b hn hdown
    obtain ⟨ci, ht'i, hwalk⟩ := hidx i h0 hih0
    rw [hwalk] at ha
    have hL := towerFrom_getElem_levelOK htow' ht'i
    rcases List.mem_cons.mp ha with rfl | ha'
    · -- `a` is the sentinel of level `i`
      obtain ⟨ns, hns, hnsk, _, hnsd⟩ := hL.1
      rw [hn] at hns
      obtain rfl : n = ns := by injection hns
      rw [hdown] at hnsd
      cases ht'i1 : t'[i + 1]? with
      | none =>
        rw [ht'i1] at hnsd
        exact Option.noConfusion hnsd.symm
      | some lv1 =>
        rw [ht'i1] at hnsd
        obtain ⟨s1, c1⟩ := lv1
        obtain rfl : b = s1 := by
          have h2 := Option.some.inj hnsd.symm
          exact h2.symm
        refine ⟨b, ?_, by simp, ?_⟩
        · rw [hheads', List.getElem?_map, ht'i1]
          rfl
        · obtain ⟨ns1, hns1, hns1k, _, _⟩ :=
            (towerFrom_getElem_levelOK htow' ht'i1).1
          rw [hnsk]
          simp only [keyAt, hns1, hns1k]
    · -- `a` is a real node of level `i`
      cases ht'i1 : t'[i + 1]? with
      | none =>
        exfalso
        obtain ⟨n2, hn2, hd2⟩ :=
          towerFrom_getElem_bottomLevel htow' ht'i ht'i1 a ha'
        rw [hn] at hn2
        obtain rfl : n = n2 := by injection hn2
        rw [hdown] at hd2
        exact Option.noConfusion hd2
      | some lv1 =>
        obtain ⟨s1, c1⟩ := lv1
        obtain ⟨n0, hn0, b0, hb0, hdown0, hb0k, _⟩ :=
          towerFrom_getElem_downLink htow' ht'i ht'i1 a ha'
        rw [hn] at hn0
        obtain rfl : n = n0 := by injection hn0
        rw [hdown] at hdown0
        obtain rfl : b = b0 := by injection hdown0
        have hih1 : s'.heads[i + 1]? = some s1 := by
          rw [hheads', List.getElem?_map, ht'i1]
          rfl
        obtain ⟨c1', ht'i1', hwalk1⟩ := hidx (i + 1) s1 hih1
        rw [ht'i1] at ht'i1'
        obtain rfl : c1 = c1' := by
          have h2 := Option.some.inj ht'i1'
          exact congrArg Prod.snd h2
        refine ⟨s1, hih1, ?_, hb0k⟩
        rw [hwalk1]
        exact List.mem_cons.mpr (Or.inr hb0)
  · intro i j h0 hj kk hle hih0 hihj hkey
    obtain ⟨ci, ht'i, hwalki⟩ := hidx i h0 hih0
    obtain ⟨cj, ht'j, hwalkj⟩ := hidx j hj hihj
    rw [hwalki] at hkey
    rw [hwalkj]
    have ht'j' : t'[i + (j - i)]? = some (hj, cj) := by
      rw [show i + (j - i) = j from by omega]
      exact ht'j
    exact towerFrom_hasKey_mono htow' (j - i) i ht'i ht'j' hkey

theorem C4_witness :
    (1 : Nat) ≤ 1 ∧
      ∃ (s' : SL) (pos' : Nat),
        runUpserts (fun _ => false) (mkSkipList 1) 0 [(3, 4)] =
          some (s', pos') ∧
        (∀ (i h0 : Nat), s'.heads[i]? = some h0 →
          ∀ a ∈ h0 :: chainFrom s'.nodes s'.nodes.length h0,
          ∀ (n : Node) (b : Nat), s'.nodes[a]? = some n →
            n.down = some b →
            ∃ h1, s'.heads[i + 1]? = some h1 ∧
              b ∈ h1 :: chainFrom s'.nodes s'.nodes.length h1 ∧
              keyAt s'.nodes b = n.k) ∧
        (∀ (i j h0 hj : Nat) (kk : Key), i ≤ j →
          s'.heads[i]? = some h0 → s'.heads[j]? = some hj →
          (∃ a ∈ chainFrom s'.nodes s'.nodes.length h0,
            keyAt s'.nodes a = some kk) →
          ∃ a ∈ chainFrom s'.nodes s'.nodes.length hj,
            keyAt s'.nodes a = some kk) :=
  ⟨by decide, C4_column_and_prefix 1 (by decide) (fun _ => false)
    [(3, 4)]⟩

/-- C2: if `k` is already present, `upsert k v` overwrites the value in
every node of `k`'s column (every level where `k` appears), allocates no
node and draws no coin, leaves all keys unchanged, each level still holds
at most one node with key `k`, and a subsequent `find k` returns the value
just written. -/
theorem C2_update_in_place (H : Nat) (hH : 1 ≤ H) (coins : Nat → Bool)
    (ops : List (Key × Val)) (k : Key) (v : Val)
    (hpresent : specLookup ops k ≠ none) :
    ∃ (s1 : SL) (pos1 : Nat),
      runUpserts coins (mkSkipList H) 0 ops = some (s1, pos1) ∧
      ∃ s2 : SL,
        upsert s1 coins pos1 k v = some (s2, pos1) ∧
        s2.nodes.length = s1.nodes.length ∧
        s2.heads = s1.heads ∧
        (∀ x, keyAt s2.nodes x = keyAt s1.nodes x) ∧
        (∀ h0 ∈ s2.heads, ∀ a ∈ chainFrom s2.nodes s2.nodes.length h0,
          keyAt s2.nodes a = some k → valAt s2.nodes a = some v) ∧
        (∀ h0 ∈ s2.heads, ∀ a ∈ chainFrom s2.nodes s2.nodes.length h0,
          ∀ a' ∈ chainFrom s2.nodes s2.nodes.length h0,
          keyAt s2.nodes a = some k → keyAt s2.nodes a' = some k →
          a = a') ∧
        find s2 k = some (some v) := by
  obtain ⟨s1, pos1, t1, hrun, hne1, hheads1, htow1, hlen1, habs1⟩ :=
    runUpserts_fresh H hH coins ops
  refine ⟨s1, pos1, hrun, ?_⟩
  obtain ⟨⟨s0, c0⟩, rest, rfl⟩ : ∃ q rest, t1 = q :: rest := by
    cases t1 with
    | nil => exact absurd rfl hne1
    | cons a b => exact ⟨a, b, rfl⟩
  obtain ⟨sb, db, hLb⟩ := towerFrom_bottom_levelOK htow1
  have hrealb := hLb.2.2.1
  have hsortb := hLb.2.2.2
  have hfindk : listFind k
      (entriesOf s1.nodes (bottomChain ((s0, c0) :: rest))) =
      specLookup ops k := by
    rw [habs1, listFind_foldl]
    rfl
  have hbk : chainHasKey s1.nodes (bottomChain ((s0, c0) :: rest)) k := by
    rw [← chainHasKey_iff_keysOf hrealb, ← listFind_isSome_iff, hfindk]
    cases hsp : specLookup ops k with
    | none => exact absurd hsp hpresent
    | some u => rfl
  have hh0 : s1.heads[0]? = some s0 := by rw [hheads1]; simp
  have hlenh : s1.heads.length = rest.length + 1 := by rw [hheads1]; simp
  have hspec := upsertRec_spec coins k v rest s1.nodes pos1 s0 s0 c0 c0
    (rest.length + 1) htow1 (startPt_sentinel _ _ _ _) (le_refl _)
  obtain ⟨nodes2, hrun2, hUO⟩ := hspec.1 hbk
  obtain ⟨hlen2, htow2, hframe, hcell, hcol⟩ := hUO
  have hub : upsert s1 coins pos1 k v =
      some (⟨nodes2, s1.heads⟩, pos1) := by
    simp only [upsert, hh0, hlenh, hrun2]
  have hkeys : ∀ x, keyAt nodes2 x = keyAt s1.nodes x := by
    intro x
    cases hx : s1.nodes[x]? with
    | none =>
      have hxlen : s1.nodes.length ≤ x := by
        have := hx
        rwa [List.getElem?_eq_none_iff] at this
      have hx2 : nodes2[x]? = none := by
        rw [List.getElem?_eq_none_iff, hlen2]
        exact hxlen
      simp only [keyAt, hx, hx2]
    | some n =>
      obtain ⟨n', hn', hk', _, _, _⟩ := hcell x n hx
      simp only [keyAt, hx, hn', hk']
  refine ⟨⟨nodes2, s1.heads⟩, hub, hlen2, rfl, hkeys, ?_, ?_, ?_⟩
  · intro h0 hh0m a ha hka
    have hh0m' : h0 ∈ s1.heads := hh0m
    rw [hheads1] at hh0m'
    obtain ⟨lv, hlv, hlvfst⟩ := List.mem_map.mp hh0m'
    obtain ⟨d2, hL2⟩ := towerFrom_mem_levelOK htow2 lv hlv
    have hwalk : chainFrom nodes2 nodes2.length h0 = lv.2 := by
      rw [← hlvfst]
      exact levelOK_chainFrom hL2
    have ha' : a ∈ lv.2 := by
      have h2 : a ∈ chainFrom nodes2 nodes2.length h0 := ha
      rwa [hwalk] at h2
    have hat : a ∈ towerAddrs ((s0, c0) :: rest) :=
      mem_towerAddrs_of_level hlv a (List.mem_cons.mpr (Or.inr ha'))
    have hka1 : keyAt s1.nodes a = some k := by
      rw [← hkeys]
      exact hka
    cases hx : s1.nodes[a]? with
    | none => simp only [keyAt, hx] at hka1; exact Option.noConfusion hka1
    | some n =>
      have hnk : n.k = some k := by
        simp only [keyAt, hx] at hka1
        exact hka1
      have hw := hcol a n hx hnk hat
      show valAt nodes2 a = some v
      simp only [valAt, hw]
  · intro h0 hh0m a ha a' ha2 hka hka'
    have hh0m' : h0 ∈ s1.heads := hh0m
    rw [hheads1] at hh0m'
    obtain ⟨lv, hlv, hlvfst⟩ := List.mem_map.mp hh0m'
    obtain ⟨d2, hL2⟩ := towerFrom_mem_levelOK htow2 lv hlv
    have hwalk : chainFrom nodes2 nodes2.length h0 = lv.2 := by
      rw [← hlvfst]
      exact levelOK_chainFrom hL2
    have hm1 : a ∈ lv.2 := by
      have h2 : a ∈ chainFrom nodes2 nodes2.length h0 := ha
      rwa [hwalk] at h2
    have hm2 : a' ∈ lv.2 := by
      have h2 : a' ∈ chainFrom nodes2 nodes2.length h0 := ha2
      rwa [hwalk] at h2
    exact chain_key_unique hL2 hm1 hm2 hka hka'
  · have hfind := find_spec k rfl
      (show (⟨nodes2, s1.heads⟩ : SL).heads =
        ((s0, c0) :: rest).map Prod.fst from hheads1) htow2
    rw [hfind]
    congr 1
    have hpt : ∀ a ∈ bottomChain ((s0, c0) :: rest),
        keyAt nodes2 a = keyAt s1.nodes a ∧
        (keyAt s1.nodes a = some k → valAt nodes2 a = some v) ∧
        (¬ keyAt s1.nodes a = some k →
          valAt nodes2 a = valAt s1.nodes a) := by
      intro a ha
      obtain ⟨n, hn, _, _⟩ := hrealb a ha
      refine ⟨hkeys a, ?_, ?_⟩
      · intro hka
        have hnk : n.k = some k := by
          simp only [keyAt, hn] at hka
          exact hka
        have hw := hcol a n hn hnk
          (bottomChain_mem_towerAddrs (by simp) ha)
        simp only [valAt, hw]
      · intro hka
        have hnk : ¬ n.k = some k := by
          intro hcontra
          exact hka (by simp only [keyAt, hn]; exact hcontra)
        obtain ⟨n', hn', _, _, _, hv'⟩ := hcell a n hn
        rcases hv' with hsame | ⟨hcontra, _⟩
        · simp only [valAt, hn, hn', hsame]
        · exact absurd hcontra hnk
    show listFind k (entriesOf nodes2 (bottomChain ((s0, c0) :: rest))) =
      some v
    rw [entriesOf_update hrealb hpt, listFind_listUpdateVal, if_pos rfl,
      hfindk]
    cases hsp : specLookup ops k with
    | none => exact absurd hsp hpresent
    | some u => rfl

theorem C2_witness :
    ((1 : Nat) ≤ 1 ∧ specLookup [((2 : Key), (5 : Val))] 2 ≠ none) ∧
      ∃ (s1 : SL) (pos1 : Nat),
        runUpserts (fun _ => false) (mkSkipList 1) 0 [(2, 5)] =
          some (s1, pos1) ∧
        ∃ s2 : SL,
          upsert s1 (fun _ => false) pos1 2 7 = some (s2, pos1) ∧
          s2.nodes.length = s1.nodes.length ∧
          s2.heads = s1.heads ∧
          (∀ x, keyAt s2.nodes x = keyAt s1.nodes x) ∧
          (∀ h0 ∈ s2.heads,
            ∀ a ∈ chainFrom s2.nodes s2.nodes.length h0,
            keyAt s2.nodes a = some 2 → valAt s2.nodes a = some 7) ∧
          (∀ h0 ∈ s2.heads,
            ∀ a ∈ chainFrom s2.nodes s2.nodes.length h0,
            ∀ a' ∈ chainFrom s2.nodes s2.nodes.length h0,
            keyAt s2.nodes a = some 2 → keyAt s2.nodes a' = some 2 →
            a = a') ∧
          find s2 2 = some (some 7) :=
  ⟨⟨by decide, by decide⟩, C2_update_in_place 1 (by decide)
    (fun _ => false) [(2, 5)] 2 7 (by decide)⟩

/-- C5: with the coin flips an explicit input stream, upserting a key not
yet present builds a column whose height — the number of levels whose
chain contains the key — is exactly one plus the number of consecutive
promote outcomes drawn during the ascent, and that height never exceeds
the configured height `H` regardless of the coins. -/
theorem C5_insert_height (H : Nat) (hH : 1 ≤ H) (coins : Nat → Bool)
    (ops : List (Key × Val)) (k : Key) (v : Val)
    (hfresh : specLookup ops k = none) :
    ∃ (s1 : SL) (pos1 : Nat),
      runUpserts coins (mkSkipList H) 0 ops = some (s1, pos1) ∧
      ∃ (s2 : SL) (pos2 : Nat),
        upsert s1 coins pos1 k v = some (s2, pos2) ∧
        consecTrues coins pos1 (H - 1) + 1 ≤ H ∧
        s2.heads.countP (fun h0 =>
          decide (∃ a ∈ chainFrom s2.nodes s2.nodes.length h0,
            keyAt s2.nodes a = some k)) =
          consecTrues coins pos1 (H - 1) + 1 := by
  obtain ⟨s1, pos1, t1, hrun, hne1, hheads1, htow1, hlen1, habs1⟩ :=
    runUpserts_fresh H hH coins ops
  refine ⟨s1, pos1, hrun, ?_⟩
  obtain ⟨⟨s0, c0⟩, rest, rfl⟩ : ∃ q rest, t1 = q :: rest := by
    cases t1 with
    | nil => exact absurd rfl hne1
    | cons a b => exact ⟨a, b, rfl⟩
  obtain ⟨sb, db, hLb⟩ := towerFrom_bottom_levelOK htow1
  have hrealb := hLb.2.2.1
  have hfindk : listFind k
      (entriesOf s1.nodes (bottomChain ((s0, c0) :: rest))) =
      specLookup ops k := by
    rw [habs1, listFind_foldl]
    rfl
  have hnk : ¬ chainHasKey s1.nodes (bottomChain ((s0, c0) :: rest)) k := by
    intro hck
    have h2 : k ∈ keysOf (entriesOf s1.nodes
        (bottomChain ((s0, c0) :: rest))) :=
      (chainHasKey_iff_keysOf hrealb).mpr hck
    rw [← listFind_isSome_iff, hfindk, hfresh] at h2
    exact Bool.noConfusion h2
  have hrlen : rest.length = H - 1 := by
    simp only [List.length_cons] at hlen1
    omega
  have hh0 : s1.heads[0]? = some s0 := by rw [hheads1]; simp
  have hlenh : s1.heads.length = rest.length + 1 := by rw [hheads1]; simp
  have hspec := upsertRec_spec coins k v rest s1.nodes pos1 s0 s0 c0 c0
    (rest.length + 1) htow1 (startPt_sentinel _ _ _ _) (le_refl _)
  obtain ⟨ret, nodes2, t2, hrun2, hIO, _, _⟩ := hspec.2 hnk
  obtain ⟨hlen2, htow2, htlen, htfst, hframe, hcell, hcov, hlevels⟩ := hIO
  have hub : upsert s1 coins pos1 k v = some (⟨nodes2, s1.heads⟩,
      pos1 + min (consecTrues coins pos1 rest.length + 1) rest.length) := by
    simp only [upsert, hh0, hlenh, hrun2]
  refine ⟨⟨nodes2, s1.heads⟩, _, hub, ?_, ?_⟩
  · have h2 := consecTrues_le coins (H - 1) pos1
    omega
  · have hheads2 : s1.heads = t2.map Prod.fst := by
      rw [hheads1, ← htfst]
    have hchar : ∀ (j : Nat) (lv : Nat × List Nat), t2[j]? = some lv →
        (((fun h0 => decide (∃ a ∈ chainFrom nodes2 nodes2.length h0,
            keyAt nodes2 a = some k)) ∘ Prod.fst) lv = true ↔
          t2.length ≤ j + (consecTrues coins pos1 rest.length + 1)) := by
      intro j lv hj
      obtain ⟨s2j, c2j⟩ := lv
      have hL2 := towerFrom_getElem_levelOK htow2 hj
      have hwalk := levelOK_chainFrom hL2
      have hjlt : j < ((s0, c0) :: rest).length := by
        have := (List.getElem?_eq_some.mp hj).1
        omega
      obtain ⟨⟨s1j, c1j⟩, hj1⟩ :
          ∃ lv1, ((s0, c0) :: rest)[j]? = some lv1 :=
        ⟨((s0, c0) :: rest)[j], List.getElem?_eq_getElem hjlt⟩
      obtain ⟨hunch, hsplit⟩ := hlevels j (s1j, c1j) hj1
      simp only [Function.comp_apply, hwalk, decide_eq_true_eq]
      by_cases hcase : ((s0, c0) :: rest).length ≤
          j + (consecTrues coins pos1 rest.length + 1)
      · obtain ⟨cb₁, cb₂, w, hcb, ht2j, hwf, hwk, hwv⟩ := hsplit hcase
        rw [hj] at ht2j
        have h2 := Option.some.inj ht2j
        have hc2j : c2j = cb₁ ++ w :: cb₂ := congrArg Prod.snd h2
        constructor
        · intro _
          rw [htlen]
          exact hcase
        · intro _
          exact ⟨w, by rw [hc2j]; simp, hwk⟩
      · have ht2j := hunch (by omega)
        rw [hj] at ht2j
        have h2 := Option.some.inj ht2j
        have hc2j : c2j = c1j := congrArg Prod.snd h2
        constructor
        · rintro ⟨a, ha, hka⟩
          exfalso
          rw [hc2j] at ha
          have hL1 := towerFrom_getElem_levelOK htow1 hj1
          obtain ⟨n, hn, _, _⟩ := hL1.2.2.1 a ha
          obtain ⟨n', hn', hk', _, _⟩ := hcell a n hn
          have hka1 : keyAt s1.nodes a = some k := by
            simp only [keyAt, hn]
            simp only [keyAt, hn', hk'] at hka
            exact hka
          exact hnk (towerFrom_getElem_hasKey_bottom htow1 hj1
            ⟨a, ha, hka1⟩)
        · intro hle
          exfalso
          rw [htlen] at hle
          exact hcase hle
    show s1.heads.countP _ = _
    rw [hheads2, List.countP_map,
      countP_iff_suffix _ t2 (consecTrues coins pos1 rest.length + 1)
        hchar]
    have hct := consecTrues_le coins rest.length pos1
    have ht2len : t2.length = H := by
      rw [htlen]
      simp only [List.length_cons]
      rw [hrlen, Nat.sub_add_cancel hH]
    rw [hrlen] at hct ⊢
    rw [ht2len]
    exact Nat.min_eq_left (lt_of_le_of_lt hct (Nat.sub_lt hH Nat.one_pos))

theorem C5_witness :
    ((1 : Nat) ≤ 1 ∧ specLookup ([] : List (Key × Val)) 2 = none) ∧
      ∃ (s1 : SL) (pos1 : Nat),
        runUpserts (fun _ => true) (mkSkipList 1) 0 [] =
          some (s1, pos1) ∧
        ∃ (s2 : SL) (pos2 : Nat),
          upsert s1 (fun _ => true) pos1 2 9 = some (s2, pos2) ∧
          consecTrues (fun _ => true) pos1 (1 - 1) + 1 ≤ 1 ∧
          s2.heads.countP (fun h0 =>
            decide (∃ a ∈ chainFrom s2.nodes s2.nodes.length h0,
              keyAt s2.nodes a = some 2)) =
            consecTrues (fun _ => true) pos1 (1 - 1) + 1 :=
  ⟨⟨by decide, by decide⟩, C5_insert_height 1 (by decide)
    (fun _ => true) [] 2 9 (by decide)⟩

/-! ## The read-only footprint of `find` -/

/-- State-threaded `SkipList::findInLevel`: the state is carried through every
step of the walk, so that any write would be visible in the returned
state. -/
def findInLevelSt (s : SL) : Nat → Nat → Key → SL × Nat
  | 0, current, _ => (s, current)
  | fuel + 1, current, k =>
    match s.nodes[current]? with
    | none => (s, current)
    | some c =>
      match c.next with
      | none => (s, current)
      | some nxt =>
        match s.nodes[nxt]? with
        | none => (s, current)
        | some n =>
          if optGtKey n.k k then (s, current)
          else findInLevelSt s fuel nxt k

/-- State-threaded descent loop of `SkipList::find`. -/
def findLoopSt (k : Key) : SL → Nat → Nat → SL × Option Val
  | s, 0, _ => (s, none)
  | s, fuel + 1, m =>
    match s.nodes[m]? with
    | none => (s, none)
    | some mn =>
      match mn.down with
      | some d =>
        if mn.k = some k then (s, mn.v)
        else
          let r := findInLevelSt s s.nodes.length d k
          findLoopSt k r.1 fuel r.2
      | none => if mn.k = some k then (s, mn.v) else (s, none)

/-- State-threaded `SkipList::find`. -/
def findSt (s : SL) (k : Key) : SL × Option (Option Val) :=
  match s.heads[0]? with
  | none => (s, none)
  | some h0 =>
    let r1 := findInLevelSt s s.nodes.length h0 k
    let r2 := findLoopSt k r1.1 r1.1.heads.length r1.2
    (r2.1, some r2.2)

theorem findInLevelSt_eq (s : SL) (k : Key) :
    ∀ (fuel current : Nat),
      findInLevelSt s fuel current k =
        (s, findInLevel s.nodes fuel current k) := by
  intro fuel
  induction fuel with
  | zero => intro current; rfl
  | succ fuel ih =>
    intro current
    cases hc : s.nodes[current]? with
    | none => simp only [findInLevelSt, findInLevel, hc]
    | some c =>
      cases hn : c.next with
      | none => simp only [findInLevelSt, findInLevel, hc, hn]
      | some nxt =>
        cases hx : s.nodes[nxt]? with
        | none => simp only [findInLevelSt, findInLevel, hc, hn, hx]
        | some n =>
          by_cases h : optGtKey n.k k
          · simp only [findInLevelSt, findInLevel, hc, hn, hx, h,
              if_true]
          · simp only [findInLevelSt, findInLevel, hc, hn, hx, h,
              if_false]
            exact ih nxt

theorem findLoopSt_eq (s : SL) (k : Key) :
    ∀ (fuel m : Nat),
      findLoopSt k s fuel m = (s, findLoop s.nodes k fuel m) := by
  intro fuel
  induction fuel with
  | zero => intro m; rfl
  | succ fuel ih =>
    intro m
    cases hm : s.nodes[m]? with
    | none => simp only [findLoopSt, findLoop, hm]
    | some mn =>
      cases hd : mn.down with
      | some d =>
        by_cases h : mn.k = some k
        · simp only [findLoopSt, findLoop, hm, hd, if_pos h]
        · simp only [findLoopSt, findLoop, hm, hd, if_neg h,
            findInLevelSt_eq]
          exact ih (findInLevel s.nodes s.nodes.length d k)
      | none =>
        by_cases h : mn.k = some k
        · simp only [findLoopSt, findLoop, hm, hd, if_pos h]
        · simp only [findLoopSt, findLoop, hm, hd, if_neg h]

theorem findSt_eq (s : SL) (k : Key) : findSt s k = (s, find s k) := by
  simp only [findSt, find]
  cases s.heads[0]? with
  | none => rfl
  | some h0 =>
    simp only [findInLevelSt_eq, findLoopSt_eq]

/-- C7: `find` (and its search primitive `findInLevel`) does not modify
the structure: the state after a threaded execution of `find` is the state
before, and repeating `find` on the resulting state returns the same
result. -/
theorem C7_find_pure (s : SL) (k : Key) :
    (findSt s k).1 = s ∧
    findInLevelSt s s.nodes.length (s.heads.headD 0) k =
      (s, findInLevel s.nodes s.nodes.length (s.heads.headD 0) k) ∧
    (findSt (findSt s k).1 k).2 = (findSt s k).2 := by
  refine ⟨?_, findInLevelSt_eq s k _ _, ?_⟩
  · rw [findSt_eq]
  · simp only [findSt_eq]

end SkipList

namespace SkipListAtomicSingleWriter

open SkipList (Key Val optGtKey)

/-- One cell of the lock-free single-writer skip list: same links and
optional key as the sequential variant, but the value is a plain
`std::atomic<TVal>` (not optional); a sentinel's never-read value is
modelled as `0`. Mirrors `SkipListAtomicSingleWriter::Node`. -/
structure Node where
  down : Option Nat
  next : Option Nat
  k : Option Key
  v : Val
deriving DecidableEq, Repr

/-- The index state of the atomic variant. -/
structure SLA where
  nodes : List Node
  heads : List Nat
deriving DecidableEq, Repr

/-- Model of `SkipListAtomicSingleWriter::findInLevel` (acquire loads of `next`;
single-threaded semantics identical to the sequential walk). -/
def findInLevel (nodes : List Node) : Nat → Nat → Key → Nat
  | 0, current, _ => current
  | fuel + 1, current, k =>
    match nodes[current]? with
    | none => current
    | some c =>
      match c.next with
      | none => current
      | some nxt =>
        match nodes[nxt]? with
        | none => current
        | some n =>
          if optGtKey n.k k then current
          else findInLevel nodes fuel nxt k

/-- Model of `SkipListAtomicSingleWriter::chainNode`: relaxed store of the new
node's `next`, then release store of the predecessor's `next`. -/
def chainNode (nodes : List Node) (previous newAddr : Nat) : List Node :=
  match nodes[previous]?, nodes[newAddr]? with
  | some p, some nw =>
    (nodes.set newAddr { nw with next := p.next }).set previous
      { p with next := some newAddr }
  | _, _ => nodes

/-- Model of `SkipListAtomicSingleWriter::upsertRec`; the same control flow as the
sequential `upsertRec`, with a relaxed store into `v` on update. -/
def upsertRec (coins : Nat → Bool) (k : Key) (v : Val) :
    List Node → Nat → Option Nat → Nat → Option Nat × List Node × Nat
  | nodes, pos, none, _ => (none, nodes, pos)
  | nodes, pos, some _, 0 => (none, nodes, pos)
  | nodes, pos, some cur, fuel + 1 =>
    let insertAddr := findInLevel nodes nodes.length cur k
    match nodes[insertAddr]? with
    | none => (none, nodes, pos)
    | some insertNode =>
      if insertNode.k = some k then
        let nodes1 := nodes.set insertAddr { insertNode with v := v }
        let r := upsertRec coins k v nodes1 pos insertNode.down fuel
        (none, r.2.1, r.2.2)
      else
        match insertNode.down with
        | none =>
          let newAddr := nodes.length
          let nodes1 := nodes ++ [⟨none, none, some k, v⟩]
          (some newAddr, chainNode nodes1 insertAddr newAddr, pos)
        | some d =>
          let r := upsertRec coins k v nodes pos (some d) fuel
          match r.1 with
          | none => (none, r.2.1, r.2.2)
          | some childAddr =>
            if coins r.2.2 then
              let newAddr := r.2.1.length
              let nodes1 := r.2.1 ++ [⟨some childAddr, none, some k, v⟩]
              (some newAddr, chainNode nodes1 insertAddr newAddr,
                r.2.2 + 1)
            else
              (none, r.2.1, r.2.2 + 1)

/-- The constructor loop of `SkipListAtomicSingleWriter(size_t height)`. -/
def mkLoop (nodes : List Node) (heads : List Nat) (prev : Option Nat) :
    Nat → SLA
  | 0 => ⟨nodes, heads⟩
  | n + 1 =>
    let newAddr := nodes.length
    let nodes1 := nodes ++ [⟨none, none, none, 0⟩]
    let nodes2 :=
      match prev with
      | none => nodes1
      | some p =>
        match nodes1[p]? with
        | some pn => nodes1.set p { pn with down := some newAddr }
        | none => nodes1
    mkLoop nodes2 (heads ++ [newAddr]) (some newAddr) n

/-- Model of the constructor `SkipListAtomicSingleWriter(size_t height)`. -/
def mkSkipList (height : Nat) : SLA := mkLoop [] [] none height

/-- Model of `SkipListAtomicSingleWriter::upsert`. -/
def upsert (s : SLA) (coins : Nat → Bool) (pos : Nat) (k : Key)
    (v : Val) : Option (SLA × Nat) :=
  match s.heads[0]? with
  | none => none
  | some h0 =>
    let r := upsertRec coins k v s.nodes pos (some h0) s.heads.length
    some (⟨r.2.1, s.heads⟩, r.2.2)

/-- The descent loop of `SkipListAtomicSingleWriter::find`. -/
def findLoop (nodes : List Node) (k : Key) : Nat → Nat → Option Val
  | 0, _ => none
  | fuel + 1, m =>
    match nodes[m]? with
    | none => none
    | some mn =>
      match mn.down with
      | some d =>
        if mn.k = some k then some mn.v
        else findLoop nodes k fuel (findInLevel nodes nodes.length d k)
      | none => if mn.k = some k then some mn.v else none

/-- Model of `SkipListAtomicSingleWriter::find`. -/
def find (s : SLA) (k : Key) : Option (Option Val) :=
  match s.heads[0]? with
  | none => none
  | some h0 =>
    some (findLoop s.nodes k s.heads.length
      (findInLevel s.nodes s.nodes.length h0 k))

/-- Model of `SkipListAtomicSingleWriter::clear`. -/
def clear (_s : SLA) : SLA := ⟨[], []⟩

/-- Run a sequence of upserts on the atomic variant. -/
def runUpserts (coins : Nat → Bool) :
    SLA → Nat → List (Key × Val) → Option (SLA × Nat)
  | s, pos, [] => some (s, pos)
  | s, pos, (k, v) :: ops =>
    match upsert s coins pos k v with
    | none => none
    | some (s1, pos1) => runUpserts coins s1 pos1 ops

/-! ## Simulation against the sequential variant -/

/-- Cell correspondence: identical links and key; on a real node (engaged
key) the sequential optional value is exactly the atomic value. -/
def NodeRel (n : SkipList.Node) (na : Node) : Prop :=
  na.down = n.down ∧ na.next = n.next ∧ na.k = n.k ∧
  (n.k.isSome → n.v = some na.v)

/-- Heap correspondence: same length and related cells. -/
def HeapRel (nodes : List SkipList.Node) (nodesA : List Node) : Prop :=
  nodesA.length = nodes.length ∧
  ∀ (i : Nat) (n : SkipList.Node), nodes[i]? = some n →
    ∃ na, nodesA[i]? = some na ∧ NodeRel n na

theorem heapRel_none {nodes : List SkipList.Node} {nodesA : List Node}
    (h : HeapRel nodes nodesA) {i : Nat} (hi : nodes[i]? = none) :
    nodesA[i]? = none := by
  rw [List.getElem?_eq_none_iff] at hi ⊢
  rw [h.1]
  exact hi

theorem heapRel_set {nodes : List SkipList.Node} {nodesA : List Node}
    (h : HeapRel nodes nodesA) {i : Nat} {n : SkipList.Node} {na : Node}
    (hrel : NodeRel n na) :
    HeapRel (nodes.set i n) (nodesA.set i na) := by
  refine ⟨by simp [h.1], ?_⟩
  intro j m hj
  by_cases hij : i = j
  · subst hij
    have hlt : i < nodes.length := by
      have h2 := (List.getElem?_eq_some.mp hj).1
      simpa using h2
    rw [List.getElem?_set_eq_of_lt _ hlt] at hj
    obtain rfl : m = n := by
      injection hj with h3
      exact h3.symm
    refine ⟨na, ?_, hrel⟩
    rw [List.getElem?_set_eq_of_lt _ (by rw [h.1]; exact hlt)]
  · rw [List.getElem?_set_ne hij] at hj
    obtain ⟨ma, hma, hr⟩ := h.2 j m hj
    refine ⟨ma, ?_, hr⟩
    rw [List.getElem?_set_ne hij]
    exact hma

theorem heapRel_append {nodes : List SkipList.Node} {nodesA : List Node}
    (h : HeapRel nodes nodesA) {n : SkipList.Node} {na : Node}
    (hrel : NodeRel n na) :
    HeapRel (nodes ++ [n]) (nodesA ++ [na]) := by
  refine ⟨by simp [h.1], ?_⟩
  intro j m hj
  by_cases hlt : j < nodes.length
  · rw [List.getElem?_append_left hlt] at hj
    obtain ⟨ma, hma, hr⟩ := h.2 j m hj
    refine ⟨ma, ?_, hr⟩
    rw [List.getElem?_append_left (by rw [h.1]; exact hlt)]
    exact hma
  · rw [List.getElem?_append_right (by omega)] at hj
    cases hj2 : (j - nodes.length) with
    | zero =>
      rw [hj2] at hj
      simp only [List.getElem?_cons_zero] at hj
      obtain rfl : m = n := by
        injection hj with h3
        exact h3.symm
      refine ⟨na, ?_, hrel⟩
      rw [List.getElem?_append_right (by rw [h.1]; omega), h.1, hj2]
      rfl
    | succ d =>
      rw [hj2] at hj
      simp at hj

theorem findInLevel_rel {nodes : List SkipList.Node} {nodesA : List Node}
    (h : HeapRel nodes nodesA) (k : Key) :
    ∀ (fuel current : Nat),
      findInLevel nodesA fuel current k =
        SkipList.findInLevel nodes fuel current k := by
  intro fuel
  induction fuel with
  | zero => intro current; rfl
  | succ fuel ih =>
    intro current
    cases hc : nodes[current]? with
    | none =>
      have hcA := heapRel_none h hc
      simp only [findInLevel, SkipList.findInLevel, hc, hcA]
    | some c =>
      obtain ⟨ca, hca, hcad, hcan, hcak, _⟩ := h.2 current c hc
      cases hn : c.next with
      | none =>
        simp only [findInLevel, SkipList.findInLevel, hc, hca, hcan, hn]
      | some nxt =>
        cases hx : nodes[nxt]? with
        | none =>
          have hxA := heapRel_none h hx
          simp only [findInLevel, SkipList.findInLevel, hc, hca, hcan,
            hn, hx, hxA]
        | some n =>
          obtain ⟨na2, hna2, _, _, hnak, _⟩ := h.2 nxt n hx
          by_cases hgt : optGtKey n.k k
          · simp only [findInLevel, SkipList.findInLevel, hc, hca, hcan,
              hn, hx, hna2, hnak, hgt, if_true]
          · simp only [findInLevel, SkipList.findInLevel, hc, hca, hcan,
              hn, hx, hna2, hnak, hgt, if_false]
            exact ih nxt

theorem chainNode_rel {nodes : List SkipList.Node} {nodesA : List Node}
    (h : HeapRel nodes nodesA) (previous newAddr : Nat) :
    HeapRel (SkipList.chainNode nodes previous newAddr)
      (chainNode nodesA previous newAddr) := by
  cases hp : nodes[previous]? with
  | none =>
    have hpA := heapRel_none h hp
    simp only [SkipList.chainNode, chainNode, hp, hpA]
    exact h
  | some p =>
    obtain ⟨pa, hpa, hpd, hpn, hpk, hpv⟩ := h.2 previous p hp
    cases hw : nodes[newAddr]? with
    | none =>
      have hwA := heapRel_none h hw
      simp only [SkipList.chainNode, chainNode, hp, hpa, hw, hwA]
      exact h
    | some nw =>
      obtain ⟨nwa, hnwa, hwd, hwn, hwk, hwv⟩ := h.2 newAddr nw hw
      simp only [SkipList.chainNode, chainNode, hp, hpa, hw, hnwa]
      refine heapRel_set (heapRel_set h ?_) ?_
      · exact ⟨hwd, by rw [hpn], hwk, hwv⟩
      · exact ⟨hpd, rfl, hpk, hpv⟩

theorem upsertRecSeq_step_dead (coins : Nat → Bool) (k : Key) (v : Val)
    (nodes : List SkipList.Node) (pos cur fuel : Nat)
    (hr : nodes[SkipList.findInLevel nodes nodes.length cur k]? = none) :
    SkipList.upsertRec coins k v nodes pos (some cur) (fuel + 1) =
      (none, nodes, pos) := by
  simp [SkipList.upsertRec, hr]

theorem upsertRec_step_dead (coins : Nat → Bool) (k : Key) (v : Val)
    (nodesA : List Node) (pos cur fuel : Nat)
    (hr : nodesA[findInLevel nodesA nodesA.length cur k]? = none) :
    upsertRec coins k v nodesA pos (some cur) (fuel + 1) =
      (none, nodesA, pos) := by
  simp [upsertRec, hr]

theorem upsertRec_a_step_update (coins : Nat → Bool) (k : Key) (v : Val)
    (nodesA : List Node) (pos cur fuel : Nat) {rn : Node}
    (hr : nodesA[findInLevel nodesA nodesA.length cur k]? = some rn)
    (hk : rn.k = some k) :
    upsertRec coins k v nodesA pos (some cur) (fuel + 1) =
      (none,
        (upsertRec coins k v
          (nodesA.set (findInLevel nodesA nodesA.length cur k)
            { rn with v := v }) pos rn.down fuel).2.1,
        (upsertRec coins k v
          (nodesA.set (findInLevel nodesA nodesA.length cur k)
            { rn with v := v }) pos rn.down fuel).2.2) := by
  simp [upsertRec, hr, hk]

theorem upsertRec_a_step_leaf (coins : Nat → Bool) (k : Key) (v : Val)
    (nodesA : List Node) (pos cur fuel : Nat) {rn : Node}
    (hr : nodesA[findInLevel nodesA nodesA.length cur k]? = some rn)
    (hk : ¬ rn.k = some k) (hd : rn.down = none) :
    upsertRec coins k v nodesA pos (some cur) (fuel + 1) =
      (some nodesA.length,
        chainNode (nodesA ++ [⟨none, none, some k, v⟩])
          (findInLevel nodesA nodesA.length cur k) nodesA.length,
        pos) := by
  simp [upsertRec, hr, hk, hd]

theorem upsertRec_a_step_descend_none (coins : Nat → Bool) (k : Key)
    (v : Val) (nodesA : List Node) (pos cur fuel : Nat) {rn : Node}
    {d : Nat}
    (hr : nodesA[findInLevel nodesA nodesA.length cur k]? = some rn)
    (hk : ¬ rn.k = some k) (hd : rn.down = some d)
    (hsub : (upsertRec coins k v nodesA pos (some d) fuel).1 = none) :
    upsertRec coins k v nodesA pos (some cur) (fuel + 1) =
      (none, (upsertRec coins k v nodesA pos (some d) fuel).2.1,
        (upsertRec coins k v nodesA pos (some d) fuel).2.2) := by
  simp [upsertRec, hr, hk, hd, hsub]

theorem upsertRec_a_step_descend_promote (coins : Nat → Bool) (k : Key)
    (v : Val) (nodesA : List Node) (pos cur fuel : Nat) {rn : Node}
    {d ca : Nat}
    (hr : nodesA[findInLevel nodesA nodesA.length cur k]? = some rn)
    (hk : ¬ rn.k = some k) (hd : rn.down = some d)
    (hsub : (upsertRec coins k v nodesA pos (some d) fuel).1 = some ca)
    (hcoin : coins (upsertRec coins k v nodesA pos (some d) fuel).2.2 =
      true) :
    upsertRec coins k v nodesA pos (some cur) (fuel + 1) =
      (some (upsertRec coins k v nodesA pos (some d) fuel).2.1.length,
        chainNode ((upsertRec coins k v nodesA pos (some d) fuel).2.1 ++
            [⟨some ca, none, some k, v⟩])
          (findInLevel nodesA nodesA.length cur k)
          (upsertRec coins k v nodesA pos (some d) fuel).2.1.length,
        (upsertRec coins k v nodesA pos (some d) fuel).2.2 + 1) := by
  simp [upsertRec, hr, hk, hd, hsub, hcoin]

theorem upsertRec_a_step_descend_nopromote (coins : Nat → Bool) (k : Key)
    (v : Val) (nodesA : List Node) (pos cur fuel : Nat) {rn : Node}
    {d ca : Nat}
    (hr : nodesA[findInLevel nodesA nodesA.length cur k]? = some rn)
    (hk : ¬ rn.k = some k) (hd : rn.down = some d)
    (hsub : (upsertRec coins k v nodesA pos (some d) fuel).1 = some ca)
    (hcoin : coins (upsertRec coins k v nodesA pos (some d) fuel).2.2 =
      false) :
    upsertRec coins k v nodesA pos (some cur) (fuel + 1) =
      (none, (upsertRec coins k v nodesA pos (some d) fuel).2.1,
        (upsertRec coins k v nodesA pos (some d) fuel).2.2 + 1) := by
  simp [upsertRec, hr, hk, hd, hsub, hcoin]

/-- The two variants run in lockstep: same promotion candidate, same coin
positions, related heaps. -/
theorem upsertRec_rel (coins : Nat → Bool) (k : Key) (v : Val) :
    ∀ (fuel : Nat) (nodes : List SkipList.Node) (nodesA : List Node)
      (pos : Nat) (cur : Option Nat), HeapRel nodes nodesA →
      (upsertRec coins k v nodesA pos cur fuel).1 =
        (SkipList.upsertRec coins k v nodes pos cur fuel).1 ∧
      (upsertRec coins k v nodesA pos cur fuel).2.2 =
        (SkipList.upsertRec coins k v nodes pos cur fuel).2.2 ∧
      HeapRel (SkipList.upsertRec coins k v nodes pos cur fuel).2.1
        (upsertRec coins k v nodesA pos cur fuel).2.1 := by
  intro fuel
  induction fuel with
  | zero =>
    intro nodes nodesA pos cur h
    cases cur with
    | none => exact ⟨rfl, rfl, h⟩
    | some cu => exact ⟨rfl, rfl, h⟩
  | succ fuel ih =>
    intro nodes nodesA pos cur h
    cases cur with
    | none => exact ⟨rfl, rfl, h⟩
    | some cu =>
      have hlenA : nodesA.length = nodes.length := h.1
      have hFILA : findInLevel nodesA nodesA.length cu k =
          SkipList.findInLevel nodes nodes.length cu k := by
        rw [hlenA]
        exact findInLevel_rel h k nodes.length cu
      cases hro : nodes[SkipList.findInLevel nodes nodes.length cu k]?
        with
      | none =>
        have hrA : nodesA[findInLevel nodesA nodesA.length cu k]? =
            none := by
          rw [hFILA]
          exact heapRel_none h hro
        rw [upsertRecSeq_step_dead coins k v nodes pos cu fuel hro,
          upsertRec_step_dead coins k v nodesA pos cu fuel hrA]
        exact ⟨rfl, rfl, h⟩
      | some rn =>
        obtain ⟨rna, hrna0, hreld, hreln, hrelk, hrelv⟩ :=
          h.2 _ rn hro
        have hrA : nodesA[findInLevel nodesA nodesA.length cu k]? =
            some rna := by
          rw [hFILA]
          exact hrna0
        by_cases hk : rn.k = some k
        · -- update in lockstep
          have hkA : rna.k = some k := by rw [hrelk, hk]
          rw [SkipList.upsertRec_step_update coins k v nodes pos cu fuel
            hro hk, upsertRec_a_step_update coins k v nodesA pos cu fuel
            hrA hkA, hFILA, hreld]
          have hrelset : NodeRel { rn with v := some v }
              ⟨rn.down, rna.next, rna.k, v⟩ :=
            ⟨rfl, hreln, hrelk, fun _ => rfl⟩
          obtain ⟨ih1, ih2, ih3⟩ := ih
            (nodes.set (SkipList.findInLevel nodes nodes.length cu k)
              { rn with v := some v })
            (nodesA.set (SkipList.findInLevel nodes nodes.length cu k)
              ⟨rn.down, rna.next, rna.k, v⟩)
            pos rn.down (heapRel_set h hrelset)
          exact ⟨rfl, ih2, ih3⟩
        · have hkA : ¬ rna.k = some k := by rw [hrelk]; exact hk
          cases hd : rn.down with
          | none =>
            have hdA : rna.down = none := by rw [hreld, hd]
            rw [SkipList.upsertRec_step_leaf coins k v nodes pos cu fuel
              hro hk hd, upsertRec_a_step_leaf coins k v nodesA pos cu
              fuel hrA hkA hdA]
            refine ⟨by rw [hlenA], rfl, ?_⟩
            rw [hFILA, hlenA]
            exact chainNode_rel
              (heapRel_append h ⟨rfl, rfl, rfl, fun _ => rfl⟩) _ _
          | some d =>
            have hdA : rna.down = some d := by rw [hreld, hd]
            obtain ⟨ih1, ih2, ih3⟩ := ih nodes nodesA pos (some d) h
            cases hret :
              (SkipList.upsertRec coins k v nodes pos (some d) fuel).1
              with
            | none =>
              rw [SkipList.upsertRec_step_descend_none coins k v nodes
                pos cu fuel hro hk hd hret,
                upsertRec_a_step_descend_none coins k v nodesA pos cu
                fuel hrA hkA hdA (by rw [ih1, hret])]
              exact ⟨rfl, ih2, ih3⟩
            | some ca =>
              have hretA :
                  (upsertRec coins k v nodesA pos (some d) fuel).1 =
                  some ca := by
                rw [ih1, hret]
              by_cases hcoin : coins
                  (SkipList.upsertRec coins k v nodes pos
                    (some d) fuel).2.2 = true
              · rw [SkipList.upsertRec_step_descend_promote coins k v
                  nodes pos cu fuel hro hk hd hret hcoin,
                  upsertRec_a_step_descend_promote coins k v nodesA pos
                  cu fuel hrA hkA hdA hretA (by rw [ih2]; exact hcoin)]
                refine ⟨by rw [ih3.1], by rw [ih2], ?_⟩
                rw [hFILA, ih3.1]
                exact chainNode_rel
                  (heapRel_append ih3 ⟨rfl, rfl, rfl, fun _ => rfl⟩) _ _
              · have hcoinF : coins
                    (SkipList.upsertRec coins k v nodes pos
                      (some d) fuel).2.2 = false :=
                  Bool.of_not_eq_true hcoin
                rw [SkipList.upsertRec_step_descend_nopromote coins k v
                  nodes pos cu fuel hro hk hd hret hcoinF,
                  upsertRec_a_step_descend_nopromote coins k v nodesA
                  pos cu fuel hrA hkA hdA hretA
                  (by rw [ih2]; exact hcoinF)]
                exact ⟨rfl, by rw [ih2], ih3⟩

theorem findLoop_rel {nodes : List SkipList.Node} {nodesA : List Node}
    (h : HeapRel nodes nodesA) (k : Key) :
    ∀ (fuel m : Nat),
      findLoop nodesA k fuel m = SkipList.findLoop nodes k fuel m := by
  intro fuel
  induction fuel with
  | zero => intro m; rfl
  | succ fuel ih =>
    intro m
    cases hm : nodes[m]? with
    | none =>
      have hmA := heapRel_none h hm
      simp only [findLoop, SkipList.findLoop, hm, hmA]
    | some mn =>
      obtain ⟨mna, hmna, hmd, hmn, hmk, hmv⟩ := h.2 m mn hm
      cases hd : mn.down with
      | some d =>
        have hdA : mna.down = some d := by rw [hmd, hd]
        by_cases hkk : mn.k = some k
        · have hkkA : mna.k = some k := by rw [hmk, hkk]
          simp only [findLoop, SkipList.findLoop, hm, hmna, hd, hdA,
            if_pos hkk, if_pos hkkA]
          exact (hmv (by rw [hkk]; rfl)).symm
        · have hkkA : ¬ mna.k = some k := by rw [hmk]; exact hkk
          simp only [findLoop, SkipList.findLoop, hm, hmna, hd, hdA,
            if_neg hkk, if_neg hkkA]
          rw [show findInLevel nodesA nodesA.length d k =
              SkipList.findInLevel nodes nodes.length d k from by
            rw [h.1]
            exact findInLevel_rel h k nodes.length d]
          exact ih _
      | none =>
        have hdA : mna.down = none := by rw [hmd, hd]
        by_cases hkk : mn.k = some k
        · have hkkA : mna.k = some k := by rw [hmk, hkk]
          simp only [findLoop, SkipList.findLoop, hm, hmna, hd, hdA,
            if_pos hkk, if_pos hkkA]
          exact (hmv (by rw [hkk]; rfl)).symm
        · have hkkA : ¬ mna.k = some k := by rw [hmk]; exact hkk
          simp only [findLoop, SkipList.findLoop, hm, hmna, hd, hdA,
            if_neg hkk, if_neg hkkA]

theorem find_rel {s : SkipList.SL} {sa : SLA} (hh : sa.heads = s.heads)
    (h : HeapRel s.nodes sa.nodes) (k : Key) :
    find sa k = SkipList.find s k := by
  cases hh0 : s.heads[0]? with
  | none =>
    have hh0A : sa.heads[0]? = none := by rw [hh, hh0]
    simp only [find, SkipList.find, hh0, hh0A]
  | some h0 =>
    have hh0A : sa.heads[0]? = some h0 := by rw [hh, hh0]
    simp only [find, SkipList.find, hh0, hh0A]
    rw [hh, h.1, findInLevel_rel h k, findLoop_rel h k]

theorem mkLoopSeq_step_none (nodes : List SkipList.Node)
    (heads : List Nat) (n : Nat) :
    SkipList.mkLoop nodes heads none (n + 1) =
      SkipList.mkLoop
        (nodes ++ [(⟨none, none, none, none⟩ : SkipList.Node)])
        (heads ++ [nodes.length]) (some nodes.length) n := by
  simp [SkipList.mkLoop]

theorem mkLoopSeq_step_dead (nodes : List SkipList.Node)
    (heads : List Nat) (p n : Nat)
    (hp : (nodes ++ [(⟨none, none, none, none⟩ : SkipList.Node)])[p]? =
      none) :
    SkipList.mkLoop nodes heads (some p) (n + 1) =
      SkipList.mkLoop
        (nodes ++ [(⟨none, none, none, none⟩ : SkipList.Node)])
        (heads ++ [nodes.length]) (some nodes.length) n := by
  simp [SkipList.mkLoop, hp]

theorem mkLoopSeq_step_some (nodes : List SkipList.Node)
    (heads : List Nat) (p n : Nat) {pn : SkipList.Node}
    (hp : (nodes ++ [(⟨none, none, none, none⟩ : SkipList.Node)])[p]? =
      some pn) :
    SkipList.mkLoop nodes heads (some p) (n + 1) =
      SkipList.mkLoop
        ((nodes ++ [(⟨none, none, none, none⟩ : SkipList.Node)]).set p
          ⟨some nodes.length, pn.next, pn.k, pn.v⟩)
        (heads ++ [nodes.length]) (some nodes.length) n := by
  simp [SkipList.mkLoop, hp]

theorem mkLoop_a_step_none (nodesA : List Node) (heads : List Nat)
    (n : Nat) :
    mkLoop nodesA heads none (n + 1) =
      mkLoop (nodesA ++ [(⟨none, none, none, 0⟩ : Node)])
        (heads ++ [nodesA.length]) (some nodesA.length) n := by
  simp [mkLoop]

theorem mkLoop_a_step_dead (nodesA : List Node) (heads : List Nat)
    (p n : Nat)
    (hp : (nodesA ++ [(⟨none, none, none, 0⟩ : Node)])[p]? = none) :
    mkLoop nodesA heads (some p) (n + 1) =
      mkLoop (nodesA ++ [(⟨none, none, none, 0⟩ : Node)])
        (heads ++ [nodesA.length]) (some nodesA.length) n := by
  simp [mkLoop, hp]

theorem mkLoop_a_step_some (nodesA : List Node) (heads : List Nat)
    (p n : Nat) {pn : Node}
    (hp : (nodesA ++ [(⟨none, none, none, 0⟩ : Node)])[p]? = some pn) :
    mkLoop nodesA heads (some p) (n + 1) =
      mkLoop ((nodesA ++ [(⟨none, none, none, 0⟩ : Node)]).set p
          ⟨some nodesA.length, pn.next, pn.k, pn.v⟩)
        (heads ++ [nodesA.length]) (some nodesA.length) n := by
  simp [mkLoop, hp]

theorem mkLoop_rel :
    ∀ (n : Nat) (nodes : List SkipList.Node) (nodesA : List Node)
      (heads : List Nat) (prev : Option Nat), HeapRel nodes nodesA →
      (mkLoop nodesA heads prev n).heads =
        (SkipList.mkLoop nodes heads prev n).heads ∧
      HeapRel (SkipList.mkLoop nodes heads prev n).nodes
        (mkLoop nodesA heads prev n).nodes := by
  intro n
  induction n with
  | zero =>
    intro nodes nodesA heads prev h
    exact ⟨rfl, h⟩
  | succ n ih =>
    intro nodes nodesA heads prev h
    have hsent : NodeRel (⟨none, none, none, none⟩ : SkipList.Node)
        (⟨none, none, none, 0⟩ : Node) := by
      refine ⟨rfl, rfl, rfl, ?_⟩
      intro hx
      simp at hx
    have h1 : HeapRel
        (nodes ++ [(⟨none, none, none, none⟩ : SkipList.Node)])
        (nodesA ++ [(⟨none, none, none, 0⟩ : Node)]) :=
      heapRel_append h hsent
    cases prev with
    | none =>
      rw [mkLoopSeq_step_none, mkLoop_a_step_none, h.1]
      exact ih _ _ _ _ h1
    | some p =>
      cases hp :
        (nodes ++ [(⟨none, none, none, none⟩ : SkipList.Node)])[p]? with
      | none =>
        have hpA := heapRel_none h1 hp
        rw [mkLoopSeq_step_dead nodes heads p n hp,
          mkLoop_a_step_dead nodesA heads p n hpA, h.1]
        exact ih _ _ _ _ h1
      | some pn =>
        obtain ⟨pna, hpna, hpd, hpnx, hpk, hpv⟩ := h1.2 p pn hp
        rw [mkLoopSeq_step_some nodes heads p n hp,
          mkLoop_a_step_some nodesA heads p n hpna, h.1]
        refine ih _ _ _ _ (heapRel_set h1 ?_)
        exact ⟨rfl, hpnx, hpk, hpv⟩

theorem mkSkipList_rel (H : Nat) :
    (mkSkipList H).heads = (SkipList.mkSkipList H).heads ∧
    HeapRel (SkipList.mkSkipList H).nodes (mkSkipList H).nodes := by
  refine mkLoop_rel H [] [] [] none ⟨rfl, ?_⟩
  intro i n hn
  simp at hn

theorem upsert_rel {s : SkipList.SL} {sa : SLA} (hh : sa.heads = s.heads)
    (h : HeapRel s.nodes sa.nodes) (coins : Nat → Bool) (pos : Nat)
    (k : Key) (v : Val) :
    (upsert sa coins pos k v = none ∧
      SkipList.upsert s coins pos k v = none) ∨
    (∃ (s' : SkipList.SL) (sa' : SLA) (pos' : Nat),
      SkipList.upsert s coins pos k v = some (s', pos') ∧
      upsert sa coins pos k v = some (sa', pos') ∧
      sa'.heads = s'.heads ∧ HeapRel s'.nodes sa'.nodes) := by
  cases hh0 : s.heads[0]? with
  | none =>
    left
    have hh0A : sa.heads[0]? = none := by rw [hh, hh0]
    constructor
    · simp only [upsert, hh0A]
    · simp only [SkipList.upsert, hh0]
  | some h0 =>
    right
    have hh0A : sa.heads[0]? = some h0 := by rw [hh, hh0]
    obtain ⟨r1, r2, r3⟩ := upsertRec_rel coins k v s.heads.length
      s.nodes sa.nodes pos (some h0) h
    refine ⟨⟨(SkipList.upsertRec coins k v s.nodes pos (some h0)
        s.heads.length).2.1, s.heads⟩,
      ⟨(upsertRec coins k v sa.nodes pos (some h0)
        s.heads.length).2.1, s.heads⟩,
      (SkipList.upsertRec coins k v s.nodes pos (some h0)
        s.heads.length).2.2, ?_, ?_, rfl, r3⟩
    · simp only [SkipList.upsert, hh0]
    · simp only [upsert, hh, hh0]
      rw [r2]

theorem runUpserts_rel (coins : Nat → Bool) :
    ∀ (ops : List (Key × Val)) (s : SkipList.SL) (sa : SLA) (pos : Nat),
      sa.heads = s.heads → HeapRel s.nodes sa.nodes →
      (runUpserts coins sa pos ops = none ∧
        SkipList.runUpserts coins s pos ops = none) ∨
      (∃ (s' : SkipList.SL) (sa' : SLA) (pos' : Nat),
        SkipList.runUpserts coins s pos ops = some (s', pos') ∧
        runUpserts coins sa pos ops = some (sa', pos') ∧
        sa'.heads = s'.heads ∧ HeapRel s'.nodes sa'.nodes) := by
  intro ops
  induction ops with
  | nil =>
    intro s sa pos hh h
    right
    exact ⟨s, sa, pos, rfl, rfl, hh, h⟩
  | cons op ops ih =>
    intro s sa pos hh h
    obtain ⟨k, v⟩ := op
    rcases upsert_rel hh h coins pos k v with ⟨hA, hS⟩ |
      ⟨s1, sa1, pos1, hS, hA, hh1, h1⟩
    · left
      constructor
      · show (match upsert sa coins pos k v with
          | none => none
          | some (s1, pos1) => runUpserts coins s1 pos1 ops) = none
        rw [hA]
      · show (match SkipList.upsert s coins pos k v with
          | none => none
          | some (s1, pos1) =>
            SkipList.runUpserts coins s1 pos1 ops) = none
        rw [hS]
    · have hrec := ih s1 sa1 pos1 hh1 h1
      have hstepA : runUpserts coins sa pos ((k, v) :: ops) =
          runUpserts coins sa1 pos1 ops := by
        show (match upsert sa coins pos k v with
          | none => none
          | some (s1, pos1) => runUpserts coins s1 pos1 ops) = _
        rw [hA]
      have hstepS : SkipList.runUpserts coins s pos ((k, v) :: ops) =
          SkipList.runUpserts coins s1 pos1 ops := by
        show (match SkipList.upsert s coins pos k v with
          | none => none
          | some (s1, pos1) =>
            SkipList.runUpserts coins s1 pos1 ops) = _
        rw [hS]
      rw [hstepA, hstepS]
      exact hrec

/-- C6: the sequential and the atomic single-writer variants share the
same structural algorithm: run single-threaded from fresh indexes of the
same height, with the same upsert sequence and the same coin outcomes,
they return equal `find` results for every key. -/
theorem C6_atomic_equiv (H : Nat) (coins : Nat → Bool)
    (ops : List (Key × Val)) (k : Key) :
    (runUpserts coins (mkSkipList H) 0 ops).map (fun r => find r.1 k) =
      (SkipList.runUpserts coins (SkipList.mkSkipList H) 0 ops).map
        (fun r => SkipList.find r.1 k) := by
  obtain ⟨hh, h⟩ := mkSkipList_rel H
  rcases runUpserts_rel coins ops (SkipList.mkSkipList H) (mkSkipList H)
      0 hh h with ⟨hA, hS⟩ | ⟨s', sa', pos', hS, hA, hh', h'⟩
  · rw [hA, hS]
    rfl
  · rw [hA, hS]
    show some (find (sa', pos').1 k) =
      some (SkipList.find (s', pos').1 k)
    exact congrArg some (find_rel hh' h' k)

end SkipListAtomicSingleWriter
